import Mathlib

/-
Verification of the template-safe text masking pipeline of the epd-translation
repository (src/translate_jinja.py) and the paragraph chunker of
src/translate_pdf.py.

Strings are modelled as `List Char`.  Python's `re` machinery is embedded
only at the instances the code uses: every pattern in the source is a fixed
delimiter pattern with non-greedy interior, whose leftmost-match semantics is
an explicit character scan.  All definitions are fuel-based and executable so
that concrete runs reduce by `decide` / `rfl`.
-/

namespace Epd

abbrev Text := List Char

/-- Unicode whitespace accepted by Python's regex class `\s` (for `str`
patterns) and by `str.strip()`. -/
def isPySpace (c : Char) : Bool :=
  c == ' ' || c == '\t' || c == '\n' || c == '\r' ||
  c.toNat == 11 || c.toNat == 12 ||
  (28 ≤ c.toNat && c.toNat ≤ 31) || c.toNat == 133 || c.toNat == 160 ||
  c.toNat == 0x1680 || (0x2000 ≤ c.toNat && c.toNat ≤ 0x200a) ||
  c.toNat == 0x2028 || c.toNat == 0x2029 || c.toNat == 0x202f ||
  c.toNat == 0x205f || c.toNat == 0x3000

/-- Consume the literal token `tok` from the front of `s`. -/
def dropPre : Text → Text → Option Text
  | [], s => some s
  | _ :: _, [] => none
  | p :: ps, c :: cs => if c = p then dropPre ps cs else none

/-- Maximal whitespace run at the front (regex `\s*`, which is effectively
deterministic in all the source's patterns because each `\s*` is followed by a
non-whitespace literal). -/
def wsSplit : Text → Text × Text
  | [] => ([], [])
  | c :: cs =>
    if isPySpace c then
      let p := wsSplit cs
      (c :: p.1, p.2)
    else ([], c :: cs)

/-- First occurrence of the literal token `tok` in `s`: returns the text
before it and the text after it.  This is the leftmost-match scan that
realises a non-greedy `.*?` followed by a literal delimiter. -/
def findTok (tok : Text) : Text → Option (Text × Text)
  | [] => (dropPre tok []).map fun r => (([] : Text), r)
  | c :: cs =>
    match dropPre tok (c :: cs) with
    | some r => some ([], r)
    | none => (findTok tok cs).map fun p => (c :: p.1, p.2)

/-- Leftmost position at which the parser `p` succeeds: returns the text
before the match, the parser's payload, and the rest.  This is `re.search`
specialised to the deterministic matchers used below. -/
def findPatP {α : Type} (p : Text → Option (α × Text)) : Text → Option (Text × α × Text)
  | [] => (p []).map fun q => (([] : Text), q.1, q.2)
  | c :: cs =>
    match p (c :: cs) with
    | some q => some ([], q.1, q.2)
    | none => (findPatP p cs).map fun q => (c :: q.1, q.2.1, q.2.2)

/-! ### Generic Jinja masking (mask_jinja / unmask_jinja) -/

/-- Matcher for `{<d>.*?<d'>}`-style delimited patterns (`{#.*?#}`,
`{%.*?%}`, `{{.*?}}`, with `re.DOTALL`): the literal opener, then the
shortest run up to the literal closer.  Returns (whole match, rest). -/
def matchDelim (opn cls : Text) (s : Text) : Option (Text × Text) :=
  (dropPre opn s).bind fun r =>
  (findTok cls r).map fun p => (opn ++ p.1 ++ cls, p.2)

/-- Matcher for `{%\s*w\s*%}` (the raw / endraw delimiters).  The greedy
`\s*` runs are deterministic since `w` and `%` are not whitespace. -/
def matchWord (w : Text) (s : Text) : Option (Text × Text) :=
  (dropPre ['{', '%'] s).bind fun r1 =>
  let p1 := wsSplit r1
  (dropPre w p1.2).bind fun r2 =>
  let p2 := wsSplit r2
  (dropPre ['%', '}'] p2.2).map fun r3 =>
    ('{' :: '%' :: p1.1 ++ w ++ p2.1 ++ ['%', '}'], r3)

/-- Matcher for the raw-block pattern `{%\s*raw\s*%}.*?{%\s*endraw\s*%}`:
the opener, then the shortest run up to the first endraw delimiter. -/
def matchRawAt (s : Text) : Option (Text × Text) :=
  (matchWord ['r', 'a', 'w'] s).bind fun q =>
  (findPatP (matchWord ['e', 'n', 'd', 'r', 'a', 'w']) q.2).map fun t =>
    (q.1 ++ t.1 ++ t.2.1, t.2.2)

/-- The four construct classes of JINJA_PATTERNS, in source order. -/
inductive JPat | raw | cmt | stmt | expr
deriving DecidableEq

/-- Anchored matcher for one pattern class at the start of `s`. -/
def matchAt : JPat → Text → Option (Text × Text)
  | .raw => matchRawAt
  | .cmt => matchDelim ['{', '#'] ['#', '}']
  | .stmt => matchDelim ['{', '%'] ['%', '}']
  | .expr => matchDelim ['{', '{'] ['}', '}']

/-- Leftmost match of a pattern class: (before, match, after), the shallow
embedding of `re.search(pat, masked, flags=re.DOTALL)`. -/
def jsearch (p : JPat) : Text → Option (Text × Text × Text) :=
  findPatP (matchAt p)

def digitChar : Nat → Char
  | 0 => '0' | 1 => '1' | 2 => '2' | 3 => '3' | 4 => '4'
  | 5 => '5' | 6 => '6' | 7 => '7' | 8 => '8' | _ => '9'

def natDigitsAux : Nat → Nat → Text
  | 0, _ => []
  | fuel + 1, n =>
    if n < 10 then [digitChar n]
    else natDigitsAux fuel (n / 10) ++ [digitChar (n % 10)]

/-- Decimal digits of `n` (no leading zeros; `0` is `"0"`). -/
def natDigits (n : Nat) : Text := natDigitsAux (n + 1) n

/-- Python's `f"{n:06d}"`: decimal digits left-padded with `0` to width 6
(longer representations are kept whole). -/
def pad6 (n : Nat) : Text := List.replicate (6 - (natDigits n).length) '0' ++ natDigits n

/-- Placeholder key `f"J{counter:06d}"`. -/
def keyOf (n : Nat) : Text := 'J' :: pad6 n

/-- Decimal decoding of a digit string (left fold); leading zeros are
value-preserving, which makes it the inverse of zero-padded rendering. -/
def decDigits : Nat → Text → Nat
  | acc, [] => acc
  | acc, c :: cs => decDigits (10 * acc + (c.toNat - 48)) cs

/-- Opening text of the placeholder element, up to the key. -/
def phPre : Text :=
  ['<', 'x', '-', 'j', 'i', 'n', 'j', 'a', ' ', 'd', 'a', 't', 'a', '-', 'k', '=', '"']

/-- Closing text of the placeholder element, after the key. -/
def phSuf : Text := ['"', '>', '<', '/', 'x', '-', 'j', 'i', 'n', 'j', 'a', '>']

/-- Placeholder element `f'<x-jinja data-k="{key}"></x-jinja>'`. -/
def phOf (k : Text) : Text := phPre ++ k ++ phSuf

structure MState where
  masked : Text
  mapping : List (Text × Text)
  counter : Nat

/-- Number of `{` characters; every pattern match consumes at least one, so
this bounds the number of replacements each scan loop can make. -/
def braceCount (s : Text) : Nat := s.countP (fun c => c == '{')

/-- One iteration of the `while True` replacement loop of `mask_jinja`:
replace the leftmost match with a fresh placeholder and record the mapping. -/
def maskStep (p : JPat) (st : MState) : Option MState :=
  (jsearch p st.masked).map fun q =>
    ⟨q.1 ++ phOf (keyOf st.counter) ++ q.2.2,
     st.mapping ++ [(keyOf st.counter, q.2.1)],
     st.counter + 1⟩

def maskLoop (p : JPat) : Nat → MState → MState
  | 0, st => st
  | fuel + 1, st =>
    match maskStep p st with
    | none => st
    | some st' => maskLoop p fuel st'

def maskPats : List JPat := [.raw, .cmt, .stmt, .expr]

/-- The mask_jinja run: the four pattern classes in order, each scanned to
exhaustion.  The fuel `braceCount + 1` strictly dominates the number of
replacements a loop can make (each match removes at least one `{` and the
placeholder contains none). -/
def maskJinja (src : Text) : Text × List (Text × Text) :=
  let st := maskPats.foldl (fun st p => maskLoop p (braceCount st.masked + 1) st)
    ⟨src, [], 0⟩
  (st.masked, st.mapping)

/-- The pattern-by-pattern fold of `mask_jinja`, factored out so the
invariant can be threaded through it. -/
def foldMask (ps : List JPat) (st : MState) : MState :=
  ps.foldl (fun st p => maskLoop p (braceCount st.masked + 1) st) st

/-- Exactly `n` decimal digits from the front of `s`. -/
def takeDigits : Nat → Text → Option (Text × Text)
  | 0, s => some ([], s)
  | _ + 1, [] => none
  | n + 1, c :: cs =>
    if c.isDigit then (takeDigits n cs).map fun p => (c :: p.1, p.2) else none

/-- Anchored matcher for the unmask regex
`<x-jinja data-k="(J\d{6})"></x-jinja>`: returns (key, rest). -/
def matchShapeAt (s : Text) : Option (Text × Text) :=
  (dropPre (phPre ++ ['J']) s).bind fun r1 =>
  (takeDigits 6 r1).bind fun p =>
  (dropPre phSuf p.2).map fun r2 =>
    ('J' :: p.1, r2)

/-- First-match association lookup (Python dict access by key). -/
def alookup (k : Text) : List (Text × Text) → Option Text
  | [] => none
  | e :: m => if e.1 = k then some e.2 else alookup k m

/-- The `re.sub` scan of `unmask_jinja`: left to right, each placeholder
occurrence replaced by its mapped value (replacements are spliced, never
rescanned); a key absent from the map is Python's uncaught `KeyError`,
modelled as `none`. -/
def unmaskAux (m : List (Text × Text)) : Nat → Text → Option Text
  | 0, _ => none
  | _ + 1, [] => some []
  | fuel + 1, c :: cs =>
    match matchShapeAt (c :: cs) with
    | some q => (alookup q.1 m).bind fun v => (unmaskAux m fuel q.2).map fun r => v ++ r
    | none => (unmaskAux m fuel cs).map fun r => c :: r

def unmaskJinja (masked : Text) (m : List (Text × Text)) : Option Text :=
  unmaskAux m (masked.length + 1) masked

/-! ### String literals, unescaping, re-escaping -/

/-- Scan the body of a quoted literal with quote character `q` following the
token regex `q [^q\\]* (?:\\. [^q\\]*)* q` (DOTALL): any run of plain
characters, with backslash always escaping the next character, up to the
first unescaped `q`.  Returns (body, rest after closing quote). -/
def scanQuoted (q : Char) : Text → Option (Text × Text)
  | [] => none
  | c :: cs =>
    if c = q then some ([], cs)
    else if c = '\\' then
      match cs with
      | [] => none
      | e :: es => (scanQuoted q es).map fun p => (c :: e :: p.1, p.2)
    else (scanQuoted q cs).map fun p => (c :: p.1, p.2)

/-- Anchored matcher for STRING_LIT_RE: a full quoted token including its
quotes.  Returns (token, rest). -/
def matchStrLit : Text → Option (Text × Text)
  | [] => none
  | c :: cs =>
    if c = '\'' || c = '"' then
      (scanQuoted c cs).map fun p => (c :: p.1 ++ [c], p.2)
    else none

def hexVal (c : Char) : Option Nat :=
  if '0' ≤ c ∧ c ≤ '9' then some (c.toNat - 48)
  else if 'a' ≤ c ∧ c ≤ 'f' then some (c.toNat - 87)
  else if 'A' ≤ c ∧ c ≤ 'F' then some (c.toNat - 55)
  else none

def isOctDigit (c : Char) : Bool := '0' ≤ c && c ≤ '7'

/-- Up to `k` further octal digits, accumulating onto `v`. -/
def octMore : Nat → Nat → Text → Nat × Text
  | 0, v, s => (v, s)
  | _ + 1, v, [] => (v, [])
  | k + 1, v, c :: cs =>
    if isOctDigit c then octMore k (v * 8 + (c.toNat - 48)) cs else (v, c :: cs)

/-- Exactly `k` hex digits, accumulating onto `v`; fails if any is missing. -/
def hexN : Nat → Nat → Text → Option (Nat × Text)
  | 0, v, s => some (v, s)
  | _ + 1, _, [] => none
  | k + 1, v, c :: cs => (hexVal c).bind fun h => hexN k (v * 16 + h) cs

/-- Python string-literal unescaping as performed by `ast.literal_eval` on a
quoted token's body.  Escapes: line continuation, `\\ \' \" \a \b \f \n \r
\t \v`, octal (1-3 digits), `\xhh`, `\uhhhh`, `\Uhhhhhhhh`; an unknown escape
keeps the backslash.  Outside the model (mapped to failure): `\N{name}`
lookup and escapes denoting lone surrogate code points, which `List Char`
cannot carry. -/
def pyUnescape : Nat → Text → Option Text
  | 0, _ => none
  | _ + 1, [] => some []
  | fuel + 1, c :: cs =>
    if c = '\\' then
      match cs with
      | [] => none
      | e :: es =>
        if e = '\n' ∨ e = '\r' then pyUnescape fuel es
        else if e = '\\' then (pyUnescape fuel es).map fun r => '\\' :: r
        else if e = '\'' then (pyUnescape fuel es).map fun r => '\'' :: r
        else if e = '"' then (pyUnescape fuel es).map fun r => '"' :: r
        else if e = 'a' then (pyUnescape fuel es).map fun r => Char.ofNat 7 :: r
        else if e = 'b' then (pyUnescape fuel es).map fun r => Char.ofNat 8 :: r
        else if e = 'f' then (pyUnescape fuel es).map fun r => Char.ofNat 12 :: r
        else if e = 'n' then (pyUnescape fuel es).map fun r => '\n' :: r
        else if e = 'r' then (pyUnescape fuel es).map fun r => Char.ofNat 13 :: r
        else if e = 't' then (pyUnescape fuel es).map fun r => '\t' :: r
        else if e = 'v' then (pyUnescape fuel es).map fun r => Char.ofNat 11 :: r
        else if e = 'x' then
          (hexN 2 0 es).bind fun p => (pyUnescape fuel p.2).map fun r => Char.ofNat p.1 :: r
        else if e = 'u' then
          (hexN 4 0 es).bind fun p =>
            if 0xd800 ≤ p.1 ∧ p.1 ≤ 0xdfff then none
            else (pyUnescape fuel p.2).map fun r => Char.ofNat p.1 :: r
        else if e = 'U' then
          (hexN 8 0 es).bind fun p =>
            if (0xd800 ≤ p.1 ∧ p.1 ≤ 0xdfff) ∨ 0x10ffff < p.1 then none
            else (pyUnescape fuel p.2).map fun r => Char.ofNat p.1 :: r
        else if e = 'N' then none
        else if isOctDigit e then
          let p := octMore 2 (e.toNat - 48) es
          (pyUnescape fuel p.2).map fun r => Char.ofNat p.1 :: r
        else (pyUnescape fuel es).map fun r => '\\' :: e :: r
    else (pyUnescape fuel cs).map fun r => c :: r

def pyUnescapeStr (t : Text) : Option Text := pyUnescape (t.length + 1) t

/-- The `ast.literal_eval(lit)` call on a matched string token: strip the
matching quotes and unescape the body; any failure is `none` (the code's
`except Exception`). -/
def pyLitEval (tok : Text) : Option Text :=
  match tok with
  | q :: rest =>
    if (q = '\'' ∨ q = '"') ∧ rest ≠ [] ∧ rest.getLast? = some q then
      pyUnescapeStr rest.dropLast
    else none
  | [] => none

/-- Python `str.strip(chars)`: remove every leading and trailing character
from the given set. -/
def pyStripWith (p : Char → Bool) (t : Text) : Text :=
  ((t.dropWhile p).reverse.dropWhile p).reverse

def pyTrim (t : Text) : Text := pyStripWith isPySpace t

def isQuoteChar (c : Char) : Bool := c == '"' || c == '\''

/-- The fallback `lit.strip("\"'")`: strips every leading and trailing quote
character of either kind, not only the outer pair. -/
def pyStripQuotes (t : Text) : Text := pyStripWith isQuoteChar t

/-- Extraction of a matched token's content: `ast.literal_eval` with the
`except Exception` fallback to `lit.strip("\"'")` — total by construction. -/
def extractContent (tok : Text) : Text :=
  match pyLitEval tok with
  | some c => c
  | none => pyStripQuotes tok

def hexDigitChar : Nat → Char
  | 0 => '0' | 1 => '1' | 2 => '2' | 3 => '3' | 4 => '4'
  | 5 => '5' | 6 => '6' | 7 => '7' | 8 => '8' | 9 => '9'
  | 10 => 'a' | 11 => 'b' | 12 => 'c' | 13 => 'd' | 14 => 'e' | _ => 'f'

def hex4 (n : Nat) : Text :=
  [hexDigitChar (n / 4096 % 16), hexDigitChar (n / 256 % 16),
   hexDigitChar (n / 16 % 16), hexDigitChar (n % 16)]

/-- Per-character escape of `json.dumps` with its default `ensure_ascii`:
quote and backslash, short escapes for the common control characters, `\uXXXX`
for other controls and all non-ASCII (surrogate pairs above the BMP). -/
def jsonEscChar (c : Char) : Text :=
  if c = '"' then ['\\', '"']
  else if c = '\\' then ['\\', '\\']
  else if c = '\n' then ['\\', 'n']
  else if c.toNat = 13 then ['\\', 'r']
  else if c = '\t' then ['\\', 't']
  else if c.toNat = 8 then ['\\', 'b']
  else if c.toNat = 12 then ['\\', 'f']
  else if c.toNat < 0x20 then '\\' :: 'u' :: hex4 c.toNat
  else if c.toNat < 0x7f then [c]
  else if c.toNat < 0x10000 then '\\' :: 'u' :: hex4 c.toNat
  else
    let n := c.toNat - 0x10000
    '\\' :: 'u' :: hex4 (0xd800 + n / 1024) ++ '\\' :: 'u' :: hex4 (0xdc00 + n % 1024)

/-- The `json.dumps(new_text)` call on a string. -/
def jsonDumps (t : Text) : Text := '"' :: t.flatMap jsonEscChar ++ ['"']

/-- The single-quote branch:
`new_text.replace("\\", "\\\\").replace("'", "\\'")`, two sequential global
replacements. -/
def escBackslashes (t : Text) : Text :=
  t.flatMap fun c => if c = '\\' then ['\\', '\\'] else [c]

def escSingleQuotes (t : Text) : Text :=
  t.flatMap fun c => if c = '\'' then ['\\', '\''] else [c]

def requoteSingle (t : Text) : Text :=
  '\'' :: escSingleQuotes (escBackslashes t) ++ ['\'']

/-! ### Heading-macro calls (literal rewriter and embedded-literal translator) -/

/-- Head character of a text, with the rest. -/
def takeHead : Text → Option (Char × Text)
  | [] => none
  | c :: cs => some (c, cs)

/-- Anchored matcher for LITERAL_MACRO_RE
`{{\s*heading([23])\(\s*(<string>)\s*\)\s*}}`.  Payload: (level, token). -/
def matchLitMacroAt (s : Text) : Option ((Char × Text) × Text) :=
  (dropPre ['{', '{'] s).bind fun r1 =>
  let w1 := wsSplit r1
  (dropPre ['h', 'e', 'a', 'd', 'i', 'n', 'g'] w1.2).bind fun r2 =>
  (takeHead r2).bind fun dr =>
  if dr.1 = '2' ∨ dr.1 = '3' then
    (dropPre ['('] dr.2).bind fun r4 =>
    let w2 := wsSplit r4
    (matchStrLit w2.2).bind fun pl =>
    let w3 := wsSplit pl.2
    (dropPre [')'] w3.2).bind fun r5 =>
    let w4 := wsSplit r5
    (dropPre ['}', '}'] w4.2).map fun r6 => ((dr.1, pl.1), r6)
  else none

/-- Wrapper tag `f"<x-h{lvl}>{content}</x-h{lvl}>"`. -/
def headTag (d : Char) (content : Text) : Text :=
  ['<', 'x', '-', 'h', d, '>'] ++ content ++ ['<', '/', 'x', '-', 'h', d, '>']

/-- The finditer-and-splice loop of `replace_literal_heading_macros_with_tags`:
each literal heading call replaced by a wrapper tag around its extracted
content, everything else copied verbatim. -/
def replaceLitF : Nat → Text → Text
  | 0, s => s
  | fuel + 1, s =>
    match findPatP matchLitMacroAt s with
    | none => s
    | some (b, (d, tok), rest) =>
      b ++ headTag d (extractContent tok) ++ replaceLitF fuel rest

def replaceLitMacros (s : Text) : Text := replaceLitF (s.length + 1) s

/-- Anchored matcher for `<x-h<d>>(.*?)</x-h<d>>`.  Payload: inner content. -/
def matchTagAt (d : Char) (s : Text) : Option (Text × Text) :=
  (dropPre ['<', 'x', '-', 'h', d, '>'] s).bind fun r =>
  (findTok ['<', '/', 'x', '-', 'h', d, '>'] r).map fun p => (p.1, p.2)

/-- Rebuilt macro call `"{{ heading<d>(" + json.dumps(content) + ") }}"`. -/
def macroCallOf (d : Char) (content : Text) : Text :=
  ['{', '{', ' ', 'h', 'e', 'a', 'd', 'i', 'n', 'g', d, '(']
    ++ jsonDumps content ++ [')', ' ', '}', '}']

/-- One `re.sub` pass for one tag level in `restore_heading_tags_to_macros`. -/
def restoreTagF (d : Char) : Nat → Text → Text
  | 0, s => s
  | fuel + 1, s =>
    match findPatP (matchTagAt d) s with
    | none => s
    | some (b, content, rest) => b ++ macroCallOf d content ++ restoreTagF d fuel rest

/-- The h2 pass followed by the h3 pass. -/
def restoreHeadingTags (s : Text) : Text :=
  let s2 := restoreTagF '2' (s.length + 1) s
  restoreTagF '3' (s2.length + 1) s2

/-- Anchored probe for the tail of ANY_MACRO_RE after the argument group:
`\s*\)\s*}}`.  Returns (consumed, rest). -/
def probeTail (s : Text) : Option (Text × Text) :=
  let w1 := wsSplit s
  (dropPre [')'] w1.2).bind fun r1 =>
  let w2 := wsSplit r1
  (dropPre ['}', '}'] w2.2).map fun r2 => (w1.1 ++ ')' :: w2.1 ++ ['}', '}'], r2)

structure MacroCall where
  before : Text
  lvl : Char
  headPart : Text
  argGroup : Text
  tailPart : Text
deriving DecidableEq

/-- Anchored matcher for ANY_MACRO_RE
`{{\s*heading([23])\(\s*(?P<arg>.*?)\s*\)\s*}}`: the argument group is the
shortest run after which `\s*\)\s*}}` matches; with the leading `\s*` maximal
and the group minimal, the group neither starts nor ends with whitespace. -/
def matchAnyMacroAt (before : Text) (s : Text) : Option (MacroCall × Text) :=
  (dropPre ['{', '{'] s).bind fun r1 =>
  let w1 := wsSplit r1
  (dropPre ['h', 'e', 'a', 'd', 'i', 'n', 'g'] w1.2).bind fun r2 =>
  (takeHead r2).bind fun dr =>
  if dr.1 = '2' ∨ dr.1 = '3' then
    (dropPre ['('] dr.2).bind fun r4 =>
    let w2 := wsSplit r4
    (findPatP probeTail w2.2).map fun t =>
      (⟨before, dr.1,
        '{' :: '{' :: w1.1 ++ ['h', 'e', 'a', 'd', 'i', 'n', 'g', dr.1, '('] ++ w2.1,
        t.1, t.2.1⟩, t.2.2)
  else none

/-- All ANY_MACRO_RE matches of the document in order (the finditer loop):
the list of calls, each carrying the text before it, plus the trailing text. -/
def scanMacrosF : Nat → Text → List MacroCall × Text
  | 0, s => ([], s)
  | fuel + 1, s =>
    match findPatP (matchAnyMacroAt []) s with
    | none => ([], s)
    | some (b, mc, rest) =>
      let t := scanMacrosF fuel rest
      ({ mc with before := b } :: t.1, t.2)

def scanMacros (s : Text) : List MacroCall × Text := scanMacrosF (s.length + 1) s

/-- All STRING_LIT_RE matches inside an argument, in order, as an alternating
decomposition: (text before token, token) pairs plus the trailing text. -/
def scanLitsF : Nat → Text → List (Text × Text) × Text
  | 0, s => ([], s)
  | fuel + 1, s =>
    match findPatP matchStrLit s with
    | none => ([], s)
    | some (b, tok, rest) =>
      let t := scanLitsF fuel rest
      ((b, tok) :: t.1, t.2)

def scanLits (s : Text) : List (Text × Text) × Text := scanLitsF (s.length + 1) s

/-- The skip test `arg.startswith(("'", '"')) and arg.endswith(("'", '"'))`
of the embedded-literal translator: first and last character are quote
characters (in any combination). -/
def argSkipped (arg : Text) : Bool :=
  match arg, arg.getLast? with
  | c :: _, some e => isQuoteChar c && isQuoteChar e
  | _, _ => false

/-- Nonempty extracted contents of one processed argument, in order. -/
def collectCall (arg : Text) : List Text :=
  (scanLits arg).1.filterMap fun bt =>
    let c := extractContent bt.2
    if c = [] then none else some c

/-- The gathering loop of `translate_string_literals_in_nonliteral_macros`:
`to_translate` accumulated over all macro calls in document order, skipping
quote-delimited arguments.  The code computes `arg = group.strip()`; the
regex's surrounding `\s*` makes the group already stripped, so the trimmed
argument is also the exact source slice the splice phase edits. -/
def collectDoc (calls : List MacroCall) : List Text :=
  calls.flatMap fun mc =>
    let arg := pyTrim mc.argGroup
    if argSkipped arg then [] else collectCall arg

/-- Splice translated texts back into one argument's literal tokens, in
order, consuming the iterator; `none` models `StopIteration` (the translator
returned fewer texts than requested).  A token whose extracted content is
empty was never collected and is kept verbatim, as are the in-between
segments. -/
def spliceArg : List (Text × Text) → Text → List Text → Option (Text × List Text)
  | [], trail, ts => some (trail, ts)
  | (seg, tok) :: more, trail, ts =>
    if extractContent tok = [] then
      (spliceArg more trail ts).map fun p => (seg ++ tok ++ p.1, p.2)
    else
      match ts with
      | [] => none
      | t :: ts' =>
        let newLit := if tok.head? = some '\'' then requoteSingle t else jsonDumps t
        (spliceArg more trail ts').map fun p => (seg ++ newLit ++ p.1, p.2)

/-- The map-back loop: every call re-emitted in order; processed calls (not
skipped, at least one nonempty literal) have their argument spliced, all
others are copied verbatim. -/
def spliceDoc : List MacroCall → Text → List Text → Option Text
  | [], trail, _ => some trail
  | mc :: more, trail, ts =>
    let arg := pyTrim mc.argGroup
    if argSkipped arg = true ∨ collectCall arg = [] then
      (spliceDoc more trail ts).map fun r =>
        mc.before ++ mc.headPart ++ mc.argGroup ++ mc.tailPart ++ r
    else
      (spliceArg (scanLits arg).1 (scanLits arg).2 ts).bind fun p =>
      (spliceDoc more trail p.2).map fun r =>
        mc.before ++ mc.headPart ++ p.1 ++ mc.tailPart ++ r

/-- The whole `translate_string_literals_in_nonliteral_macros`, with the
vendor abstracted as `f`; also returns the list of translation requests
issued (each request is a batch list). -/
def translateNonlit (f : List Text → List Text) (src : Text) :
    Option Text × List (List Text) :=
  let sc := scanMacros src
  let toT := collectDoc sc.1
  if toT = [] then (some src, [])
  else (spliceDoc sc.1 sc.2 (f toT), [toT])

/-! ### PDF chunking (translate_pdf.chunk_text / translate_text) -/

/-- Python `str.split(sep)` for a nonempty separator: non-overlapping
leftmost splits, empty pieces preserved. -/
def splitTokF (sep : Text) : Nat → Text → List Text
  | 0, s => [s]
  | fuel + 1, s =>
    match findTok sep s with
    | none => [s]
    | some (pre, rest) => pre :: splitTokF sep fuel rest

def splitOnSep (sep s : Text) : List Text := splitTokF sep (s.length + 1) s

/-- Paragraphs of `chunk_text`: drop `\r`, split on blank lines, strip each
part, drop empties (the `continue`). -/
def parasOf (text : Text) : List Text :=
  (((splitOnSep ['\n', '\n'] (text.filter fun c => c ≠ '\r'))).map pyTrim).filter
    fun p => p ≠ []

/-- Python `"\n\n".join(l)`. -/
def joinParas : List Text → Text
  | [] => []
  | [p] => p
  | p :: q :: t => p ++ '\n' :: '\n' :: joinParas (q :: t)

/-- The greedy packing loop of `chunk_text`: close the current chunk whenever
`length + len(part) + 2` would exceed the limit (note: the closed chunk is
appended even when empty, and a single oversized part becomes its own chunk
with no size check). -/
def packParas (maxLen : Nat) : List Text → List Text → Nat → List Text → List Text
  | [], cur, _, chunks => chunks ++ (if cur = [] then [] else [joinParas cur])
  | p :: ps, cur, len, chunks =>
    if maxLen < len + p.length + 2 then
      packParas maxLen ps [p] p.length (chunks ++ [joinParas cur])
    else
      packParas maxLen ps (cur ++ [p]) (len + p.length + 2) chunks

def chunkText (text : Text) (maxLen : Nat) : List Text :=
  if text.length ≤ maxLen then [text]
  else packParas maxLen (parasOf text) [] 0 []

/-- `translate_text`: translate each chunk independently and join with blank
lines, the vendor abstracted as `f`. -/
def translateTextPdf (f : Text → Text) (text : Text) (maxLen : Nat) : Text :=
  joinParas ((chunkText text maxLen).map f)

/-! ### Specification-side definitions used to state the claims -/

/-- `tok` occurs somewhere inside `s` as a contiguous substring. -/
def occursTok (tok s : Text) : Prop := ∃ u v, s = u ++ tok ++ v

/-- Well-formedness of a paragraph produced by `parasOf`: nonempty, no blank
line inside, and trimmed at both ends (enough that joining with blank lines
and re-splitting is the identity). -/
def okPara (p : Text) : Prop :=
  p ≠ [] ∧ findTok ['\n', '\n'] p = none ∧ p.head? ≠ some '\n' ∧ p.getLast? ≠ some '\n'

/-- The literal token with only its two outer quote characters removed (what
the spec's words "stripped of its outer quote characters" denote, as opposed
to the code's strip of every edge quote character). -/
def outerStripped (tok : Text) : Text := (tok.drop 1).dropLast

/-- The argument `arg` is one single pure string literal (the whole argument
is one STRING_LIT_RE token). -/
def isPureStrLit (arg : Text) : Bool := matchStrLit arg == some (arg, [])

/-- Re-escaping of one translated text into the original token's quote
convention, per the amended claim: single-quoted originals escape only
backslash and single quote, double-quoted originals use JSON-style escaping. -/
def requoteSpec (tok t : Text) : Text :=
  if tok.head? = some '\'' then requoteSingle t else jsonDumps t

/-- Specification rendering of one processed argument: every literal token
with nonempty content is replaced by the re-quoted next translation, all
other characters are kept verbatim. -/
def argRender : List (Text × Text) → Text → List Text → Text
  | [], trail, _ => trail
  | (seg, tok) :: more, trail, ts =>
    if extractContent tok = [] then seg ++ tok ++ argRender more trail ts
    else seg ++ requoteSpec tok (ts.headD []) ++ argRender more trail ts.tail

/-- Specification rendering of the whole document: every call re-emitted in
order, processed arguments rendered by `argRender` on their share of the
translated batch, everything else verbatim. -/
def docRender : List MacroCall → Text → List Text → Text
  | [], trail, _ => trail
  | mc :: more, trail, ts =>
    let arg := pyTrim mc.argGroup
    if argSkipped arg = true ∨ collectCall arg = [] then
      mc.before ++ mc.headPart ++ mc.argGroup ++ mc.tailPart ++ docRender more trail ts
    else
      mc.before ++ mc.headPart ++ argRender (scanLits arg).1 (scanLits arg).2 ts
        ++ mc.tailPart ++ docRender more trail (ts.drop (collectCall arg).length)

/-- Document laid flat again from a macro scan. -/
def flattenScan (sc : List MacroCall × Text) : Text :=
  (sc.1.flatMap fun mc => mc.before ++ mc.headPart ++ mc.argGroup ++ mc.tailPart) ++ sc.2

/-- Number of literal tokens of an argument that consume one translation. -/
def countLits (lits : List (Text × Text)) : Nat :=
  (lits.filter fun bt => !(extractContent bt.2 == [])).length

/-- A placeholder key as the unmask regex recognises it: `J` followed by
exactly six decimal digits. -/
def wfKey (k : Text) : Prop :=
  ∃ ds, k = 'J' :: ds ∧ ds.length = 6 ∧ ∀ c ∈ ds, c.isDigit

/-- No substring of `t` matches the placeholder regex. -/
def shapeFree (t : Text) : Prop := ∀ i, matchShapeAt (t.drop i) = none

/-- Decomposition of a masked text into literal chunks and placeholders. -/
inductive Seg
  | lit (t : Text)
  | hole (k : Text)

def flatSegs : List Seg → Text
  | [] => []
  | .lit t :: rest => t ++ flatSegs rest
  | .hole k :: rest => phOf k ++ flatSegs rest

def holeKeys : List Seg → List Text
  | [] => []
  | .lit _ :: rest => holeKeys rest
  | .hole k :: rest => k :: holeKeys rest

/-- The text a decomposition denotes once every hole is resolved through the
mapping (fails exactly when some hole's key is absent). -/
def origSegs (m : List (Text × Text)) : List Seg → Option Text
  | [] => some []
  | .lit t :: rest => (origSegs m rest).map fun r => t ++ r
  | .hole k :: rest => (alookup k m).bind fun v => (origSegs m rest).map fun r => v ++ r

/-- Invariant of a masked text's decomposition: literal chunks contain no
placeholder-shaped substring, no two literal chunks are adjacent, and every
hole carries a well-formed six-digit key. -/
def goodSegs : List Seg → Prop
  | [] => True
  | .lit t :: rest => shapeFree t ∧ (∀ t', rest.head? ≠ some (.lit t')) ∧ goodSegs rest
  | .hole k :: rest => wfKey k ∧ goodSegs rest

/-- A literal chunk, omitted when empty (keeps decompositions adjacency-free). -/
def litOpt (t : Text) : List Seg := if t = [] then [] else [Seg.lit t]

/-- The keys of the placeholder occurrences of a text, leftmost to
rightmost, as the unmask scan would visit them. -/
def shapeKeysScan : Nat → Text → List Text
  | 0, _ => []
  | _ + 1, [] => []
  | fuel + 1, c :: cs =>
    match matchShapeAt (c :: cs) with
    | some q => q.1 :: shapeKeysScan fuel q.2
    | none => shapeKeysScan fuel cs

def shapeKeys (t : Text) : List Text := shapeKeysScan (t.length + 1) t

/-- Invariant carried through the mask_jinja replacement loops: the masked
text decomposes into shape-free literal chunks and one placeholder per
mapping entry, resolving the placeholders through the mapping restores the
original document, and the mapping's keys are `J000000, J000001, ...` in
allocation order. -/
def MInv (src : Text) (st : MState) : Prop :=
  ∃ segs : List Seg,
    goodSegs segs ∧
    flatSegs segs = st.masked ∧
    origSegs st.mapping segs = some src ∧
    (holeKeys segs).Perm (st.mapping.map Prod.fst) ∧
    st.mapping.map Prod.fst = (List.range st.counter).map keyOf

/-- The token `tok` occurs in `s` starting at position `i`. -/
def tokAt (s tok : Text) (i : Nat) : Prop :=
  ∃ u v, s = u ++ (tok ++ v) ∧ u.length = i

/-- Matchability of a `{d.*?d'}`-delimited pattern: an opener occurrence
followed (at or after its end) by a closer occurrence. -/
def hasDelim (opn cls : Text) (s : Text) : Prop :=
  ∃ i j, i + opn.length ≤ j ∧ tokAt s opn i ∧ tokAt s cls j

def isWs (l : Text) : Prop := ∀ c ∈ l, isPySpace c = true

/-- A `{%\s*w\s*%}` delimiter with explicit whitespace runs. -/
def wordTok (w sp1 sp2 : Text) : Text :=
  '{' :: '%' :: (sp1 ++ (w ++ (sp2 ++ ['%', '}'])))

/-- Matchability of the raw-block pattern: a raw opener followed by an
endraw closer. -/
def hasRaw (s : Text) : Prop :=
  ∃ i j sp1 sp2 sp3 sp4, isWs sp1 ∧ isWs sp2 ∧ isWs sp3 ∧ isWs sp4 ∧
    i + (wordTok ['r', 'a', 'w'] sp1 sp2).length ≤ j ∧
    tokAt s (wordTok ['r', 'a', 'w'] sp1 sp2) i ∧
    tokAt s (wordTok ['e', 'n', 'd', 'r', 'a', 'w'] sp3 sp4) j

/-- Matchability of each pattern class, as pure occurrence structure. -/
def hasPat : JPat → Text → Prop
  | .raw => hasRaw
  | .cmt => hasDelim ['{', '#'] ['#', '}']
  | .stmt => hasDelim ['{', '%'] ['%', '}']
  | .expr => hasDelim ['{', '{'] ['}', '}']

/-! ## Basic properties of the scanning primitives -/

theorem dropPre_split {tok : Text} : ∀ {s r : Text}, dropPre tok s = some r → s = tok ++ r := by
  induction tok with
  | nil => intro s r h; simp [dropPre] at h; simp [h]
  | cons p ps ih =>
    intro s r h
    cases s with
    | nil => simp [dropPre] at h
    | cons c cs =>
      rw [dropPre] at h
      split at h
      · rename_i hc; subst hc; simpa using ih h
      · exact absurd h (by simp)

theorem dropPre_refl (tok r : Text) : dropPre tok (tok ++ r) = some r := by
  induction tok with
  | nil => simp [dropPre]
  | cons p ps ih => simp [dropPre, ih]

theorem findTok_nil (tok : Text) :
    findTok tok [] = (dropPre tok []).map fun r => (([] : Text), r) := by
  rw [findTok]

theorem findTok_cons_some {tok : Text} {c : Char} {cs r0 : Text}
    (hd : dropPre tok (c :: cs) = some r0) : findTok tok (c :: cs) = some ([], r0) := by
  rw [findTok, hd]

theorem findTok_cons_none {tok : Text} {c : Char} {cs : Text}
    (hd : dropPre tok (c :: cs) = none) :
    findTok tok (c :: cs) = (findTok tok cs).map fun p => (c :: p.1, p.2) := by
  rw [findTok, hd]

theorem findPatP_cons_some {α : Type} {p : Text → Option (α × Text)} {c : Char} {cs : Text}
    {q : α × Text} (hq : p (c :: cs) = some q) :
    findPatP p (c :: cs) = some ([], q.1, q.2) := by
  rw [findPatP, hq]

theorem findPatP_cons_none {α : Type} {p : Text → Option (α × Text)} {c : Char} {cs : Text}
    (hq : p (c :: cs) = none) :
    findPatP p (c :: cs) = (findPatP p cs).map fun q => (c :: q.1, q.2.1, q.2.2) := by
  rw [findPatP, hq]

theorem findTok_split {tok : Text} :
    ∀ {s : Text} {q : Text × Text}, findTok tok s = some q → s = q.1 ++ tok ++ q.2 := by
  intro s
  induction s with
  | nil =>
    intro q h
    simp only [findTok_nil, Option.map_eq_some'] at h
    obtain ⟨r0, h1, h2⟩ := h
    subst h2
    simpa using dropPre_split h1
  | cons c cs ih =>
    intro q h
    cases hd : dropPre tok (c :: cs) with
    | some r0 =>
      rw [findTok_cons_some hd, Option.some_inj] at h
      subst h
      simpa using dropPre_split hd
    | none =>
      rw [findTok_cons_none hd] at h
      simp only [Option.map_eq_some'] at h
      obtain ⟨q', h1, h2⟩ := h
      subst h2
      simpa using ih h1

theorem findPatP_split {α : Type} {p : Text → Option (α × Text)} {γ : α → Text}
    (hp : ∀ s q, p s = some q → s = γ q.1 ++ q.2) :
    ∀ {s : Text} {t : Text × α × Text}, findPatP p s = some t → s = t.1 ++ γ t.2.1 ++ t.2.2 := by
  intro s
  induction s with
  | nil =>
    intro t h
    simp only [findPatP, Option.map_eq_some'] at h
    obtain ⟨q, h1, h2⟩ := h
    subst h2
    simpa using hp _ _ h1
  | cons c cs ih =>
    intro t h
    cases hq : p (c :: cs) with
    | some q =>
      rw [findPatP_cons_some hq, Option.some_inj] at h
      subst h
      simpa using hp _ _ hq
    | none =>
      rw [findPatP_cons_none hq] at h
      simp only [Option.map_eq_some'] at h
      obtain ⟨q', h1, h2⟩ := h
      subst h2
      simpa using ih h1

theorem wsSplit_split (s : Text) : s = (wsSplit s).1 ++ (wsSplit s).2 := by
  induction s with
  | nil => simp [wsSplit]
  | cons c cs ih =>
    rw [wsSplit]
    split
    · simpa using ih
    · simp

theorem matchDelim_shape {opn cls s m r : Text} (h : matchDelim opn cls s = some (m, r)) :
    ∃ mid, m = opn ++ mid ++ cls ∧ s = m ++ r := by
  simp only [matchDelim, Option.bind_eq_some, Option.map_eq_some'] at h
  obtain ⟨s1, h1, q, h2, h3⟩ := h
  have hm : m = opn ++ q.1 ++ cls := (congrArg Prod.fst h3).symm
  have hr : r = q.2 := (congrArg Prod.snd h3).symm
  refine ⟨q.1, hm, ?_⟩
  have e1 := dropPre_split h1
  have e2 := findTok_split h2
  subst hr
  rw [e1, e2, hm]
  simp

theorem matchWord_shape {w s m r : Text} (h : matchWord w s = some (m, r)) :
    ∃ w1 w2, m = '{' :: '%' :: w1 ++ w ++ w2 ++ ['%', '}'] ∧ s = m ++ r := by
  simp only [matchWord, Option.bind_eq_some, Option.map_eq_some'] at h
  obtain ⟨s1, h1, s2, h2, s3, h3, h4⟩ := h
  have hm : m = '{' :: '%' :: (wsSplit s1).1 ++ w ++ (wsSplit s2).1 ++ ['%', '}'] :=
    (congrArg Prod.fst h4).symm
  have hr : r = s3 := (congrArg Prod.snd h4).symm
  refine ⟨(wsSplit s1).1, (wsSplit s2).1, hm, ?_⟩
  have e1 := dropPre_split h1
  have e2 := dropPre_split h2
  have e3 := dropPre_split h3
  subst hr
  rw [e1, hm]
  have g1 : s1 = (wsSplit s1).1 ++ (wsSplit s1).2 := wsSplit_split s1
  have g2 : s2 = (wsSplit s2).1 ++ (wsSplit s2).2 := wsSplit_split s2
  conv_lhs => rw [g1, e2, g2, e3]
  simp

theorem matchRawAt_split {s m r : Text} (h : matchRawAt s = some (m, r)) : s = m ++ r := by
  simp only [matchRawAt, Option.bind_eq_some, Option.map_eq_some'] at h
  obtain ⟨q, h1, t, h2, h3⟩ := h
  have hm : m = q.1 ++ t.1 ++ t.2.1 := (congrArg Prod.fst h3).symm
  have hr : r = t.2.2 := (congrArg Prod.snd h3).symm
  obtain ⟨w1, w2, _, hs⟩ := matchWord_shape (s := s) (m := q.1) (r := q.2) (by rw [h1])
  have e2 : q.2 = t.1 ++ t.2.1 ++ t.2.2 := by
    refine findPatP_split (γ := fun a => a) ?_ h2
    intro s' q' hw
    obtain ⟨_, _, _, hs'⟩ := matchWord_shape (m := q'.1) (r := q'.2) (by rw [hw])
    exact hs'
  subst hr
  rw [hs, e2, hm]
  simp

theorem matchAt_split {p : JPat} {s m r : Text} (h : matchAt p s = some (m, r)) : s = m ++ r := by
  cases p with
  | raw => exact matchRawAt_split h
  | cmt => obtain ⟨_, _, e⟩ := matchDelim_shape h; exact e
  | stmt => obtain ⟨_, _, e⟩ := matchDelim_shape h; exact e
  | expr => obtain ⟨_, _, e⟩ := matchDelim_shape h; exact e

theorem matchAt_split' {p : JPat} {s : Text} {q : Text × Text} (h : matchAt p s = some q) :
    s = q.1 ++ q.2 :=
  matchAt_split (m := q.1) (r := q.2) (by rw [h])

theorem jsearch_split {p : JPat} {s : Text} {t : Text × Text × Text}
    (h : jsearch p s = some t) : s = t.1 ++ t.2.1 ++ t.2.2 := by
  rw [jsearch] at h
  exact findPatP_split (γ := fun a => a) (fun _ _ => matchAt_split') h

/-! ## Chunking: properties of splitting, joining and greedy packing -/

theorem mid_nil_of_append_nil {u tok v : Text} (h : ([] : Text) = u ++ tok ++ v) : tok = [] := by
  have hl := congrArg List.length h
  simp only [List.length_nil, List.length_append] at hl
  exact List.length_eq_zero.mp (by omega)

theorem dropPre_append_right {tok : Text} :
    ∀ {x r : Text} (y : Text), dropPre tok x = some r → dropPre tok (x ++ y) = some (r ++ y) := by
  induction tok with
  | nil => intro x r y h; simp [dropPre] at h ⊢; simp [h]
  | cons p ps ih =>
    intro x r y h
    cases x with
    | nil => simp [dropPre] at h
    | cons c cs =>
      rw [dropPre] at h
      split at h
      · rename_i hc
        show dropPre (p :: ps) (c :: (cs ++ y)) = some (r ++ y)
        rw [dropPre, if_pos hc]
        exact ih y h
      · exact absurd h (by simp)

theorem findTok_none_not_occurs {tok : Text} (htok : tok ≠ []) :
    ∀ {s : Text}, findTok tok s = none → ¬ occursTok tok s := by
  intro s
  induction s with
  | nil =>
    intro _ hocc
    obtain ⟨u, v, huv⟩ := hocc
    exact htok (mid_nil_of_append_nil huv)
  | cons c cs ih =>
    intro h hocc
    cases hd : dropPre tok (c :: cs) with
    | some r0 => rw [findTok_cons_some hd] at h; simp at h
    | none =>
      rw [findTok_cons_none hd] at h
      simp only [Option.map_eq_none'] at h
      obtain ⟨u, v, huv⟩ := hocc
      cases u with
      | nil =>
        simp only [List.nil_append] at huv
        have : dropPre tok (c :: cs) = some v := by rw [huv]; exact dropPre_refl tok v
        rw [this] at hd; simp at hd
      | cons c' u' =>
        simp only [List.cons_append, List.cons.injEq] at huv
        exact ih h ⟨u', v, huv.2⟩

theorem occursTok_of_findTok_some {tok s : Text} {q : Text × Text}
    (h : findTok tok s = some q) : occursTok tok s :=
  ⟨q.1, q.2, findTok_split h⟩

theorem findTok_none_iff {tok : Text} (htok : tok ≠ []) {s : Text} :
    findTok tok s = none ↔ ¬ occursTok tok s := by
  constructor
  · exact findTok_none_not_occurs htok
  · intro h
    cases hf : findTok tok s with
    | none => rfl
    | some q => exact absurd (occursTok_of_findTok_some hf) h

theorem occursTok_infix {tok u mid v : Text} (h : occursTok tok mid) :
    occursTok tok (u ++ mid ++ v) := by
  obtain ⟨a, b, hab⟩ := h
  exact ⟨u ++ a, b ++ v, by rw [hab]; simp⟩

theorem findTok_prepend {tok r : Text} (htok : tok ≠ []) :
    ∀ {p : Text}, (∀ u v, p = u ++ v → v ≠ [] → dropPre tok (v ++ tok ++ r) = none) →
    findTok tok (p ++ tok ++ r) = some (p, r) := by
  intro p
  induction p with
  | nil =>
    intro _
    cases tok with
    | nil => exact absurd rfl htok
    | cons t0 ts =>
      simp only [List.nil_append]
      exact findTok_cons_some (by simpa using dropPre_refl (t0 :: ts) r)
  | cons c p' ih =>
    intro h
    have hd : dropPre tok ((c :: p') ++ tok ++ r) = none := by
      simpa using h [] (c :: p') rfl (by simp)
    have step := @findTok_cons_none tok c (p' ++ tok ++ r)
      (by simpa using hd)
    have hrec : findTok tok (p' ++ tok ++ r) = some (p', r) := by
      refine ih ?_
      intro u v huv hv
      exact h (c :: u) v (by rw [huv]; rfl) hv
    calc findTok tok ((c :: p') ++ tok ++ r)
      = findTok tok (c :: (p' ++ tok ++ r)) := by simp
    _ = (findTok tok (p' ++ tok ++ r)).map fun q => (c :: q.1, q.2) := step
    _ = some (c :: p', r) := by rw [hrec]; rfl

theorem splitTokF_fuel {sep : Text} (hsep : sep ≠ []) :
    ∀ f1 f2 s, s.length < f1 → s.length < f2 → splitTokF sep f1 s = splitTokF sep f2 s := by
  intro f1
  induction f1 with
  | zero => intro f2 s h1 _; exact absurd h1 (Nat.not_lt_zero _)
  | succ f ih =>
    intro f2 s h1 h2
    cases f2 with
    | zero => exact absurd h2 (Nat.not_lt_zero _)
    | succ f2' =>
      rw [splitTokF, splitTokF]
      cases hf : findTok sep s with
      | none => rfl
      | some q =>
        obtain ⟨pre, rest⟩ := q
        have hs := findTok_split hf
        have hq : rest.length < s.length := by
          rw [hs]
          simp only [List.length_append]
          have : 1 ≤ sep.length := by
            cases sep with
            | nil => exact absurd rfl hsep
            | cons _ _ => simp
          omega
        have e := ih f2' rest (by omega) (by omega)
        show pre :: splitTokF sep f rest = pre :: splitTokF sep f2' rest
        rw [e]

/-- A paragraph before the first separator occurrence contains none itself. -/
theorem findTok_some_pre_none {tok : Text} (htok : tok ≠ []) :
    ∀ {s : Text} {q : Text × Text}, findTok tok s = some q → ¬ occursTok tok q.1 := by
  intro s
  induction s with
  | nil =>
    intro q h
    simp only [findTok_nil, Option.map_eq_some'] at h
    obtain ⟨r0, h1, h2⟩ := h
    subst h2
    intro hocc
    obtain ⟨u, v, huv⟩ := hocc
    exact htok (mid_nil_of_append_nil huv)
  | cons c cs ih =>
    intro q h
    cases hd : dropPre tok (c :: cs) with
    | some r0 =>
      rw [findTok_cons_some hd, Option.some_inj] at h
      subst h
      intro hocc
      obtain ⟨u, v, huv⟩ := hocc
      exact htok (mid_nil_of_append_nil huv)
    | none =>
      rw [findTok_cons_none hd] at h
      simp only [Option.map_eq_some'] at h
      obtain ⟨q', h1, h2⟩ := h
      subst h2
      intro hocc
      obtain ⟨u, v, huv⟩ := hocc
      cases u with
      | nil =>
        simp only [List.nil_append] at huv
        have hsplit := findTok_split h1
        have hcc : c :: cs = tok ++ (v ++ (tok ++ q'.2)) := by
          calc c :: cs = (c :: q'.1) ++ (tok ++ q'.2) := by rw [hsplit]; simp
          _ = (tok ++ v) ++ (tok ++ q'.2) := by rw [huv]
          _ = tok ++ (v ++ (tok ++ q'.2)) := by simp
        have : dropPre tok (c :: cs) = some (v ++ (tok ++ q'.2)) := by
          rw [hcc]; exact dropPre_refl _ _
        rw [this] at hd; simp at hd
      | cons c' u' =>
        simp only [List.cons_append, List.cons.injEq] at huv
        exact ih h1 ⟨u', v, huv.2⟩

theorem splitTokF_succ_none {sep s : Text} {f : Nat} (hf : findTok sep s = none) :
    splitTokF sep (f + 1) s = [s] := by
  rw [splitTokF, hf]

theorem splitTokF_succ_some {sep s pre rest : Text} {f : Nat}
    (hf : findTok sep s = some (pre, rest)) :
    splitTokF sep (f + 1) s = pre :: splitTokF sep f rest := by
  rw [splitTokF, hf]

theorem splitTokF_no_occurs {sep : Text} (hsep : sep ≠ []) :
    ∀ fuel (s : Text), s.length < fuel → ∀ q ∈ splitTokF sep fuel s, ¬ occursTok sep q := by
  intro fuel
  induction fuel with
  | zero => intro s h; exact absurd h (Nat.not_lt_zero _)
  | succ f ih =>
    intro s hs q hq
    cases hf : findTok sep s with
    | none =>
      rw [splitTokF_succ_none hf] at hq
      simp only [List.mem_singleton] at hq
      subst hq
      exact findTok_none_not_occurs hsep hf
    | some pr =>
      obtain ⟨pre, rest⟩ := pr
      rw [splitTokF_succ_some hf] at hq
      rcases List.mem_cons.mp hq with h1 | h2
      · subst h1
        exact findTok_some_pre_none hsep hf
      · have hsplit := findTok_split hf
        have : rest.length < f := by
          have h1 : 1 ≤ sep.length := by
            cases sep with
            | nil => exact absurd rfl hsep
            | cons _ _ => simp
          have := congrArg List.length hsplit
          simp only [List.length_append] at this
          omega
        exact ih rest this q h2

theorem head?_dropWhile_not {p : Char → Bool} :
    ∀ {t : Text} {c : Char}, (t.dropWhile p).head? = some c → p c = false := by
  intro t
  induction t with
  | nil => intro c h; simp [List.dropWhile] at h
  | cons a t ih =>
    intro c h
    rw [List.dropWhile_cons] at h
    split at h
    · exact ih h
    · rename_i hpa
      simp only [List.head?_cons, Option.some_inj] at h
      subst h
      simpa using hpa

theorem pyTrim_getLast_not_space {t : Text} {c : Char}
    (h : (pyTrim t).getLast? = some c) : isPySpace c = false := by
  rw [pyTrim, pyStripWith, List.getLast?_reverse] at h
  exact head?_dropWhile_not h

theorem pyTrim_head_not_space {t : Text} {c : Char}
    (h : (pyTrim t).head? = some c) : isPySpace c = false := by
  rw [pyTrim, pyStripWith, List.head?_reverse] at h
  obtain ⟨w, hw⟩ := List.dropWhile_suffix (l := (t.dropWhile isPySpace).reverse) isPySpace
  have hdne : (t.dropWhile isPySpace).reverse.dropWhile isPySpace ≠ [] := by
    intro hnil
    rw [hnil] at h
    simp at h
  have h2 : (t.dropWhile isPySpace).reverse.getLast? = some c := by
    rw [← hw, List.getLast?_append_of_ne_nil _ hdne]
    exact h
  rw [List.getLast?_reverse] at h2
  exact head?_dropWhile_not h2

theorem pyTrim_infix (t : Text) : ∃ u v, t = u ++ pyTrim t ++ v := by
  obtain ⟨w1, hw1⟩ := List.dropWhile_suffix (l := t) isPySpace
  obtain ⟨w2, hw2⟩ := List.dropWhile_suffix (l := (t.dropWhile isPySpace).reverse) isPySpace
  refine ⟨w1, w2.reverse, ?_⟩
  have h3 : t.dropWhile isPySpace = pyTrim t ++ w2.reverse := by
    have h4 := congrArg List.reverse hw2
    simp only [List.reverse_append, List.reverse_reverse] at h4
    rw [pyTrim, pyStripWith]
    exact h4.symm
  calc t = w1 ++ t.dropWhile isPySpace := hw1.symm
  _ = w1 ++ (pyTrim t ++ w2.reverse) := by rw [h3]
  _ = w1 ++ pyTrim t ++ w2.reverse := by simp

theorem parasOf_ok {text : Text} : ∀ p ∈ parasOf text, okPara p := by
  intro p hp
  rw [parasOf] at hp
  simp only [List.mem_filter, List.mem_map, decide_eq_true_eq] at hp
  obtain ⟨⟨q, hq, hpq⟩, hne⟩ := hp
  have hqno : ¬ occursTok ['\n', '\n'] q := by
    refine splitTokF_no_occurs (by simp) _ _ ?_ q hq
    simp
  refine ⟨hne, ?_, ?_, ?_⟩
  · rw [findTok_none_iff (by simp)]
    intro hocc
    rw [← hpq] at hocc
    obtain ⟨u, v, huv⟩ := pyTrim_infix q
    exact hqno (by rw [huv]; exact occursTok_infix hocc)
  · intro hcon
    rw [← hpq] at hcon
    have := pyTrim_head_not_space hcon
    simp [isPySpace] at this
  · intro hcon
    rw [← hpq] at hcon
    have := pyTrim_getLast_not_space hcon
    simp [isPySpace] at this

theorem splitOnSep_join :
    ∀ {g : List Text}, (∀ p ∈ g, okPara p) → g ≠ [] →
      splitOnSep ['\n', '\n'] (joinParas g) = g := by
  intro g
  induction g with
  | nil => intro _ hne; exact absurd rfl hne
  | cons p g' ih =>
    intro hok _
    cases g' with
    | nil =>
      have hpok := hok p (by simp)
      rw [joinParas, splitOnSep]
      exact splitTokF_succ_none hpok.2.1
    | cons q0 t =>
      have hpok := hok p (by simp)
      have hfind : findTok ['\n', '\n'] (p ++ ['\n', '\n'] ++ joinParas (q0 :: t)) =
          some (p, joinParas (q0 :: t)) := by
        refine findTok_prepend (by simp) ?_
        intro u v huv hv
        cases v with
        | nil => exact absurd rfl hv
        | cons c1 v' =>
          cases v' with
          | nil =>
            have hlast : p.getLast? = some c1 := by rw [huv]; exact List.getLast?_concat u
            have hc1 : c1 ≠ '\n' := by
              intro he
              rw [he] at hlast
              exact hpok.2.2.2 hlast
            show dropPre ['\n', '\n'] (c1 :: ('\n' :: '\n' :: joinParas (q0 :: t))) = none
            rw [dropPre, if_neg hc1]
          | cons c2 v'' =>
            by_cases hc : c1 = '\n' ∧ c2 = '\n'
            · exfalso
              apply @findTok_none_not_occurs ['\n', '\n'] (by simp) _ hpok.2.1
              exact ⟨u, v'', by rw [huv, hc.1, hc.2]; simp⟩
            · show dropPre ['\n', '\n']
                (c1 :: c2 :: (v'' ++ ['\n', '\n'] ++ joinParas (q0 :: t))) = none
              rw [dropPre]
              split
              · rename_i hc1
                rw [dropPre]
                split
                · rename_i hc2
                  exact absurd ⟨hc1, hc2⟩ hc
                · rfl
              · rfl
      have hjoin : joinParas (p :: q0 :: t) = p ++ ['\n', '\n'] ++ joinParas (q0 :: t) := by
        rw [joinParas]; simp
      rw [splitOnSep, hjoin, splitTokF_succ_some hfind]
      have hlt : (joinParas (q0 :: t)).length <
          (p ++ ['\n', '\n'] ++ joinParas (q0 :: t)).length := by
        simp only [List.length_append, List.length_cons, List.length_nil]
        omega
      have hrec : splitTokF ['\n', '\n'] ((p ++ ['\n', '\n'] ++ joinParas (q0 :: t)).length)
          (joinParas (q0 :: t)) = splitOnSep ['\n', '\n'] (joinParas (q0 :: t)) := by
        rw [splitOnSep]
        exact splitTokF_fuel (by simp) _ _ _ hlt (by omega)
      rw [hrec, ih (fun x hx => hok x (by simp [hx])) (by simp)]

theorem joinParas_append_len (cur : List Text) (p : Text) :
    (joinParas (cur ++ [p])).length ≤ (joinParas cur).length + p.length + 2 := by
  induction cur with
  | nil => simp [joinParas]
  | cons a cur' ih =>
    cases cur' with
    | nil => simp [joinParas]; omega
    | cons b t =>
      have e1 : joinParas ((a :: b :: t) ++ [p]) =
          a ++ '\n' :: '\n' :: joinParas ((b :: t) ++ [p]) := by
        rw [show (a :: b :: t) ++ [p] = a :: (b :: (t ++ [p])) from by simp, joinParas]
        simp
      have e2 : joinParas (a :: b :: t) = a ++ '\n' :: '\n' :: joinParas (b :: t) := by
        rw [joinParas]
      rw [e1, e2]
      simp only [List.length_append, List.length_cons]
      have := ih
      simp only [List.length_append] at this ⊢
      omega

theorem packParas_nil {maxLen : Nat} {cur : List Text} {len : Nat} {chunks : List Text} :
    packParas maxLen [] cur len chunks =
      chunks ++ (if cur = [] then [] else [joinParas cur]) := by
  rw [packParas]

theorem packParas_cons_over {maxLen : Nat} {p : Text} {ps cur : List Text} {len : Nat}
    {chunks : List Text} (h : maxLen < len + p.length + 2) :
    packParas maxLen (p :: ps) cur len chunks =
      packParas maxLen ps [p] p.length (chunks ++ [joinParas cur]) := by
  rw [packParas, if_pos h]

theorem packParas_cons_keep {maxLen : Nat} {p : Text} {ps cur : List Text} {len : Nat}
    {chunks : List Text} (h : ¬ maxLen < len + p.length + 2) :
    packParas maxLen (p :: ps) cur len chunks =
      packParas maxLen ps (cur ++ [p]) (len + p.length + 2) chunks := by
  rw [packParas, if_neg h]

theorem packParas_bound {maxLen : Nat} :
    ∀ (parts cur : List Text) (len : Nat) (chunks : List Text),
      (∀ p ∈ parts, p.length + 2 ≤ maxLen) →
      (joinParas cur).length ≤ len → len ≤ maxLen →
      (∀ c ∈ chunks, c.length ≤ maxLen) →
      ∀ c ∈ packParas maxLen parts cur len chunks, c.length ≤ maxLen := by
  intro parts
  induction parts with
  | nil =>
    intro cur len chunks _ hcur hlen hchunks c hc
    rw [packParas_nil] at hc
    rcases List.mem_append.mp hc with h | h
    · exact hchunks c h
    · split at h
      · simp at h
      · simp only [List.mem_singleton] at h
        subst h
        omega
  | cons pa ps ih =>
    intro cur len chunks hparts hcur hlen hchunks c hc
    by_cases hover : maxLen < len + pa.length + 2
    · rw [packParas_cons_over hover] at hc
      refine ih _ _ _ (fun x hx => hparts x (by simp [hx])) ?_ ?_ ?_ c hc
      · simp [joinParas]
      · have := hparts pa (by simp); omega
      · intro c' hc'
        rcases List.mem_append.mp hc' with h | h
        · exact hchunks c' h
        · simp only [List.mem_singleton] at h
          subst h
          omega
    · rw [packParas_cons_keep hover] at hc
      refine ih _ _ _ (fun x hx => hparts x (by simp [hx])) ?_ ?_ hchunks c hc
      · calc (joinParas (cur ++ [pa])).length ≤ (joinParas cur).length + pa.length + 2 :=
            joinParas_append_len cur pa
        _ ≤ len + pa.length + 2 := by omega
      · omega

theorem packParas_parts {maxLen : Nat} :
    ∀ (parts cur : List Text) (len : Nat) (chunks : List Text),
      (∀ p ∈ parts, okPara p ∧ p.length + 2 ≤ maxLen) →
      (∀ p ∈ cur, okPara p) →
      (cur = [] → len = 0) →
      (packParas maxLen parts cur len chunks).flatMap (splitOnSep ['\n', '\n']) =
        chunks.flatMap (splitOnSep ['\n', '\n']) ++ cur ++ parts := by
  intro parts
  induction parts with
  | nil =>
    intro cur len chunks _ hcur _
    rw [packParas_nil]
    by_cases hc : cur = []
    · rw [if_pos hc]
      subst hc
      simp
    · rw [if_neg hc, List.flatMap_append]
      simp only [List.flatMap_cons, List.flatMap_nil, List.append_nil]
      rw [splitOnSep_join hcur hc]
  | cons pa ps ih =>
    intro cur len chunks hparts hcur hinv
    by_cases hover : maxLen < len + pa.length + 2
    · have hcne : cur ≠ [] := by
        intro hnil
        have h1 := hinv hnil
        have h2 := (hparts pa (by simp)).2
        omega
      have hsing : ∀ x ∈ [pa], okPara x := by
        intro x hx
        simp only [List.mem_singleton] at hx
        exact hx ▸ (hparts pa (by simp)).1
      rw [packParas_cons_over hover,
        ih [pa] pa.length _ (fun x hx => hparts x (by simp [hx])) hsing (by simp),
        List.flatMap_append]
      simp only [List.flatMap_cons, List.flatMap_nil, List.append_nil]
      rw [splitOnSep_join hcur hcne]
      simp
    · have hcurp : ∀ x ∈ cur ++ [pa], okPara x := by
        intro x hx
        rcases List.mem_append.mp hx with h | h
        · exact hcur x h
        · simp only [List.mem_singleton] at h
          exact h ▸ (hparts pa (by simp)).1
      rw [packParas_cons_keep hover,
        ih (cur ++ [pa]) _ _ (fun x hx => hparts x (by simp [hx])) hcurp (by simp)]
      simp

/-- C7, amended (the claim as stated fails: a single paragraph longer than
the limit becomes its own chunk with no size check, and overflow on the very
first paragraph emits an empty chunk).  Provided every stripped paragraph
fits in the limit with its two joining newlines, `chunk_text` splits only at
blank-line boundaries: every chunk is within the limit, splitting the chunks
back at blank lines recovers exactly the paragraph list in original order,
and `translate_text` translates the chunks independently and joins the
results in that order. -/
theorem claim_C7_chunking (text : Text) (maxLen : Nat) (f : Text → Text)
    (hp : ∀ p ∈ parasOf text, p.length + 2 ≤ maxLen) :
    (∀ c ∈ chunkText text maxLen, c.length ≤ maxLen) ∧
    (maxLen < text.length →
      (chunkText text maxLen).flatMap (splitOnSep ['\n', '\n']) = parasOf text) ∧
    translateTextPdf f text maxLen = joinParas ((chunkText text maxLen).map f) := by
  refine ⟨?_, ?_, rfl⟩
  · intro c hc
    rw [chunkText] at hc
    by_cases htl : text.length ≤ maxLen
    · rw [if_pos htl] at hc
      simp only [List.mem_singleton] at hc
      rw [hc]
      exact htl
    · rw [if_neg htl] at hc
      exact packParas_bound _ _ _ _ hp (by simp [joinParas]) (Nat.zero_le _) (by simp) c hc
  · intro hlen
    rw [chunkText, if_neg (by omega)]
    have h := packParas_parts (parasOf text) [] 0 []
      (fun p hp' => ⟨parasOf_ok p hp', hp p hp'⟩) (by simp) (fun _ => rfl)
    simpa using h

/-- C7 counterexample: with limit 10 and a single 11-character paragraph,
`chunk_text` emits an empty chunk followed by a chunk of length 11 > 10, so
chunks are not bounded by the limit as the claim states. -/
theorem claim_C7_counterexample :
    chunkText (List.replicate 11 'x') 10 = [[], List.replicate 11 'x'] ∧
    List.replicate 11 'x' ∈ chunkText (List.replicate 11 'x') 10 ∧
    10 < (List.replicate 11 'x').length := by
  exact ⟨by decide, by decide, by decide⟩

/-- C7 witness: a three-paragraph document under limit 9 chunks at paragraph
boundaries only. -/
theorem claim_C7_witness :
    (chunkText ("aaa\n\nbbb\n\nccc".toList) 9).flatMap (splitOnSep ['\n', '\n']) =
      parasOf ("aaa\n\nbbb\n\nccc".toList) :=
  (claim_C7_chunking _ 9 id (by decide)).2.1 (by decide)

/-! ## Literal heading macros (C5, C6, C9) -/

/-- C5: the literal-call rewriter turns `{{ heading2("Hello") }}` into
`<x-h2>Hello</x-h2>`, the restoration (an identity translation in between)
turns it back into exactly `{{ heading2("Hello") }}`, and any text with no
literal heading-macro match passes through the rewriter unchanged. -/
theorem claim_C5_literal_roundtrip :
    replaceLitMacros ("\x7b\x7b heading2(\"Hello\") \x7d\x7d".toList) = "<x-h2>Hello</x-h2>".toList ∧
    restoreHeadingTags (replaceLitMacros ("\x7b\x7b heading2(\"Hello\") \x7d\x7d".toList)) =
      "\x7b\x7b heading2(\"Hello\") \x7d\x7d".toList ∧
    ∀ s : Text, findPatP matchLitMacroAt s = none → replaceLitMacros s = s := by
  refine ⟨by decide, by decide, ?_⟩
  intro s h
  rw [replaceLitMacros, replaceLitF, h]

/-- C5 witness: the pass-through part applied to a concrete non-matching
text. -/
theorem claim_C5_witness :
    replaceLitMacros ("plain {{ x }} text".toList) = "plain {{ x }} text".toList :=
  claim_C5_literal_roundtrip.2.2 _ (by decide)

/-- C6: when the embedded-literal translator gathers nothing it returns the
input unchanged and issues no vendor request; in particular a document whose
heading-macro arguments all pass the quote-delimited skip test gathers
nothing. -/
theorem claim_C6_empty_batch (src : Text) (f : List Text → List Text) :
    (collectDoc (scanMacros src).1 = [] → translateNonlit f src = (some src, [])) ∧
    ((∀ mc ∈ (scanMacros src).1, argSkipped (pyTrim mc.argGroup) = true) →
      collectDoc (scanMacros src).1 = []) := by
  constructor
  · intro h
    simp [translateNonlit, h]
  · intro h
    rw [collectDoc]
    rw [List.flatMap_eq_nil_iff]
    intro mc hmc
    simp only [if_pos (h mc hmc)]

/-- C6 witness: a document whose only heading macro has a pure-literal
argument triggers no vendor call and is returned unchanged. -/
theorem claim_C6_witness :
    translateNonlit (fun l => l) ("a \x7b\x7b heading2(\"Hi\") \x7d\x7d b".toList) =
      (some ("a \x7b\x7b heading2(\"Hi\") \x7d\x7d b".toList), []) :=
  (claim_C6_empty_batch _ _).1 ((claim_C6_empty_batch _ (fun l => l)).2 (by decide))

theorem pyStripWith_cons {p : Char → Bool} {q : Char} (hq : p q = true) (t : Text) :
    pyStripWith p (q :: t) = pyStripWith p t := by
  simp [pyStripWith, List.dropWhile_cons, hq]

theorem pyStripWith_concat {p : Char → Bool} {q : Char} (hq : p q = true) (t : Text) :
    pyStripWith p (t ++ [q]) = pyStripWith p t := by
  rw [pyStripWith, pyStripWith, List.dropWhile_append]
  by_cases hd : (t.dropWhile p).isEmpty
  · rw [if_pos hd]
    have : t.dropWhile p = [] := by
      cases hdw : t.dropWhile p with
      | nil => rfl
      | cons a l => rw [hdw] at hd; simp [List.isEmpty] at hd
    rw [this]
    simp [List.dropWhile_cons, hq, List.dropWhile_nil]
  · rw [if_neg hd]
    have : (t.dropWhile p ++ [q]).reverse = q :: (t.dropWhile p).reverse := by simp
    rw [this, List.dropWhile_cons, if_pos hq]

theorem pyStripWith_wrap {p : Char → Bool} {q : Char} (hq : p q = true) (body : Text) :
    pyStripWith p (q :: body ++ [q]) = pyStripWith p body := by
  rw [show q :: body ++ [q] = q :: (body ++ [q]) from rfl,
    pyStripWith_cons hq, pyStripWith_concat hq]

/-- C9, amended (the claim as stated fails: the fallback is
`lit.strip("\"'")`, which strips every leading and trailing quote character
of either kind, not only the outer pair).  Extraction of a well-formed
quoted token never fails: it is the unescaped value when `literal_eval`
succeeds, and otherwise the token with all edge quote characters stripped,
which equals the strip of its body. -/
theorem claim_C9_extract_fallback (q : Char) (body : Text) (hq : isQuoteChar q = true) :
    (pyLitEval (q :: body ++ [q]) = none →
      extractContent (q :: body ++ [q]) = pyStripQuotes body) ∧
    (∀ c, pyLitEval (q :: body ++ [q]) = some c → extractContent (q :: body ++ [q]) = c) := by
  constructor
  · intro h
    rw [extractContent, h, pyStripQuotes, pyStripWith_wrap hq]
    rfl
  · intro c h
    rw [extractContent, h]

/-- C9 counterexample: on the token `'"\x"'` (whose `\x` escape makes
`literal_eval` fail) the code's fallback produces `\x`, not the
outer-quotes-stripped `"\x"` the claim describes. -/
theorem claim_C9_counterexample :
    pyLitEval ("'\"\\x\"'".toList) = none ∧
    extractContent ("'\"\\x\"'".toList) = "\\x".toList ∧
    extractContent ("'\"\\x\"'".toList) ≠ outerStripped ("'\"\\x\"'".toList) := by
  exact ⟨by decide, by decide, by decide⟩

/-- C9 witness: the amended fallback equality at the failing token. -/
theorem claim_C9_witness :
    extractContent ('\'' :: "\"\\x\"".toList ++ ['\'']) = pyStripQuotes ("\"\\x\"".toList) :=
  (claim_C9_extract_fallback '\'' ("\"\\x\"".toList) (by decide)).1 (by decide)

/-! ## The embedded-literal translator (C3, C4) -/

theorem probeTail_split {s : Text} {q : Text × Text} (h : probeTail s = some q) :
    s = q.1 ++ q.2 := by
  simp only [probeTail, Option.bind_eq_some, Option.map_eq_some'] at h
  obtain ⟨r1, h1, r2, h2, h3⟩ := h
  have hq1 : q.1 = (wsSplit s).1 ++ ')' :: (wsSplit r1).1 ++ ['}', '}'] :=
    (congrArg Prod.fst h3).symm
  have hq2 : q.2 = r2 := (congrArg Prod.snd h3).symm
  have e1 := dropPre_split h1
  have e2 := dropPre_split h2
  rw [hq1, hq2]
  calc s = (wsSplit s).1 ++ (wsSplit s).2 := wsSplit_split s
  _ = (wsSplit s).1 ++ ([')'] ++ r1) := by rw [← e1]
  _ = (wsSplit s).1 ++ ([')'] ++ ((wsSplit r1).1 ++ (wsSplit r1).2)) := by rw [← wsSplit_split r1]
  _ = (wsSplit s).1 ++ ([')'] ++ ((wsSplit r1).1 ++ (['}', '}'] ++ r2))) := by rw [← e2]
  _ = ((wsSplit s).1 ++ ')' :: (wsSplit r1).1 ++ ['}', '}']) ++ r2 := by simp

theorem takeHead_split {s : Text} {q : Char × Text} (h : takeHead s = some q) :
    s = q.1 :: q.2 := by
  cases s with
  | nil => simp [takeHead] at h
  | cons c cs =>
    rw [takeHead, Option.some_inj] at h
    rw [← h]

theorem matchAnyMacroAt_split {pre s : Text} {mc : MacroCall} {rest : Text}
    (h : matchAnyMacroAt pre s = some (mc, rest)) :
    s = mc.headPart ++ mc.argGroup ++ mc.tailPart ++ rest ∧
    mc.before = pre ∧ 0 < mc.headPart.length := by
  simp only [matchAnyMacroAt, Option.bind_eq_some] at h
  obtain ⟨r1, h1, r2, h2, dr, hdr, h3⟩ := h
  split at h3
  · simp only [Option.bind_eq_some, Option.map_eq_some'] at h3
    obtain ⟨r4, h4, t, h5, h6⟩ := h3
    have hmc : mc = ⟨pre, dr.1,
        '{' :: '{' :: (wsSplit r1).1 ++
          ['h', 'e', 'a', 'd', 'i', 'n', 'g', dr.1, '('] ++ (wsSplit r4).1,
        t.1, t.2.1⟩ := (congrArg Prod.fst h6).symm
    have hrest : rest = t.2.2 := (congrArg Prod.snd h6).symm
    have e1 := dropPre_split h1
    have e2 := dropPre_split h2
    have e3 := takeHead_split hdr
    have e4 := dropPre_split h4
    have e5 : (wsSplit r4).2 = t.1 ++ t.2.1 ++ t.2.2 :=
      findPatP_split (γ := fun a => a) (fun _ _ hq => probeTail_split hq) h5
    subst hmc
    subst hrest
    refine ⟨?_, rfl, by simp⟩
    calc s = ['{', '{'] ++ r1 := e1
    _ = ['{', '{'] ++ ((wsSplit r1).1 ++ (wsSplit r1).2) := by rw [← wsSplit_split r1]
    _ = ['{', '{'] ++ ((wsSplit r1).1 ++ (['h', 'e', 'a', 'd', 'i', 'n', 'g'] ++ r2)) := by
        rw [← e2]
    _ = ['{', '{'] ++ ((wsSplit r1).1 ++ (['h', 'e', 'a', 'd', 'i', 'n', 'g'] ++
          (dr.1 :: dr.2))) := by rw [← e3]
    _ = ['{', '{'] ++ ((wsSplit r1).1 ++ (['h', 'e', 'a', 'd', 'i', 'n', 'g'] ++
          (dr.1 :: (['('] ++ r4)))) := by rw [← e4]
    _ = ['{', '{'] ++ ((wsSplit r1).1 ++ (['h', 'e', 'a', 'd', 'i', 'n', 'g'] ++
          (dr.1 :: (['('] ++ ((wsSplit r4).1 ++ (wsSplit r4).2))))) := by rw [← wsSplit_split r4]
    _ = ['{', '{'] ++ ((wsSplit r1).1 ++ (['h', 'e', 'a', 'd', 'i', 'n', 'g'] ++
          (dr.1 :: (['('] ++ ((wsSplit r4).1 ++ (t.1 ++ t.2.1 ++ t.2.2)))))) := by rw [← e5]
    _ = ('{' :: '{' :: (wsSplit r1).1 ++ ['h', 'e', 'a', 'd', 'i', 'n', 'g', dr.1, '('] ++
          (wsSplit r4).1) ++ t.1 ++ t.2.1 ++ t.2.2 := by simp
  · simp at h3

theorem scanMacrosF_succ_none {s : Text} {f : Nat}
    (h : findPatP (matchAnyMacroAt []) s = none) : scanMacrosF (f + 1) s = ([], s) := by
  rw [scanMacrosF, h]

theorem scanMacrosF_succ_some {s b rest : Text} {mc : MacroCall} {f : Nat}
    (h : findPatP (matchAnyMacroAt []) s = some (b, mc, rest)) :
    scanMacrosF (f + 1) s =
      ({ mc with before := b } :: (scanMacrosF f rest).1, (scanMacrosF f rest).2) := by
  rw [scanMacrosF, h]

theorem findPatP_matched {α : Type} {p : Text → Option (α × Text)} :
    ∀ {s : Text} {t : Text × α × Text},
      findPatP p s = some t → ∃ s', p s' = some (t.2.1, t.2.2) := by
  intro s
  induction s with
  | nil =>
    intro t h
    simp only [findPatP, Option.map_eq_some'] at h
    obtain ⟨q, h1, h2⟩ := h
    subst h2
    exact ⟨[], by rw [h1]⟩
  | cons c cs ih =>
    intro t h
    cases hq : p (c :: cs) with
    | some q =>
      rw [findPatP_cons_some hq, Option.some_inj] at h
      subst h
      exact ⟨c :: cs, by rw [hq]⟩
    | none =>
      rw [findPatP_cons_none hq] at h
      simp only [Option.map_eq_some'] at h
      obtain ⟨q', h1, h2⟩ := h
      subst h2
      have hih := ih h1
      simpa using hih

theorem scanMacrosF_flatten :
    ∀ (fuel : Nat) (s : Text), s.length < fuel → flattenScan (scanMacrosF fuel s) = s := by
  intro fuel
  induction fuel with
  | zero => intro s h; exact absurd h (Nat.not_lt_zero _)
  | succ f ih =>
    intro s hs
    cases hf : findPatP (matchAnyMacroAt []) s with
    | none =>
      rw [scanMacrosF_succ_none hf]
      simp [flattenScan]
    | some t =>
      obtain ⟨b, mc, rest⟩ := t
      rw [scanMacrosF_succ_some hf]
      have hsplit : s = b ++ (mc.headPart ++ mc.argGroup ++ mc.tailPart) ++ rest :=
        findPatP_split (γ := fun q => q.headPart ++ q.argGroup ++ q.tailPart)
          (fun x q hq => (@matchAnyMacroAt_split [] x q.1 q.2
            (by rw [hq])).1) hf
      obtain ⟨s', hs'⟩ := findPatP_matched hf
      have hhd : 0 < mc.headPart.length := (matchAnyMacroAt_split hs').2.2
      have hlen : rest.length < f := by
        have hl := congrArg List.length hsplit
        simp only [List.length_append] at hl
        omega
      have hrec := ih rest hlen
      rw [flattenScan] at hrec ⊢
      simp only [List.flatMap_cons]
      conv_rhs => rw [hsplit, ← hrec]
      simp [List.append_assoc]

theorem countLits_cons (seg tok : Text) (more : List (Text × Text)) :
    countLits ((seg, tok) :: more) =
      (if extractContent tok = [] then 0 else 1) + countLits more := by
  rw [countLits, countLits, List.filter_cons]
  by_cases he : extractContent tok = []
  · simp [he]
  · simp [he]
    omega

theorem collectCall_length (arg : Text) :
    (collectCall arg).length = countLits (scanLits arg).1 := by
  rw [collectCall]
  generalize (scanLits arg).1 = lits
  induction lits with
  | nil => simp [countLits]
  | cons bt more ih =>
    obtain ⟨seg, tok⟩ := bt
    rw [List.filterMap_cons, countLits_cons]
    by_cases he : extractContent tok = []
    · simp [he, ih]
    · simp [he, ih]
      omega

theorem spliceArg_spec :
    ∀ (lits : List (Text × Text)) (trail : Text) (ts : List Text),
      countLits lits ≤ ts.length →
      spliceArg lits trail ts = some (argRender lits trail ts, ts.drop (countLits lits)) := by
  intro lits
  induction lits with
  | nil =>
    intro trail ts _
    simp [spliceArg, argRender, countLits]
  | cons bt more ih =>
    intro trail ts hc
    obtain ⟨seg, tok⟩ := bt
    rw [countLits_cons] at hc
    have h0 : spliceArg ((seg, tok) :: more) trail ts =
        if extractContent tok = [] then
          (spliceArg more trail ts).map fun p => (seg ++ tok ++ p.1, p.2)
        else
          match ts with
          | [] => none
          | t :: ts' =>
            (spliceArg more trail ts').map fun p =>
              (seg ++ (if tok.head? = some '\'' then requoteSingle t else jsonDumps t)
                ++ p.1, p.2) := rfl
    by_cases he : extractContent tok = []
    · rw [if_pos he] at hc
      rw [h0, if_pos he, ih trail ts (by omega), argRender, if_pos he,
        countLits_cons, if_pos he]
      simp
    · rw [if_neg he] at hc
      cases ts with
      | nil => simp at hc
      | cons t ts' =>
        rw [h0, if_neg he]
        show ((spliceArg more trail ts').map fun p =>
            (seg ++ (if tok.head? = some '\'' then requoteSingle t else jsonDumps t)
              ++ p.1, p.2)) = _
        rw [List.length_cons] at hc
        rw [ih trail ts' (by omega), argRender, if_neg he, countLits_cons, if_neg he]
        have hcomm : 1 + countLits more = countLits more + 1 := Nat.add_comm 1 _
        rw [hcomm]
        simp [requoteSpec]

theorem collectDoc_cons (mc : MacroCall) (more : List MacroCall) :
    collectDoc (mc :: more) =
      (if argSkipped (pyTrim mc.argGroup) = true then []
       else collectCall (pyTrim mc.argGroup)) ++ collectDoc more := by
  rfl

theorem spliceDoc_spec :
    ∀ (calls : List MacroCall) (trail : Text) (ts : List Text),
      (collectDoc calls).length ≤ ts.length →
      spliceDoc calls trail ts = some (docRender calls trail ts) := by
  intro calls
  induction calls with
  | nil => intro trail ts _; rfl
  | cons mc more ih =>
    intro trail ts hlen
    rw [collectDoc_cons] at hlen
    by_cases hsk : argSkipped (pyTrim mc.argGroup) = true ∨ collectCall (pyTrim mc.argGroup) = []
    · have hc0 : (if argSkipped (pyTrim mc.argGroup) = true then []
          else collectCall (pyTrim mc.argGroup)) = ([] : List Text) := by
        by_cases ha : argSkipped (pyTrim mc.argGroup) = true
        · rw [if_pos ha]
        · rw [if_neg ha]
          rcases hsk with h | h
          · exact absurd h ha
          · exact h
      rw [hc0] at hlen
      simp only [List.nil_append] at hlen
      simp only [spliceDoc]
      rw [if_pos hsk, ih trail ts hlen]
      simp only [docRender]
      rw [if_pos hsk]
      rfl
    · have hns : ¬ argSkipped (pyTrim mc.argGroup) = true := fun h => hsk (Or.inl h)
      rw [if_neg hns] at hlen
      simp only [List.length_append] at hlen
      simp only [spliceDoc]
      rw [if_neg hsk,
        spliceArg_spec _ _ _ (by rw [← collectCall_length]; omega)]
      simp only [Option.some_bind]
      rw [← collectCall_length,
        ih trail (ts.drop (collectCall (pyTrim mc.argGroup)).length)
          (by rw [List.length_drop]; omega)]
      simp only [Option.map_some']
      simp only [docRender]
      rw [if_neg hsk]

/-- C3, amended (the claim as stated fails: the code's test for "pure
string literal" is only that the stripped argument starts and ends with a
quote character, so an expression such as `'a' ~ x ~ 'b'` is skipped even
though it is not a single literal).  The scan visits exactly the
ANY_MACRO_RE calls of the document in order (their pieces concatenate back
to the document); the gathered list is the in-order concatenation, over the
calls whose argument does not both start and end with a quote character, of
their nonempty unescaped literal contents; and the translator issues no
request when that list is empty and exactly one batched request carrying
that list otherwise. -/
theorem claim_C3_gather (src : Text) (f : List Text → List Text) :
    flattenScan (scanMacros src) = src ∧
    collectDoc (scanMacros src).1 =
      (scanMacros src).1.flatMap (fun mc =>
        if argSkipped (pyTrim mc.argGroup) = true then []
        else collectCall (pyTrim mc.argGroup)) ∧
    (translateNonlit f src).2 =
      (if collectDoc (scanMacros src).1 = [] then []
       else [collectDoc (scanMacros src).1]) := by
  refine ⟨?_, rfl, ?_⟩
  · rw [scanMacros]
    exact scanMacrosF_flatten _ _ (by omega)
  · by_cases h : collectDoc (scanMacros src).1 = []
    · simp [translateNonlit, h]
    · simp [translateNonlit, h]

/-- C3 counterexample: in `{{ heading2('a' ~ x ~ 'b') }}` the argument is
not one pure string literal and contains the literals `'a'` and `'b'`, yet
the stage collects nothing, issues no request, and returns the document
unchanged — because the argument starts and ends with a quote character. -/
theorem claim_C3_counterexample :
    ((scanMacros ("\x7b\x7b heading2('a' ~ x ~ 'b') \x7d\x7d".toList)).1.map MacroCall.argGroup) =
      ["'a' ~ x ~ 'b'".toList] ∧
    isPureStrLit ("'a' ~ x ~ 'b'".toList) = false ∧
    collectCall ("'a' ~ x ~ 'b'".toList) = ["a".toList, "b".toList] ∧
    collectDoc (scanMacros ("\x7b\x7b heading2('a' ~ x ~ 'b') \x7d\x7d".toList)).1 = [] ∧
    translateNonlit (fun l => l.map fun t => t ++ ['!'])
        ("\x7b\x7b heading2('a' ~ x ~ 'b') \x7d\x7d".toList) =
      (some ("\x7b\x7b heading2('a' ~ x ~ 'b') \x7d\x7d".toList), []) := by
  exact ⟨by decide, by decide, by decide, by decide, by decide⟩

/-- C4, amended (the claim as stated fails: only single-quoted literals get
minimal backslash-and-quote escaping; double-quoted literals are re-emitted
with `json.dumps`, which also escapes control characters and all non-ASCII
as `\uXXXX`).  Under a length-preserving translator the stage succeeds and
equals the direct rendering in which each collected literal is replaced,
in order, by its translation re-quoted with the original token's quote
character — minimal escaping for `'`, JSON-style for `"` — while all
surrounding expression text is copied verbatim. -/
theorem claim_C4_requote (src : Text) (f : List Text → List Text)
    (hf : (f (collectDoc (scanMacros src).1)).length =
      (collectDoc (scanMacros src).1).length) :
    (translateNonlit f src).1 =
      some (if collectDoc (scanMacros src).1 = [] then src
        else docRender (scanMacros src).1 (scanMacros src).2
          (f (collectDoc (scanMacros src).1))) := by
  by_cases h : collectDoc (scanMacros src).1 = []
  · simp [translateNonlit, h]
  · rw [if_neg h]
    simp only [translateNonlit]
    rw [if_neg h, spliceDoc_spec _ _ _ (by omega)]

/-- C4 counterexample: with the identity translation, the double-quoted
literal `"é"` is re-emitted as `"\u00e9"`, so more than the backslash and
the matching quote character is escaped and the text changes. -/
theorem claim_C4_counterexample :
    (translateNonlit (fun l => l) ("\x7b\x7b heading2(x ~ \"é\") \x7d\x7d".toList)).1 =
      some ("\x7b\x7b heading2(x ~ \"\\u00e9\") \x7d\x7d".toList) ∧
    some ("\x7b\x7b heading2(x ~ \"\\u00e9\") \x7d\x7d".toList) ≠
      some ("\x7b\x7b heading2(x ~ \"é\") \x7d\x7d".toList) := by
  exact ⟨by decide, by decide⟩

/-- C4 witness: the amended rendering equality applied to the same
document, with the rendered value computed. -/
theorem claim_C4_witness :
    (translateNonlit (fun l => l) ("\x7b\x7b heading2(x ~ 'é' ~ y) \x7d\x7d".toList)).1 =
      some ("\x7b\x7b heading2(x ~ 'é' ~ y) \x7d\x7d".toList) := by
  have h := claim_C4_requote ("\x7b\x7b heading2(x ~ 'é' ~ y) \x7d\x7d".toList) (fun l => l) rfl
  rw [h]
  decide

/-! ## Masking core: keys, placeholders, and pattern matches -/

theorem natDigitsAux_digits :
    ∀ (fuel n : Nat) (c : Char), c ∈ natDigitsAux fuel n → c.isDigit = true := by
  intro fuel
  induction fuel with
  | zero => intro n c h; simp [natDigitsAux] at h
  | succ f ih =>
    intro n c h
    rw [natDigitsAux] at h
    split at h
    · simp only [List.mem_singleton] at h
      subst h
      rename_i hn
      interval_cases n <;> decide
    · rcases List.mem_append.mp h with h1 | h1
      · exact ih _ c h1
      · simp only [List.mem_singleton] at h1
        subst h1
        have : n % 10 < 10 := Nat.mod_lt _ (by omega)
        interval_cases hi : (n % 10) <;> decide

theorem keyOf_digits {n : Nat} {c : Char} (h : c ∈ pad6 n) : c.isDigit = true := by
  rw [pad6] at h
  rcases List.mem_append.mp h with h1 | h1
  · have := List.eq_of_mem_replicate h1
    subst this
    decide
  · exact natDigitsAux_digits _ _ _ h1

theorem digit_ne {c x : Char} (hc : c.isDigit = true) (hx : x.toNat < 48 ∨ 57 < x.toNat) :
    c ≠ x := by
  intro he
  subst he
  rw [Char.isDigit] at hc
  simp only [Bool.and_eq_true, decide_eq_true_eq] at hc
  have h1 : ('0' : Char).toNat = 48 := rfl
  have h2 : ('9' : Char).toNat = 57 := rfl
  rcases hc with ⟨ha, hb⟩
  have ha' : 48 ≤ c.toNat := ha
  have hb' : c.toNat ≤ 57 := hb
  omega

theorem mem_phOf {k : Text} {c : Char} (hk : ∀ x ∈ k, x = 'J' ∨ x.isDigit = true)
    (h : c ∈ phOf k) : c ∈ phPre ∨ c ∈ phSuf ∨ c = 'J' ∨ c.isDigit = true := by
  rw [phOf] at h
  rcases List.mem_append.mp h with h1 | h1
  · rcases List.mem_append.mp h1 with h2 | h2
    · exact Or.inl h2
    · exact Or.inr (Or.inr (hk c h2))
  · exact Or.inr (Or.inl h1)

theorem brace_notin_phOf {k : Text} (hk : ∀ x ∈ k, x = 'J' ∨ x.isDigit = true) :
    ∀ c ∈ phOf k, c ≠ '{' ∧ c ≠ '}' := by
  intro c hc
  rcases mem_phOf hk hc with h | h | h | h
  · exact (by decide : ∀ x ∈ phPre, x ≠ '{' ∧ x ≠ '}') c h
  · exact (by decide : ∀ x ∈ phSuf, x ≠ '{' ∧ x ≠ '}') c h
  · subst h
    exact ⟨by decide, by decide⟩
  · exact ⟨digit_ne h (by decide), digit_ne h (by decide)⟩

theorem keyOf_chars (n : Nat) : ∀ x ∈ keyOf n, x = 'J' ∨ x.isDigit = true := by
  intro x hx
  rw [keyOf] at hx
  rcases List.mem_cons.mp hx with h | h
  · exact Or.inl h
  · exact Or.inr (keyOf_digits h)

theorem braceCount_phOf_keyOf (n : Nat) : braceCount (phOf (keyOf n)) = 0 := by
  rw [braceCount, List.countP_eq_zero]
  intro c hc
  have := (brace_notin_phOf (keyOf_chars n) c hc).1
  simp [this]

theorem braceCount_append (s t : Text) :
    braceCount (s ++ t) = braceCount s + braceCount t := by
  rw [braceCount, braceCount, braceCount, List.countP_append]

theorem matchAt_head {p : JPat} {s m r : Text} (h : matchAt p s = some (m, r)) :
    ∃ t, m = '{' :: t := by
  cases p with
  | raw =>
    rw [matchAt] at h
    simp only [matchRawAt, Option.bind_eq_some, Option.map_eq_some'] at h
    obtain ⟨q, h1, t, h2, h3⟩ := h
    obtain ⟨w1, w2, hsh, _⟩ := matchWord_shape (m := q.1) (r := q.2) (by rw [h1])
    have hm : m = q.1 ++ t.1 ++ t.2.1 := (congrArg Prod.fst h3).symm
    exact ⟨'%' :: w1 ++ ['r', 'a', 'w'] ++ w2 ++ ['%', '}'] ++ t.1 ++ t.2.1, by
      rw [hm, hsh]; simp⟩
  | cmt =>
    obtain ⟨mid, hm, _⟩ := matchDelim_shape h
    exact ⟨'#' :: mid ++ ['#', '}'], by rw [hm]; simp⟩
  | stmt =>
    obtain ⟨mid, hm, _⟩ := matchDelim_shape h
    exact ⟨'%' :: mid ++ ['%', '}'], by rw [hm]; simp⟩
  | expr =>
    obtain ⟨mid, hm, _⟩ := matchDelim_shape h
    exact ⟨'{' :: mid ++ ['}', '}'], by rw [hm]; simp⟩

theorem matchAt_last {p : JPat} {s m r : Text} (h : matchAt p s = some (m, r)) :
    ∃ t, m = t ++ ['}'] := by
  cases p with
  | raw =>
    rw [matchAt] at h
    simp only [matchRawAt, Option.bind_eq_some, Option.map_eq_some'] at h
    obtain ⟨q, h1, t, h2, h3⟩ := h
    obtain ⟨s', hcl⟩ := findPatP_matched h2
    obtain ⟨w1, w2, hsh, _⟩ := matchWord_shape (m := t.2.1) (r := t.2.2) (by rw [hcl])
    have hm : m = q.1 ++ t.1 ++ t.2.1 := (congrArg Prod.fst h3).symm
    exact ⟨q.1 ++ t.1 ++ ('{' :: '%' :: w1 ++ ['e', 'n', 'd', 'r', 'a', 'w'] ++ w2 ++ ['%']), by
      rw [hm, hsh]; simp⟩
  | cmt =>
    obtain ⟨mid, hm, _⟩ := matchDelim_shape h
    exact ⟨['{', '#'] ++ mid ++ ['#'], by rw [hm]; simp⟩
  | stmt =>
    obtain ⟨mid, hm, _⟩ := matchDelim_shape h
    exact ⟨['{', '%'] ++ mid ++ ['%'], by rw [hm]; simp⟩
  | expr =>
    obtain ⟨mid, hm, _⟩ := matchDelim_shape h
    exact ⟨['{', '{'] ++ mid ++ ['}'], by rw [hm]; simp⟩

theorem matchAt_none_head {p : JPat} {s : Text} (h : s.head? ≠ some '{') :
    matchAt p s = none := by
  cases s with
  | nil =>
    cases p <;>
      simp [matchAt, matchRawAt, matchWord, matchDelim, dropPre]
  | cons c cs =>
    have hc : c ≠ '{' := by
      intro he
      subst he
      exact h rfl
    cases p with
    | raw =>
      simp [matchAt, matchRawAt, matchWord, dropPre, hc]
    | cmt => simp [matchAt, matchDelim, dropPre, hc]
    | stmt => simp [matchAt, matchDelim, dropPre, hc]
    | expr => simp [matchAt, matchDelim, dropPre, hc]

theorem jsearch_none_of_no_brace {p : JPat} :
    ∀ {s : Text}, (∀ c ∈ s, c ≠ '{') → jsearch p s = none := by
  intro s
  induction s with
  | nil =>
    intro _
    rw [jsearch, findPatP]
    rw [matchAt_none_head (by simp)]
    rfl
  | cons c cs ih =>
    intro h
    rw [jsearch, findPatP_cons_none (matchAt_none_head (by
      simp only [List.head?_cons]
      intro he
      exact h c (by simp) (Option.some_inj.mp he)))]
    rw [jsearch] at ih
    rw [ih (fun x hx => h x (by simp [hx]))]
    rfl

theorem braceCount_zero_iff {s : Text} : braceCount s = 0 ↔ ∀ c ∈ s, c ≠ '{' := by
  rw [braceCount, List.countP_eq_zero]
  constructor
  · intro h c hc
    have := h c hc
    simpa using this
  · intro h c hc
    simpa using h c hc

theorem maskStep_some {p : JPat} {st st' : MState} (h : maskStep p st = some st') :
    ∃ b m a, jsearch p st.masked = some (b, m, a) ∧
      st.masked = b ++ m ++ a ∧
      st'.masked = b ++ phOf (keyOf st.counter) ++ a ∧
      st'.mapping = st.mapping ++ [(keyOf st.counter, m)] ∧
      st'.counter = st.counter + 1 ∧
      (∃ t, m = '{' :: t) ∧ (∃ t, m = t ++ ['}']) := by
  rw [maskStep] at h
  simp only [Option.map_eq_some'] at h
  obtain ⟨q, hq, hst⟩ := h
  obtain ⟨b, m, a⟩ := q
  refine ⟨b, m, a, hq, jsearch_split hq, ?_, ?_, ?_, ?_, ?_⟩
  · rw [← hst]
  · rw [← hst]
  · rw [← hst]
  · obtain ⟨s', hs'⟩ := findPatP_matched hq
    exact matchAt_head hs'
  · obtain ⟨s', hs'⟩ := findPatP_matched hq
    exact matchAt_last hs'

theorem maskStep_braceCount {p : JPat} {st st' : MState} (h : maskStep p st = some st') :
    braceCount st'.masked < braceCount st.masked := by
  obtain ⟨b, m, a, _, hm, hm', _, _, ⟨t, ht⟩, _⟩ := maskStep_some h
  rw [hm, hm', braceCount_append, braceCount_append, braceCount_append, braceCount_append,
    braceCount_phOf_keyOf]
  have : 1 ≤ braceCount m := by
    rw [ht, braceCount]
    rw [List.countP_cons]
    simp
  omega

theorem maskLoop_exhaust {p : JPat} :
    ∀ (fuel : Nat) (st : MState), braceCount st.masked < fuel →
      maskStep p (maskLoop p fuel st) = none := by
  intro fuel
  induction fuel with
  | zero => intro st h; exact absurd h (Nat.not_lt_zero _)
  | succ f ih =>
    intro st h
    rw [maskLoop]
    cases hs : maskStep p st with
    | none => exact hs
    | some st' =>
      have hlt := maskStep_braceCount hs
      exact ih st' (by omega)

theorem maskLoop_mapping_ext {p : JPat} :
    ∀ (fuel : Nat) (st : MState), ∃ ext, (maskLoop p fuel st).mapping = st.mapping ++ ext := by
  intro fuel
  induction fuel with
  | zero => intro st; exact ⟨[], by simp [maskLoop]⟩
  | succ f ih =>
    intro st
    rw [maskLoop]
    cases hs : maskStep p st with
    | none => exact ⟨[], by simp⟩
    | some st' =>
      obtain ⟨ext, hext⟩ := ih st'
      obtain ⟨b, m, a, _, _, _, hmap, _, _, _⟩ := maskStep_some hs
      exact ⟨(keyOf st.counter, m) :: ext, by rw [hext, hmap]; simp⟩

theorem maskLoop_counter_mono {p : JPat} :
    ∀ (fuel : Nat) (st : MState), st.counter ≤ (maskLoop p fuel st).counter := by
  intro fuel
  induction fuel with
  | zero => intro st; simp [maskLoop]
  | succ f ih =>
    intro st
    rw [maskLoop]
    cases hs : maskStep p st with
    | none => exact Nat.le_refl _
    | some st' =>
      obtain ⟨_, _, _, _, _, _, _, hcnt, _, _⟩ := maskStep_some hs
      have hih := ih st'
      show st.counter ≤ (maskLoop p f st').counter
      omega

theorem takeDigits_exact {ds : Text} (hd : ∀ c ∈ ds, c.isDigit = true) :
    ∀ (r : Text), takeDigits ds.length (ds ++ r) = some (ds, r) := by
  induction ds with
  | nil => intro r; simp [takeDigits]
  | cons c cs ih =>
    intro r
    rw [List.length_cons, List.cons_append, takeDigits,
      if_pos (hd c (by simp)), ih (fun x hx => hd x (by simp [hx])) r]
    rfl

theorem takeDigits_split :
    ∀ {n : Nat} {s ds r : Text}, takeDigits n s = some (ds, r) →
      s = ds ++ r ∧ ds.length = n ∧ ∀ c ∈ ds, c.isDigit = true := by
  intro n
  induction n with
  | zero =>
    intro s ds r h
    rw [takeDigits, Option.some_inj] at h
    have hds : ds = [] := (congrArg Prod.fst h).symm
    have hr : r = s := (congrArg Prod.snd h).symm
    subst hds; subst hr
    exact ⟨rfl, rfl, by simp⟩
  | succ k ih =>
    intro s ds r h
    cases s with
    | nil => simp [takeDigits] at h
    | cons c cs =>
      rw [takeDigits] at h
      split at h
      · rename_i hdig
        simp only [Option.map_eq_some'] at h
        obtain ⟨q, h1, h2⟩ := h
        obtain ⟨e1, e2, e3⟩ := ih h1
        have hds : ds = c :: q.1 := (congrArg Prod.fst h2).symm
        have hr : r = q.2 := (congrArg Prod.snd h2).symm
        subst hds; subst hr
        refine ⟨by rw [e1]; rfl, by simp [e2], ?_⟩
        intro x hx
        rcases List.mem_cons.mp hx with h | h
        · subst h; exact hdig
        · exact e3 x h
      · exact absurd h (by simp)

theorem matchShapeAt_phOf {k r : Text} (hk : wfKey k) :
    matchShapeAt (phOf k ++ r) = some (k, r) := by
  obtain ⟨ds, hk1, hk2, hk3⟩ := hk
  subst hk1
  have hsplit : phOf ('J' :: ds) ++ r = (phPre ++ ['J']) ++ (ds ++ (phSuf ++ r)) := by
    rw [phOf]; simp
  rw [hsplit, matchShapeAt, dropPre_refl]
  simp only [Option.some_bind]
  rw [show (6 : Nat) = ds.length from hk2.symm, takeDigits_exact hk3]
  simp only [Option.some_bind]
  rw [dropPre_refl]
  rfl

theorem matchShapeAt_split {s k r : Text} (h : matchShapeAt s = some (k, r)) :
    s = phOf k ++ r ∧ wfKey k := by
  simp only [matchShapeAt, Option.bind_eq_some, Option.map_eq_some'] at h
  obtain ⟨r1, h1, q, h2, r3, h3, h4⟩ := h
  obtain ⟨e1, e2, e3⟩ := takeDigits_split h2
  have e0 := dropPre_split h1
  have e4 := dropPre_split h3
  have hk : k = 'J' :: q.1 := (congrArg Prod.fst h4).symm
  have hr : r = r3 := (congrArg Prod.snd h4).symm
  subst hk; subst hr
  constructor
  · rw [e0, e1, e4, phOf]
    simp
  · exact ⟨q.1, rfl, e2, e3⟩

theorem phOf_length {k : Text} (hk : wfKey k) : (phOf k).length = 36 := by
  obtain ⟨ds, hk1, hk2, _⟩ := hk
  subst hk1
  rw [phOf]
  simp [phPre, phSuf, hk2]

theorem phOf_cons (k : Text) :
    phOf k = '<' :: ('x' :: ['-', 'j', 'i', 'n', 'j', 'a', ' ', 'd', 'a', 't', 'a', '-', 'k', '=', '"'] ++ k ++ phSuf) := by
  rw [phOf, phPre]
  rfl

/-- Two placeholder elements can never partially overlap: a shape cannot
start strictly inside another shape's 36 characters. -/
theorem shape_clash {u k' k'' v r : Text} (hu : u ≠ []) (hlen : u.length < 36)
    (hk'' : wfKey k'') :
    u ++ phOf k' ++ v ≠ phOf k'' ++ r := by
  intro heq
  have heq' : u ++ (phOf k' ++ v) = phOf k'' ++ r := by
    simpa [List.append_assoc] using heq
  have h36 : (phOf k'').length = 36 := phOf_length hk''
  rcases List.append_eq_append_iff.mp heq' with ⟨w, hw1, hw2⟩ | ⟨c', hc1, _⟩
  swap
  · have := congrArg List.length hc1
    simp only [List.length_append, h36] at this
    omega
  -- w : phOf k'' = u ++ w and phOf k' ++ v = w ++ r
  have hulen : 1 ≤ u.length := by
    cases u with
    | nil => exact absurd rfl hu
    | cons _ _ => simp
  have hwlen : w.length = 36 - u.length := by
    have := congrArg List.length hw1
    simp only [List.length_append, h36] at this
    omega
  have hwne : w ≠ [] := by
    intro hnil
    rw [hnil] at hwlen
    simp at hwlen
    omega
  have hhead : w.head? = some '<' := by
    cases w with
    | nil => exact absurd rfl hwne
    | cons w0 w' =>
      rw [phOf_cons k'] at hw2
      simp only [List.cons_append, List.cons.injEq] at hw2
      rw [List.head?_cons, hw2.1]
  have hn : (phOf k'')[u.length]? = some '<' := by
    rw [hw1, List.getElem?_append_right (Nat.le_refl _)]
    simp only [Nat.sub_self]
    rw [← List.head?_eq_getElem?]
    exact hhead
  obtain ⟨ds, hds, hds6, hdsdig⟩ := hk''
  have hklen : k''.length = 7 := by rw [hds]; simp [hds6]
  have hzone : u.length = 26 := by
    by_cases h1 : u.length < 17
    · exfalso
      rw [phOf, List.append_assoc, List.getElem?_append_left (by simp [phPre]; omega)] at hn
      have hfact : ∀ i, i < 17 → phPre[i]? = some '<' → i = 0 := by decide
      have := hfact u.length (by omega) hn
      omega
    · by_cases h2 : u.length < 24
      · exfalso
        rw [phOf, List.append_assoc,
          List.getElem?_append_right (by simp [phPre]; omega),
          List.getElem?_append_left (by simp [phPre]; omega)] at hn
        have hmem : '<' ∈ k'' := List.getElem?_mem hn
        rw [hds] at hmem
        rcases List.mem_cons.mp hmem with h | h
        · exact absurd h.symm (by decide)
        · have := hdsdig _ h
          exact absurd this (by decide)
      · rw [phOf, List.append_assoc,
          List.getElem?_append_right (by simp [phPre]; omega),
          List.getElem?_append_right (by simp [phPre, hklen]; omega)] at hn
        have hfact : ∀ i, i < 12 → phSuf[i]? = some '<' → i = 2 := by decide
        have h3 : u.length - 17 - k''.length = 2 := by
          refine hfact _ ?_ hn
          simp only [phPre] at hn ⊢
          omega
        rw [hklen] at h3
        have h17 : (phPre).length = 17 := by decide
        omega
  have hw26 : w = List.drop 2 phSuf := by
    have e1 : List.drop 26 (phOf k'') = w := by
      rw [hw1, ← hzone]
      exact List.drop_left' rfl
    have e2 : List.drop 26 (phOf k'') = List.drop 2 phSuf := by
      rw [phOf]
      have h24 : (phPre ++ k'').length = 24 := by simp [phPre, hklen]
      rw [show (26 : Nat) = (phPre ++ k'').length + 2 from by rw [h24]]
      exact List.drop_append 2
    rw [← e1, e2]
  rw [hw26, phOf_cons k'] at hw2
  simp [phSuf] at hw2

theorem shapeFree_tail {c : Char} {t : Text} (h : shapeFree (c :: t)) : shapeFree t := by
  intro i
  have := h (i + 1)
  simpa using this

theorem shapeFree_head {t : Text} (h : shapeFree t) : matchShapeAt t = none := by
  have := h 0
  simpa using this

theorem unmaskAux_succ_some {m : List (Text × Text)} {fuel : Nat} {c : Char} {cs k r : Text}
    (h : matchShapeAt (c :: cs) = some (k, r)) :
    unmaskAux m (fuel + 1) (c :: cs) =
      (alookup k m).bind fun v => (unmaskAux m fuel r).map fun x => v ++ x := by
  rw [unmaskAux, h]

theorem unmaskAux_succ_none {m : List (Text × Text)} {fuel : Nat} {c : Char} {cs : Text}
    (h : matchShapeAt (c :: cs) = none) :
    unmaskAux m (fuel + 1) (c :: cs) = (unmaskAux m fuel cs).map fun x => c :: x := by
  rw [unmaskAux, h]

/-- A placeholder shape can never start inside a shape-free literal chunk of a
well-formed decomposition. -/
theorem no_shape_in_lit {t : Text} {rest : List Seg} (hne : t ≠ []) (ht : shapeFree t)
    (hadj : ∀ t', rest.head? ≠ some (Seg.lit t')) (hg : goodSegs rest) :
    matchShapeAt (t ++ flatSegs rest) = none := by
  cases hm : matchShapeAt (t ++ flatSegs rest) with
  | none => rfl
  | some q =>
    exfalso
    obtain ⟨k'', r⟩ := q
    obtain ⟨heq, hk''⟩ := matchShapeAt_split hm
    cases rest with
    | nil =>
      have ht0 := ht 0
      rw [List.drop_zero, show t = phOf k'' ++ r from by simpa [flatSegs] using heq,
        matchShapeAt_phOf hk''] at ht0
      exact absurd ht0 (by simp)
    | cons s rest2 =>
      cases s with
      | lit t2 => exact hadj t2 rfl
      | hole k =>
        obtain ⟨hk, hgr⟩ := hg
        have heq' : t ++ (phOf k ++ flatSegs rest2) = phOf k'' ++ r := by
          simpa [flatSegs, List.append_assoc] using heq
        rcases List.append_eq_append_iff.mp heq' with ⟨a, ha1, ha2⟩ | ⟨c', hc1, hc2⟩
        · cases a with
          | nil =>
            have ht0 := ht 0
            rw [List.drop_zero, show t = phOf k'' ++ [] from by simp [ha1],
              matchShapeAt_phOf hk''] at ht0
            exact absurd ht0 (by simp)
          | cons a0 a' =>
            have hlen : t.length < 36 := by
              have := congrArg List.length ha1
              rw [phOf_length hk''] at this
              simp only [List.length_append, List.length_cons] at this
              omega
            rw [← List.append_assoc] at heq'
            exact shape_clash hne hlen hk'' heq'
        · have ht0 := ht 0
          rw [List.drop_zero, hc1, matchShapeAt_phOf hk''] at ht0
          exact absurd ht0 (by simp)

/-- Running the unmask scan over a well-formed decomposition resolves exactly
the holes: the result is the decomposition's denotation under the mapping. -/
theorem unmask_flat (m : List (Text × Text)) :
    ∀ (n : Nat) (segs : List Seg) (fuel : Nat), goodSegs segs →
      (flatSegs segs).length + segs.length ≤ n →
      (flatSegs segs).length < fuel →
      unmaskAux m fuel (flatSegs segs) = origSegs m segs := by
  intro n
  induction n with
  | zero =>
    intro segs fuel hg hn hf
    cases segs with
    | nil =>
      cases fuel with
      | zero => exact absurd hf (by simp [flatSegs])
      | succ g => simp [flatSegs, unmaskAux, origSegs]
    | cons s rest => simp [List.length_cons] at hn
  | succ nn ih =>
    intro segs fuel hg hn hf
    cases segs with
    | nil =>
      cases fuel with
      | zero => exact absurd hf (by simp [flatSegs])
      | succ g => simp [flatSegs, unmaskAux, origSegs]
    | cons s rest =>
      cases s with
      | lit t =>
        obtain ⟨hsf, hadj, hgr⟩ := hg
        cases t with
        | nil =>
          have h1 : flatSegs (Seg.lit [] :: rest) = flatSegs rest := by
            rw [flatSegs]; simp
          rw [h1] at hn hf ⊢
          rw [ih rest fuel hgr (by rw [List.length_cons] at hn; omega) hf]
          rw [origSegs]
          cases origSegs m rest <;> simp
        | cons c t' =>
          have h1 : flatSegs (Seg.lit (c :: t') :: rest) = c :: (t' ++ flatSegs rest) := by
            rw [flatSegs]; simp
          cases fuel with
          | zero => exact absurd hf (by simp)
          | succ g =>
            rw [h1, unmaskAux_succ_none (by
              have := no_shape_in_lit (t := c :: t') (by simp) hsf hadj hgr
              rw [show (c :: t') ++ flatSegs rest = c :: (t' ++ flatSegs rest) from rfl] at this
              exact this)]
            have h2 : t' ++ flatSegs rest = flatSegs (Seg.lit t' :: rest) := by rw [flatSegs]
            rw [h2, ih (Seg.lit t' :: rest) g ⟨shapeFree_tail hsf, hadj, hgr⟩
              (by
                rw [h1] at hn
                rw [flatSegs]
                simp only [List.length_cons, List.length_append] at hn ⊢
                omega)
              (by
                rw [h1] at hf
                rw [flatSegs]
                simp only [List.length_cons] at hf
                omega)]
            rw [origSegs, origSegs]
            cases origSegs m rest <;> simp
      | hole k =>
        obtain ⟨hk, hgr⟩ := hg
        have h1 : flatSegs (Seg.hole k :: rest) = phOf k ++ flatSegs rest := by rw [flatSegs]
        cases fuel with
        | zero =>
          exfalso
          rw [h1] at hf
          exact absurd hf (Nat.not_lt_zero _)
        | succ g =>
          have h36 := phOf_length hk
          have hcons : phOf k ++ flatSegs rest =
              '<' :: (('x' :: ['-', 'j', 'i', 'n', 'j', 'a', ' ', 'd', 'a', 't', 'a', '-', 'k', '=', '"'] ++ k ++ phSuf) ++ flatSegs rest) := by
            rw [phOf_cons]
            simp [List.append_assoc]
          rw [h1, hcons, unmaskAux_succ_some (by rw [← hcons]; exact matchShapeAt_phOf hk)]
          rw [ih rest g hgr
            (by
              rw [h1, List.length_append, h36, List.length_cons] at hn
              omega)
            (by
              rw [h1, List.length_append, h36] at hf
              omega)]
          rw [origSegs]

theorem wfKey_chars {k : Text} (hk : wfKey k) : ∀ x ∈ k, x = 'J' ∨ x.isDigit = true := by
  obtain ⟨ds, h1, _, h3⟩ := hk
  subst h1
  intro x hx
  rcases List.mem_cons.mp hx with h | h
  · exact Or.inl h
  · exact Or.inr (h3 x h)

/-- A brace-delimited, shape-free match inside the flattening of a
well-formed decomposition lies entirely within one literal chunk. -/
theorem match_locate :
    ∀ (segs : List Seg) (b m a : Text), goodSegs segs →
      flatSegs segs = b ++ m ++ a →
      m.head? = some '{' → m.getLast? = some '}' → shapeFree m →
      ∃ segsL u v segsR, segs = segsL ++ Seg.lit (u ++ m ++ v) :: segsR ∧
        b = flatSegs segsL ++ u ∧ a = v ++ flatSegs segsR := by
  intro segs
  induction segs with
  | nil =>
    intro b m a _ hflat hh _ _
    exfalso
    rw [flatSegs] at hflat
    have h0 := congrArg List.length hflat
    simp only [List.length_nil, List.length_append] at h0
    have hm : m = [] := List.length_eq_zero.mp (by omega)
    rw [hm] at hh
    simp at hh
  | cons s rest ih =>
    intro b m a hg hflat hh hl hsf
    have hmne : m ≠ [] := by intro h; rw [h] at hh; simp at hh
    cases s with
    | lit t =>
      obtain ⟨hsft, hadj, hgr⟩ := hg
      rw [flatSegs] at hflat
      have hflat' : t ++ flatSegs rest = b ++ (m ++ a) := by rw [hflat, List.append_assoc]
      rcases List.append_eq_append_iff.mp hflat' with ⟨a', ha1, ha2⟩ | ⟨c', hc1, hc2⟩
      · obtain ⟨segsL, u, v, segsR, e1, e2, e3⟩ :=
          ih a' m a hgr (by rw [List.append_assoc]; exact ha2) hh hl hsf
        refine ⟨Seg.lit t :: segsL, u, v, segsR, by simp [e1], ?_, e3⟩
        rw [ha1, e2, flatSegs, List.append_assoc]
      · rcases List.append_eq_append_iff.mp hc2 with ⟨a2, hA1, hA2⟩ | ⟨c2, hB1, hB2⟩
        · refine ⟨[], b, a2, rest, ?_, by simp [flatSegs], hA2⟩
          rw [List.nil_append, hc1, hA1]
          simp [List.append_assoc]
        · rcases eq_or_ne c2 [] with hnil | hne2
          · subst hnil
            refine ⟨[], b, [], rest, ?_, by simp [flatSegs], by simpa using hB2.symm⟩
            rw [List.nil_append, hc1, hB1]
            simp
          · exfalso
            cases rest with
            | nil =>
              rw [flatSegs] at hB2
              have h0 := congrArg List.length hB2
              simp only [List.length_nil, List.length_append] at h0
              exact hne2 (List.length_eq_zero.mp (by omega))
            | cons s2 rest2 =>
              cases s2 with
              | lit t2 => exact hadj t2 rfl
              | hole k =>
                obtain ⟨hk, hgr2⟩ := hgr
                rw [flatSegs] at hB2
                rcases List.append_eq_append_iff.mp hB2 with ⟨x, hx1, hx2⟩ | ⟨y, hy1, hy2⟩
                · have hdrop : m.drop c'.length = c2 := by
                    rw [hB1]; exact List.drop_left' rfl
                  have hs0 := hsf c'.length
                  rw [hdrop, hx1, matchShapeAt_phOf hk] at hs0
                  simp at hs0
                · have hlast : c2.getLast? = some '}' := by
                    rw [hB1, List.getLast?_append_of_ne_nil c' hne2] at hl
                    exact hl
                  have hmem : '}' ∈ phOf k := by
                    rw [hy1]
                    exact List.mem_append.mpr (Or.inl (List.mem_of_mem_getLast? hlast))
                  exact (brace_notin_phOf (wfKey_chars hk) _ hmem).2 rfl
    | hole k =>
      obtain ⟨hk, hgr⟩ := hg
      rw [flatSegs] at hflat
      have hflat' : phOf k ++ flatSegs rest = b ++ (m ++ a) := by rw [hflat, List.append_assoc]
      rcases List.append_eq_append_iff.mp hflat' with ⟨x, hx1, hx2⟩ | ⟨y, hy1, hy2⟩
      · obtain ⟨segsL, u, v, segsR, e1, e2, e3⟩ :=
          ih x m a hgr (by rw [List.append_assoc]; exact hx2) hh hl hsf
        refine ⟨Seg.hole k :: segsL, u, v, segsR, by simp [e1], ?_, e3⟩
        rw [hx1, e2, flatSegs, List.append_assoc]
      · rcases eq_or_ne y [] with hnil | hne2
        · subst hnil
          obtain ⟨segsL, u, v, segsR, e1, e2, e3⟩ :=
            ih [] m a hgr (by simpa using hy2.symm) hh hl hsf
          have h0 := congrArg List.length e2
          simp only [List.length_nil, List.length_append] at h0
          have hu : u = [] := List.length_eq_zero.mp (by omega)
          have hL : flatSegs segsL = [] := List.length_eq_zero.mp (by omega)
          have hb : b = phOf k := by simpa using hy1.symm
          refine ⟨Seg.hole k :: segsL, u, v, segsR, by simp [e1], ?_, e3⟩
          rw [hb, flatSegs, hL, hu]
          simp
        · exfalso
          have hhead : y.head? = some '{' := by
            have h0 := congrArg List.head? hy2
            rw [List.head?_append_of_ne_nil m hmne, List.head?_append_of_ne_nil y hne2, hh] at h0
            exact h0.symm
          have hmem : '{' ∈ phOf k := by
            rw [hy1]
            exact List.mem_append.mpr (Or.inr (List.mem_of_mem_head? hhead))
          exact (brace_notin_phOf (wfKey_chars hk) _ hmem).1 rfl

theorem decDigits_nil (acc : Nat) : decDigits acc [] = acc := rfl

theorem decDigits_cons (acc : Nat) (c : Char) (cs : Text) :
    decDigits acc (c :: cs) = decDigits (10 * acc + (c.toNat - 48)) cs := rfl

theorem decDigits_append (acc : Nat) (xs ys : Text) :
    decDigits acc (xs ++ ys) = decDigits (decDigits acc xs) ys := by
  induction xs generalizing acc with
  | nil => rfl
  | cons c cs ih => rw [List.cons_append, decDigits_cons, ih, decDigits_cons]

theorem digitChar_val : ∀ d, d < 10 → (digitChar d).toNat - 48 = d := by
  intro d h
  interval_cases d <;> decide

theorem decDigits_natDigitsAux :
    ∀ (fuel n acc : Nat), n < fuel →
      decDigits acc (natDigitsAux fuel n) = acc * 10 ^ (natDigitsAux fuel n).length + n := by
  intro fuel
  induction fuel with
  | zero => intro n acc h; exact absurd h (Nat.not_lt_zero n)
  | succ f ih =>
    intro n acc h
    rw [natDigitsAux]
    split
    · rename_i h10
      rw [decDigits_cons, decDigits_nil, digitChar_val n h10]
      simp only [List.length_cons, List.length_nil, pow_one]
      omega
    · rename_i h10
      push_neg at h10
      have hrec : n / 10 < f := by omega
      rw [decDigits_append, ih (n / 10) acc hrec, decDigits_cons, decDigits_nil,
        digitChar_val (n % 10) (Nat.mod_lt n (by omega))]
      rw [List.length_append, List.length_cons, List.length_nil]
      have hdm : 10 * (n / 10) + n % 10 = n := Nat.div_add_mod n 10
      calc 10 * (acc * 10 ^ (natDigitsAux f (n / 10)).length + n / 10) + n % 10
          = acc * 10 ^ ((natDigitsAux f (n / 10)).length + 1) + (10 * (n / 10) + n % 10) := by
            rw [pow_succ]; ring
        _ = acc * 10 ^ ((natDigitsAux f (n / 10)).length + 1) + n := by rw [hdm]

theorem decDigits_pad6 (n : Nat) : decDigits 0 (pad6 n) = n := by
  rw [pad6, decDigits_append]
  have hz : ∀ z, decDigits 0 (List.replicate z '0') = 0 := by
    intro z
    induction z with
    | zero => rfl
    | succ z ih =>
      have h0 : 10 * 0 + (('0' : Char).toNat - 48) = 0 := by decide
      rw [List.replicate_succ, decDigits_cons, h0]
      exact ih
  rw [hz, natDigits, decDigits_natDigitsAux (n + 1) n 0 (Nat.lt_succ_self n)]
  simp

theorem keyOf_inj {n m : Nat} (h : keyOf n = keyOf m) : n = m := by
  rw [keyOf, keyOf, List.cons.injEq] at h
  have h1 := decDigits_pad6 n
  rw [h.2, decDigits_pad6] at h1
  omega

theorem natDigitsAux_len :
    ∀ (fuel n k : Nat), n < fuel → n < 10 ^ k → 1 ≤ k →
      (natDigitsAux fuel n).length ≤ k := by
  intro fuel
  induction fuel with
  | zero => intro n k h _ _; exact absurd h (Nat.not_lt_zero n)
  | succ f ih =>
    intro n k h hk h1
    rw [natDigitsAux]
    split
    · simpa using h1
    · rename_i h10
      push_neg at h10
      rw [List.length_append, List.length_cons, List.length_nil]
      have hk2 : 2 ≤ k := by
        by_contra hc
        push_neg at hc
        have hk1 : k = 1 := by omega
        rw [hk1, pow_one] at hk
        omega
      have hpow : 10 ^ k = 10 ^ (k - 1) * 10 := by
        rw [← pow_succ]
        congr 1
        omega
      rw [hpow] at hk
      have hd : n / 10 < 10 ^ (k - 1) := (Nat.div_lt_iff_lt_mul (by omega)).mpr hk
      have := ih (n / 10) (k - 1) (by omega) hd (by omega)
      omega

theorem pad6_length {n : Nat} (h : n < 1000000) : (pad6 n).length = 6 := by
  rw [pad6, List.length_append, List.length_replicate]
  have hpow : (10 : Nat) ^ 6 = 1000000 := by norm_num
  have h6 : (natDigits n).length ≤ 6 := by
    rw [natDigits]
    exact natDigitsAux_len (n + 1) n 6 (Nat.lt_succ_self n) (by rw [hpow]; exact h) (by omega)
  omega

theorem wfKey_keyOf {n : Nat} (h : n < 1000000) : wfKey (keyOf n) :=
  ⟨pad6 n, rfl, pad6_length h, fun _ hc => keyOf_digits hc⟩

theorem keyOf_notin_range {c : Nat} : keyOf c ∉ (List.range c).map keyOf := by
  intro h
  obtain ⟨i, hi, he⟩ := List.mem_map.mp h
  have := keyOf_inj he
  rw [List.mem_range] at hi
  omega

theorem alookup_append_left {k v : Text} :
    ∀ {m1 : List (Text × Text)} (m2 : List (Text × Text)),
      alookup k m1 = some v → alookup k (m1 ++ m2) = some v := by
  intro m1
  induction m1 with
  | nil => intro m2 h; rw [alookup] at h; exact absurd h (by simp)
  | cons e m ih =>
    intro m2 h
    rw [alookup] at h
    rw [List.cons_append, alookup]
    by_cases he : e.1 = k
    · rw [if_pos he] at h ⊢; exact h
    · rw [if_neg he] at h ⊢; exact ih m2 h

theorem alookup_append_right {k : Text} :
    ∀ {m1 : List (Text × Text)} (m2 : List (Text × Text)), k ∉ m1.map Prod.fst →
      alookup k (m1 ++ m2) = alookup k m2 := by
  intro m1
  induction m1 with
  | nil => intro m2 _; rfl
  | cons e m ih =>
    intro m2 h
    rw [List.map_cons, List.mem_cons] at h
    push_neg at h
    rw [List.cons_append, alookup, if_neg (fun hh => h.1 hh.symm)]
    exact ih m2 h.2

theorem origSegs_mono {m1 m2 : List (Text × Text)} :
    ∀ {segs : List Seg} {s : Text}, origSegs m1 segs = some s →
      origSegs (m1 ++ m2) segs = some s := by
  intro segs
  induction segs with
  | nil => intro s h; rw [origSegs] at h ⊢; exact h
  | cons sg rest ih =>
    intro s h
    cases sg with
    | lit t =>
      rw [origSegs] at h ⊢
      simp only [Option.map_eq_some'] at h ⊢
      obtain ⟨r, h1, h2⟩ := h
      exact ⟨r, ih h1, h2⟩
    | hole k =>
      rw [origSegs] at h ⊢
      simp only [Option.bind_eq_some, Option.map_eq_some'] at h ⊢
      obtain ⟨v, hv, r, h1, h2⟩ := h
      exact ⟨v, alookup_append_left m2 hv, r, ih h1, h2⟩

theorem origSegs_append (m : List (Text × Text)) :
    ∀ (l1 l2 : List Seg),
      origSegs m (l1 ++ l2) =
        (origSegs m l1).bind fun x => (origSegs m l2).map fun y => x ++ y := by
  intro l1
  induction l1 with
  | nil =>
    intro l2
    cases h2 : origSegs m l2 <;> simp [origSegs, h2]
  | cons sg rest ih =>
    intro l2
    cases sg with
    | lit t =>
      rw [List.cons_append, origSegs, origSegs, ih]
      cases origSegs m rest <;> cases origSegs m l2 <;> simp [List.append_assoc]
    | hole k =>
      rw [List.cons_append, origSegs, origSegs, ih]
      cases alookup k m <;> cases origSegs m rest <;> cases origSegs m l2 <;>
        simp [List.append_assoc]

theorem flatSegs_append :
    ∀ (l1 l2 : List Seg), flatSegs (l1 ++ l2) = flatSegs l1 ++ flatSegs l2 := by
  intro l1
  induction l1 with
  | nil => intro l2; simp [flatSegs]
  | cons sg rest ih =>
    intro l2
    cases sg with
    | lit t => rw [List.cons_append, flatSegs, flatSegs, ih, List.append_assoc]
    | hole k => rw [List.cons_append, flatSegs, flatSegs, ih, List.append_assoc]

theorem holeKeys_append :
    ∀ (l1 l2 : List Seg), holeKeys (l1 ++ l2) = holeKeys l1 ++ holeKeys l2 := by
  intro l1
  induction l1 with
  | nil => intro l2; simp [holeKeys]
  | cons sg rest ih =>
    intro l2
    cases sg with
    | lit t => rw [List.cons_append, holeKeys, holeKeys, ih]
    | hole k => rw [List.cons_append, holeKeys, holeKeys, ih, List.cons_append]

theorem goodSegs_drop : ∀ (l r : List Seg), goodSegs (l ++ r) → goodSegs r := by
  intro l
  induction l with
  | nil => intro r h; exact h
  | cons sg rest ih =>
    intro r h
    cases sg with
    | lit t =>
      rw [List.cons_append, goodSegs] at h
      exact ih r h.2.2
    | hole k =>
      rw [List.cons_append, goodSegs] at h
      exact ih r h.2

theorem goodSegs_glue :
    ∀ (segsL : List Seg) {X : Text} {r t2' : List Seg},
      goodSegs (segsL ++ Seg.lit X :: r) → goodSegs t2' →
      goodSegs (segsL ++ t2') := by
  intro segsL
  induction segsL with
  | nil => intro X r t2' _ h2; exact h2
  | cons sg rest ih =>
    intro X r t2' h1 h2
    cases sg with
    | lit t =>
      rw [List.cons_append, goodSegs] at h1 ⊢
      obtain ⟨hsf, hadj, hg⟩ := h1
      refine ⟨hsf, ?_, ih hg h2⟩
      intro t'
      cases rest with
      | nil => exact absurd rfl (hadj X)
      | cons s2 rest2 =>
        intro hcontra
        rw [List.cons_append, List.head?_cons, Option.some_inj] at hcontra
        exact hadj t' (by rw [List.cons_append, List.head?_cons, hcontra])
    | hole k =>
      rw [List.cons_append, goodSegs] at h1 ⊢
      exact ⟨h1.1, ih h1.2 h2⟩

theorem shapeFree_append {x y : Text} (h : shapeFree (x ++ y)) :
    shapeFree x ∧ shapeFree y := by
  constructor
  · intro i
    cases hm : matchShapeAt (x.drop i) with
    | none => rfl
    | some q =>
      exfalso
      obtain ⟨k, r⟩ := q
      obtain ⟨he, hk⟩ := matchShapeAt_split hm
      have hi : i ≤ x.length := by
        by_contra hc
        push_neg at hc
        rw [List.drop_eq_nil_of_le (by omega)] at he
        have h0 := congrArg List.length he
        simp only [List.length_nil, List.length_append, phOf_length hk] at h0
        omega
      have h0 := h i
      rw [List.drop_append_of_le_length hi, he, List.append_assoc,
        matchShapeAt_phOf hk] at h0
      simp at h0
  · intro i
    have h0 := h (x.length + i)
    rw [List.drop_append] at h0
    exact h0

/-- One replacement of the mask loop preserves the decomposition invariant,
provided the replaced text is itself free of placeholder shapes (no nesting)
and the key counter has not exhausted the six-digit key space. -/
theorem maskStep_inv {p : JPat} {src : Text} {st st' : MState}
    (hinv : MInv src st) (h : maskStep p st = some st')
    (hcnt : st.counter < 1000000)
    (hval : ∀ v ∈ st'.mapping.map Prod.snd, shapeFree v) :
    MInv src st' := by
  obtain ⟨b, m, a, hsearch, hmask, hmask', hmap, hcnt', ⟨t1, ht1⟩, ⟨t2, ht2⟩⟩ := maskStep_some h
  obtain ⟨segs, hgood, hflat, horig, hperm, hkeys⟩ := hinv
  have hmfree : shapeFree m := by
    apply hval
    rw [hmap, List.map_append]
    simp
  have hhead : m.head? = some '{' := by rw [ht1]; rfl
  have hlast : m.getLast? = some '}' := by rw [ht2]; exact List.getLast?_concat t2
  have hflat2 : flatSegs segs = b ++ m ++ a := by rw [hflat, hmask]
  obtain ⟨segsL, u, v, segsR, e1, e2, e3⟩ :=
    match_locate segs b m a hgood hflat2 hhead hlast hmfree
  rw [e1] at hgood horig hperm
  have hgR : goodSegs (Seg.lit (u ++ m ++ v) :: segsR) := goodSegs_drop segsL _ hgood
  rw [goodSegs] at hgR
  obtain ⟨hsfX, hadjR, hgsegsR⟩ := hgR
  have hum := shapeFree_append hsfX
  have hu := (shapeFree_append hum.1).1
  have hv := hum.2
  have hwfk : wfKey (keyOf st.counter) := wfKey_keyOf hcnt
  have hlook : alookup (keyOf st.counter) st'.mapping = some m := by
    rw [hmap, alookup_append_right _ (by rw [hkeys]; exact keyOf_notin_range)]
    rw [alookup, if_pos rfl]
  have hTail : goodSegs (litOpt v ++ segsR) := by
    rcases eq_or_ne v [] with hv0 | hv0
    · simpa [litOpt, hv0] using hgsegsR
    · rw [litOpt, if_neg hv0, List.singleton_append]
      exact ⟨hv, hadjR, hgsegsR⟩
  have hHole : goodSegs (Seg.hole (keyOf st.counter) :: (litOpt v ++ segsR)) := ⟨hwfk, hTail⟩
  have hMid : goodSegs (litOpt u ++ (Seg.hole (keyOf st.counter) :: litOpt v ++ segsR)) := by
    rcases eq_or_ne u [] with hu0 | hu0
    · simpa [litOpt, hu0, List.cons_append, List.append_assoc] using hHole
    · rw [litOpt, if_neg hu0, List.singleton_append]
      exact ⟨hu, by simp, hHole⟩
  have hflatmid :
      flatSegs (litOpt u ++ Seg.hole (keyOf st.counter) :: litOpt v) =
        u ++ phOf (keyOf st.counter) ++ v := by
    rcases eq_or_ne u [] with hu0 | hu0 <;> rcases eq_or_ne v [] with hv0 | hv0 <;>
      simp [litOpt, hu0, hv0, flatSegs, flatSegs_append]
  have hkeymid :
      holeKeys (litOpt u ++ Seg.hole (keyOf st.counter) :: litOpt v) =
        [keyOf st.counter] := by
    rcases eq_or_ne u [] with hu0 | hu0 <;> rcases eq_or_ne v [] with hv0 | hv0 <;>
      simp [litOpt, hu0, hv0, holeKeys, holeKeys_append]
  have horigmid :
      origSegs st'.mapping (litOpt u ++ Seg.hole (keyOf st.counter) :: litOpt v) =
        some (u ++ m ++ v) := by
    rcases eq_or_ne u [] with hu0 | hu0 <;> rcases eq_or_ne v [] with hv0 | hv0 <;>
      simp [litOpt, hu0, hv0, origSegs, origSegs_append, hlook]
  have horig' : origSegs st'.mapping (segsL ++ Seg.lit (u ++ m ++ v) :: segsR) = some src := by
    rw [hmap]
    exact origSegs_mono horig
  rw [origSegs_append] at horig'
  simp only [Option.bind_eq_some, Option.map_eq_some'] at horig'
  obtain ⟨sL, hsL, sRX, hsRX, hsrc⟩ := horig'
  rw [origSegs] at hsRX
  simp only [Option.map_eq_some'] at hsRX
  obtain ⟨sR, hsR, hsRX2⟩ := hsRX
  refine ⟨segsL ++ (litOpt u ++ Seg.hole (keyOf st.counter) :: litOpt v) ++ segsR,
    ?_, ?_, ?_, ?_, ?_⟩
  · rw [List.append_assoc]
    exact goodSegs_glue segsL hgood (by
      rw [List.append_assoc, List.cons_append]
      exact hMid)
  · rw [hmask', flatSegs_append, flatSegs_append, hflatmid, e2, e3]
    simp [List.append_assoc]
  · rw [origSegs_append, origSegs_append, hsL, horigmid, hsR]
    simp only [Option.some_bind, Option.map_some', Option.some_bind]
    rw [← hsrc, ← hsRX2]
    simp [List.append_assoc]
  · rw [holeKeys_append, holeKeys_append, hkeymid]
    rw [holeKeys_append, holeKeys] at hperm
    rw [hmap, List.map_append]
    rw [List.perm_iff_count]
    intro x
    have hc := hperm.count_eq x
    simp only [List.count_append, List.map_cons, List.map_nil] at hc ⊢
    omega
  · rw [hmap, List.map_append, hkeys, hcnt', List.range_succ, List.map_append]
    rfl

/-- The whole replacement loop of one pattern class preserves the invariant,
under the same shape-freeness and key-space conditions on its final state. -/
theorem maskLoop_inv {p : JPat} :
    ∀ (fuel : Nat) (st : MState) (src : Text), MInv src st →
      (maskLoop p fuel st).counter ≤ 1000000 →
      (∀ v ∈ (maskLoop p fuel st).mapping.map Prod.snd, shapeFree v) →
      MInv src (maskLoop p fuel st) := by
  intro fuel
  induction fuel with
  | zero =>
    intro st src hinv _ _
    exact hinv
  | succ f ih =>
    intro st src hinv hcnt hval
    cases hs : maskStep p st with
    | none =>
      have hred : maskLoop p (f + 1) st = st := by rw [maskLoop, hs]
      rw [hred]
      exact hinv
    | some st' =>
      have hred : maskLoop p (f + 1) st = maskLoop p f st' := by rw [maskLoop, hs]
      rw [hred] at hcnt hval ⊢
      obtain ⟨ext, hext⟩ := @maskLoop_mapping_ext p f st'
      have hmono := @maskLoop_counter_mono p f st'
      obtain ⟨_, _, _, _, _, _, _, hcnt', _, _⟩ := maskStep_some hs
      have hstep : MInv src st' := by
        refine maskStep_inv hinv hs (by omega) ?_
        intro v hvmem
        apply hval
        rw [hext, List.map_append]
        exact List.mem_append.mpr (Or.inl hvmem)
      exact ih st' src hstep hcnt hval

theorem foldMask_nil (st : MState) : foldMask [] st = st := rfl

theorem foldMask_cons (p : JPat) (ps : List JPat) (st : MState) :
    foldMask (p :: ps) st = foldMask ps (maskLoop p (braceCount st.masked + 1) st) := rfl

theorem foldMask_mapping_ext :
    ∀ (ps : List JPat) (st : MState), ∃ ext, (foldMask ps st).mapping = st.mapping ++ ext := by
  intro ps
  induction ps with
  | nil => intro st; exact ⟨[], by simp [foldMask_nil]⟩
  | cons p ps ih =>
    intro st
    rw [foldMask_cons]
    obtain ⟨e2, h2⟩ := ih (maskLoop p (braceCount st.masked + 1) st)
    obtain ⟨e1, h1⟩ := @maskLoop_mapping_ext p (braceCount st.masked + 1) st
    exact ⟨e1 ++ e2, by rw [h2, h1, List.append_assoc]⟩

theorem foldMask_counter_mono :
    ∀ (ps : List JPat) (st : MState), st.counter ≤ (foldMask ps st).counter := by
  intro ps
  induction ps with
  | nil => intro st; exact Nat.le_refl _
  | cons p ps ih =>
    intro st
    rw [foldMask_cons]
    exact Nat.le_trans (@maskLoop_counter_mono p (braceCount st.masked + 1) st)
      (ih (maskLoop p (braceCount st.masked + 1) st))

theorem maskLoop_counterLen {p : JPat} :
    ∀ (fuel : Nat) (st : MState), st.counter = st.mapping.length →
      (maskLoop p fuel st).counter = (maskLoop p fuel st).mapping.length := by
  intro fuel
  induction fuel with
  | zero => intro st h; exact h
  | succ f ih =>
    intro st h
    cases hs : maskStep p st with
    | none =>
      have hred : maskLoop p (f + 1) st = st := by rw [maskLoop, hs]
      rw [hred]
      exact h
    | some st' =>
      have hred : maskLoop p (f + 1) st = maskLoop p f st' := by rw [maskLoop, hs]
      rw [hred]
      obtain ⟨_, _, _, _, _, _, hmap, hcnt', _, _⟩ := maskStep_some hs
      exact ih st' (by rw [hmap, hcnt', List.length_append, h]; rfl)

theorem foldMask_counterLen :
    ∀ (ps : List JPat) (st : MState), st.counter = st.mapping.length →
      (foldMask ps st).counter = (foldMask ps st).mapping.length := by
  intro ps
  induction ps with
  | nil => intro st h; exact h
  | cons p ps ih =>
    intro st h
    rw [foldMask_cons]
    exact ih _ (@maskLoop_counterLen p (braceCount st.masked + 1) st h)

theorem foldMask_inv :
    ∀ (ps : List JPat) (st : MState) (src : Text), MInv src st →
      (foldMask ps st).counter ≤ 1000000 →
      (∀ v ∈ (foldMask ps st).mapping.map Prod.snd, shapeFree v) →
      MInv src (foldMask ps st) := by
  intro ps
  induction ps with
  | nil => intro st src hinv _ _; exact hinv
  | cons p ps ih =>
    intro st src hinv hcnt hval
    rw [foldMask_cons] at hcnt hval ⊢
    refine ih _ src ?_ hcnt hval
    refine maskLoop_inv _ st src hinv ?_ ?_
    · exact Nat.le_trans (foldMask_counter_mono ps _) hcnt
    · intro v hvmem
      apply hval
      obtain ⟨ext, hext⟩ := foldMask_mapping_ext ps (maskLoop p (braceCount st.masked + 1) st)
      rw [hext, List.map_append]
      exact List.mem_append.mpr (Or.inl hvmem)

theorem shapeFree_of_bounded {t : Text}
    (h : ∀ i, i < t.length → matchShapeAt (t.drop i) = none) : shapeFree t := by
  intro i
  by_cases hi : i < t.length
  · exact h i hi
  · rw [List.drop_eq_nil_of_le (by omega)]
    rfl

theorem maskJinja_eq (src : Text) :
    maskJinja src =
      ((foldMask maskPats ⟨src, [], 0⟩).masked, (foldMask maskPats ⟨src, [], 0⟩).mapping) := rfl

theorem maskJinja_inv (src : Text) (h1 : shapeFree src)
    (h2 : ∀ v ∈ (maskJinja src).2.map Prod.snd, shapeFree v)
    (h3 : (maskJinja src).2.length ≤ 1000000) :
    MInv src (foldMask maskPats ⟨src, [], 0⟩) := by
  have hinit : MInv src ⟨src, [], 0⟩ := by
    refine ⟨[Seg.lit src], ⟨h1, by simp, trivial⟩, ?_, ?_, ?_, ?_⟩
    · rw [flatSegs, flatSegs, List.append_nil]
    · rw [origSegs, origSegs]
      simp
    · rw [holeKeys, holeKeys]
      simp
    · simp
  have hlen : (foldMask maskPats ⟨src, [], 0⟩).counter =
      (foldMask maskPats ⟨src, [], 0⟩).mapping.length :=
    foldMask_counterLen maskPats ⟨src, [], 0⟩ rfl
  have h3' : (foldMask maskPats ⟨src, [], 0⟩).mapping.length ≤ 1000000 := h3
  exact foldMask_inv maskPats ⟨src, [], 0⟩ src hinit (by omega) h2

/-- C1 (amended): unmasking the result of masking reproduces the original
text byte-for-byte, provided the input contains no substring already shaped
like a placeholder element, no recorded mapping value contains a
placeholder-shaped substring (i.e. no construct was masked inside another,
as happens for nested constructs such as a comment inside an expression),
and at most 10^6 placeholders were allocated (the six-digit key space).
The unrestricted claim is refuted by `claim_C1_counterexample`. -/
theorem claim_C1_roundtrip (src : Text) (h1 : shapeFree src)
    (h2 : ∀ v ∈ (maskJinja src).2.map Prod.snd, shapeFree v)
    (h3 : (maskJinja src).2.length ≤ 1000000) :
    unmaskJinja (maskJinja src).1 (maskJinja src).2 = some src := by
  have hinv := maskJinja_inv src h1 h2 h3
  obtain ⟨segs, hg, hflat, horig, _, _⟩ := hinv
  have e1 : (maskJinja src).1 = flatSegs segs := by rw [maskJinja_eq]; exact hflat.symm
  have e2 : (maskJinja src).2 = (foldMask maskPats ⟨src, [], 0⟩).mapping := by
    rw [maskJinja_eq]
  rw [unmaskJinja, e1, e2]
  rw [unmask_flat _ ((flatSegs segs).length + segs.length) segs _ hg (Nat.le_refl _)
    (Nat.lt_succ_self _)]
  exact horig

/-- C1, counterexample to the unrestricted claim: for the input
`{{ a {# c #} b }}` — which contains no placeholder-shaped substring —
the comment is masked first, the expression pass then swallows the
placeholder into its own mapping value, and the single-pass unmask never
resolves the inner placeholder, so the roundtrip does not restore the
input. -/
theorem claim_C1_counterexample :
    (∀ i, i < (['{', '{', ' ', 'a', ' ', '{', '#', ' ', 'c', ' ', '#', '}', ' ', 'b', ' ', '}', '}'] : Text).length →
      matchShapeAt ((['{', '{', ' ', 'a', ' ', '{', '#', ' ', 'c', ' ', '#', '}', ' ', 'b', ' ', '}', '}'] : Text).drop i) = none) ∧
    unmaskJinja
        (maskJinja ['{', '{', ' ', 'a', ' ', '{', '#', ' ', 'c', ' ', '#', '}', ' ', 'b', ' ', '}', '}']).1
        (maskJinja ['{', '{', ' ', 'a', ' ', '{', '#', ' ', 'c', ' ', '#', '}', ' ', 'b', ' ', '}', '}']).2 ≠
      some ['{', '{', ' ', 'a', ' ', '{', '#', ' ', 'c', ' ', '#', '}', ' ', 'b', ' ', '}', '}'] := by
  constructor
  · decide
  · decide

/-- C1, witness: the amended roundtrip at the concrete input `a {{ x }} b`. -/
theorem claim_C1_witness :
    unmaskJinja (maskJinja ['a', ' ', '{', '{', ' ', 'x', ' ', '}', '}', ' ', 'b']).1
        (maskJinja ['a', ' ', '{', '{', ' ', 'x', ' ', '}', '}', ' ', 'b']).2 =
      some ['a', ' ', '{', '{', ' ', 'x', ' ', '}', '}', ' ', 'b'] := by
  apply claim_C1_roundtrip
  · exact shapeFree_of_bounded (by decide)
  · intro v hv
    have hm : (maskJinja ['a', ' ', '{', '{', ' ', 'x', ' ', '}', '}', ' ', 'b']).2.map Prod.snd =
        [['{', '{', ' ', 'x', ' ', '}', '}']] := by decide
    rw [hm, List.mem_singleton] at hv
    subst hv
    exact shapeFree_of_bounded (by decide)
  · decide

theorem unmaskAux_fuel {m : List (Text × Text)} :
    ∀ (n : Nat) (s : Text), s.length ≤ n → ∀ (f f' : Nat), s.length < f → s.length < f' →
      unmaskAux m f s = unmaskAux m f' s := by
  intro n
  induction n with
  | zero =>
    intro s hs f f' hf hf'
    have hnil : s = [] := List.length_eq_zero.mp (by omega)
    subst hnil
    cases f with
    | zero => omega
    | succ g =>
      cases f' with
      | zero => omega
      | succ g' => rfl
  | succ nn ih =>
    intro s hs f f' hf hf'
    cases s with
    | nil =>
      cases f with
      | zero => omega
      | succ g =>
        cases f' with
        | zero => omega
        | succ g' => rfl
    | cons c cs =>
      cases f with
      | zero => omega
      | succ g =>
        cases f' with
        | zero => omega
        | succ g' =>
          cases hmt : matchShapeAt (c :: cs) with
          | some q =>
            obtain ⟨kq, rq⟩ := q
            obtain ⟨heq, hkq⟩ := matchShapeAt_split hmt
            have h36 := phOf_length hkq
            have hlen : rq.length + 36 = (c :: cs).length := by
              rw [heq, List.length_append, h36]
              omega
            rw [List.length_cons] at hlen
            rw [unmaskAux_succ_some hmt, unmaskAux_succ_some hmt]
            rw [List.length_cons] at hs hf hf'
            rw [ih rq (by omega) g g' (by omega) (by omega)]
          | none =>
            rw [unmaskAux_succ_none hmt, unmaskAux_succ_none hmt]
            rw [List.length_cons] at hs hf hf'
            rw [ih cs (by omega) g g' (by omega) (by omega)]

/-- A placeholder shape cannot start strictly inside a shape-free chunk that
is directly followed by a placeholder. -/
theorem no_shape_lit_hole {t X k : Text} (hne : t ≠ []) (ht : shapeFree t) (hk : wfKey k) :
    matchShapeAt (t ++ (phOf k ++ X)) = none := by
  cases hm : matchShapeAt (t ++ (phOf k ++ X)) with
  | none => rfl
  | some q =>
    exfalso
    obtain ⟨k'', r⟩ := q
    obtain ⟨heq, hk''⟩ := matchShapeAt_split hm
    rcases List.append_eq_append_iff.mp heq with ⟨a, ha1, ha2⟩ | ⟨c', hc1, hc2⟩
    · cases a with
      | nil =>
        have ht0 := ht 0
        rw [List.drop_zero, show t = phOf k'' ++ [] from by simp [ha1],
          matchShapeAt_phOf hk''] at ht0
        exact absurd ht0 (by simp)
      | cons a0 a' =>
        have hlen : t.length < 36 := by
          have := congrArg List.length ha1
          rw [phOf_length hk''] at this
          simp only [List.length_append, List.length_cons] at this
          omega
        rw [← List.append_assoc] at heq
        exact shape_clash hne hlen hk'' heq
    · have ht0 := ht 0
      rw [List.drop_zero, hc1, matchShapeAt_phOf hk''] at ht0
      exact absurd ht0 (by simp)

/-- The unmask scan over a shape-free prefix followed by a placeholder:
the prefix is copied verbatim and the placeholder is resolved through the
mapping (failing exactly when the key is absent). -/
theorem unmask_walk (m : List (Text × Text)) (k rest : Text) (hk : wfKey k) :
    ∀ (pre : Text) (fuel : Nat), shapeFree pre →
      (pre ++ (phOf k ++ rest)).length < fuel →
      unmaskAux m fuel (pre ++ (phOf k ++ rest)) =
        (alookup k m).bind fun v =>
          (unmaskAux m (rest.length + 1) rest).map fun r => pre ++ v ++ r := by
  intro pre
  induction pre with
  | nil =>
    intro fuel _ hlen
    cases fuel with
    | zero => exact absurd hlen (by simp)
    | succ g =>
      rw [List.nil_append]
      have hcons : phOf k ++ rest =
          '<' :: (('x' :: ['-', 'j', 'i', 'n', 'j', 'a', ' ', 'd', 'a', 't', 'a', '-', 'k', '=', '"'] ++ k ++ phSuf) ++ rest) := by
        rw [phOf_cons]
        simp [List.append_assoc]
      rw [hcons, unmaskAux_succ_some (by rw [← hcons]; exact matchShapeAt_phOf hk)]
      have hg : rest.length < g := by
        rw [List.nil_append, List.length_append, phOf_length hk] at hlen
        omega
      rw [unmaskAux_fuel rest.length rest (Nat.le_refl _) g (rest.length + 1) hg
        (Nat.lt_succ_self _)]
      cases alookup k m <;> cases unmaskAux m (rest.length + 1) rest <;> simp
  | cons c pre' ih =>
    intro fuel hsf hlen
    cases fuel with
    | zero => exact absurd hlen (by simp)
    | succ g =>
      rw [List.cons_append]
      rw [unmaskAux_succ_none (by
        have h0 := no_shape_lit_hole (t := c :: pre') (X := rest) (by simp) hsf hk
        rw [List.cons_append] at h0
        exact h0)]
      rw [ih g (shapeFree_tail hsf) (by
        rw [List.cons_append, List.length_cons] at hlen
        omega)]
      cases alookup k m <;> cases unmaskAux m (rest.length + 1) rest <;> simp

/-- C8: during unmasking, a placeholder whose key is absent from the map is
an unrecoverable error (the scan fails; nothing is silently skipped), and a
placeholder whose key is present is replaced by its mapped original
substring byte-for-byte, the surrounding text being copied verbatim. -/
theorem claim_C8_unmask (m : List (Text × Text)) (pre k rest : Text)
    (hpre : shapeFree pre) (hk : wfKey k) :
    (alookup k m = none → unmaskJinja (pre ++ (phOf k ++ rest)) m = none) ∧
    (∀ v, alookup k m = some v →
      unmaskJinja (pre ++ (phOf k ++ rest)) m =
        (unmaskAux m (rest.length + 1) rest).map fun r => pre ++ v ++ r) := by
  have hw := unmask_walk m k rest hk pre ((pre ++ (phOf k ++ rest)).length + 1) hpre
    (Nat.lt_succ_self _)
  constructor
  · intro hnone
    rw [unmaskJinja, hw, hnone]
    rfl
  · intro v hv
    rw [unmaskJinja, hw, hv]
    rfl

theorem findPatP_skip_all {α : Type} (f : Text → Option (α × Text)) :
    ∀ (u s : Text), (∀ x y, u = x ++ y → y ≠ [] → f (y ++ s) = none) →
      findPatP f (u ++ s) = (findPatP f s).map fun q => (u ++ q.1, q.2.1, q.2.2) := by
  intro u
  induction u with
  | nil =>
    intro s _
    rw [List.nil_append]
    cases hq : findPatP f s with
    | none => rfl
    | some q => obtain ⟨a1, a2, a3⟩ := q; simp
  | cons c u' ih =>
    intro s h
    rw [List.cons_append]
    rw [findPatP_cons_none (by
      have h0 := h [] (c :: u') rfl (by simp)
      rw [List.cons_append] at h0
      exact h0)]
    rw [ih s (fun x y hxy hy => h (c :: x) y (by rw [hxy]; rfl) hy)]
    cases hq : findPatP f s with
    | none => rfl
    | some q => obtain ⟨a1, a2, a3⟩ := q; simp

theorem maskLoop_stuck {p : JPat} :
    ∀ (f : Nat) {st : MState}, maskStep p st = none → maskLoop p f st = st := by
  intro f
  cases f with
  | zero => intro st _; rfl
  | succ g => intro st h; rw [maskLoop, h]

theorem maskStep_none {p : JPat} {st : MState} (h : jsearch p st.masked = none) :
    maskStep p st = none := by
  rw [maskStep, h]
  rfl

/-- C2: on a document consisting of a raw block (whose body may contain
comment/statement/expression-shaped text, and contains no earlier endraw
delimiter) in a brace-free context, masking allocates exactly one
placeholder, mapped to the whole raw block including its delimiters; no
placeholder is allocated for any construct inside the body, because the
pattern classes are scanned in the priority order raw, comment, statement,
expression and the raw pass removes the block first. -/
theorem claim_C2_raw_priority (pre body post : Text)
    (hpre : ∀ c ∈ pre, c ≠ '{') (hpost : ∀ c ∈ post, c ≠ '{')
    (hbody : ∀ x y, body = x ++ y → y ≠ [] →
      matchWord ['e', 'n', 'd', 'r', 'a', 'w']
        (y ++ ('{' :: '%' :: ' ' :: 'e' :: 'n' :: 'd' :: 'r' :: 'a' :: 'w' :: ' ' :: '%' :: '}' :: post)) = none)
    (_hinner : occursTok ['{', '#'] body) :
    maskJinja (pre ++ ('{' :: '%' :: ' ' :: 'r' :: 'a' :: 'w' :: ' ' :: '%' :: '}' ::
        (body ++ ('{' :: '%' :: ' ' :: 'e' :: 'n' :: 'd' :: 'r' :: 'a' :: 'w' :: ' ' :: '%' :: '}' :: post)))) =
      (pre ++ phOf (keyOf 0) ++ post,
       [(keyOf 0, ['{', '%', ' ', 'r', 'a', 'w', ' ', '%', '}'] ++ body ++
          ['{', '%', ' ', 'e', 'n', 'd', 'r', 'a', 'w', ' ', '%', '}'])]) := by
  have hfind2 : findPatP (matchWord ['e', 'n', 'd', 'r', 'a', 'w'])
      (body ++ ('{' :: '%' :: ' ' :: 'e' :: 'n' :: 'd' :: 'r' :: 'a' :: 'w' :: ' ' :: '%' :: '}' :: post)) =
      some (body, ['{', '%', ' ', 'e', 'n', 'd', 'r', 'a', 'w', ' ', '%', '}'], post) := by
    rw [findPatP_skip_all _ body _ hbody]
    rw [findPatP_cons_some (show matchWord ['e', 'n', 'd', 'r', 'a', 'w']
      ('{' :: '%' :: ' ' :: 'e' :: 'n' :: 'd' :: 'r' :: 'a' :: 'w' :: ' ' :: '%' :: '}' :: post) =
      some (['{', '%', ' ', 'e', 'n', 'd', 'r', 'a', 'w', ' ', '%', '}'], post) from rfl)]
    simp
  have hraw : matchAt JPat.raw ('{' :: '%' :: ' ' :: 'r' :: 'a' :: 'w' :: ' ' :: '%' :: '}' ::
      (body ++ ('{' :: '%' :: ' ' :: 'e' :: 'n' :: 'd' :: 'r' :: 'a' :: 'w' :: ' ' :: '%' :: '}' :: post))) =
      some (['{', '%', ' ', 'r', 'a', 'w', ' ', '%', '}'] ++ body ++
        ['{', '%', ' ', 'e', 'n', 'd', 'r', 'a', 'w', ' ', '%', '}'], post) := by
    show matchRawAt _ = _
    rw [matchRawAt]
    rw [show matchWord ['r', 'a', 'w'] ('{' :: '%' :: ' ' :: 'r' :: 'a' :: 'w' :: ' ' :: '%' :: '}' ::
      (body ++ ('{' :: '%' :: ' ' :: 'e' :: 'n' :: 'd' :: 'r' :: 'a' :: 'w' :: ' ' :: '%' :: '}' :: post))) =
      some (['{', '%', ' ', 'r', 'a', 'w', ' ', '%', '}'],
        body ++ ('{' :: '%' :: ' ' :: 'e' :: 'n' :: 'd' :: 'r' :: 'a' :: 'w' :: ' ' :: '%' :: '}' :: post)) from rfl]
    simp only [Option.some_bind]
    rw [hfind2]
    rfl
  have hjs : jsearch JPat.raw (pre ++ ('{' :: '%' :: ' ' :: 'r' :: 'a' :: 'w' :: ' ' :: '%' :: '}' ::
      (body ++ ('{' :: '%' :: ' ' :: 'e' :: 'n' :: 'd' :: 'r' :: 'a' :: 'w' :: ' ' :: '%' :: '}' :: post)))) =
      some (pre, ['{', '%', ' ', 'r', 'a', 'w', ' ', '%', '}'] ++ body ++
        ['{', '%', ' ', 'e', 'n', 'd', 'r', 'a', 'w', ' ', '%', '}'], post) := by
    rw [jsearch]
    rw [findPatP_skip_all _ pre _ (fun x y hxy hy => matchAt_none_head (by
      cases y with
      | nil => exact absurd rfl hy
      | cons c0 y' =>
        rw [List.cons_append, List.head?_cons]
        intro hcontra
        rw [Option.some_inj] at hcontra
        exact hpre c0 (by rw [hxy]; exact List.mem_append.mpr (Or.inr (List.mem_cons_self c0 y'))) hcontra))]
    rw [findPatP_cons_some hraw]
    simp
  have hms : maskStep JPat.raw ⟨pre ++ ('{' :: '%' :: ' ' :: 'r' :: 'a' :: 'w' :: ' ' :: '%' :: '}' ::
      (body ++ ('{' :: '%' :: ' ' :: 'e' :: 'n' :: 'd' :: 'r' :: 'a' :: 'w' :: ' ' :: '%' :: '}' :: post))), [], 0⟩ =
      some ⟨pre ++ phOf (keyOf 0) ++ post,
        [(keyOf 0, ['{', '%', ' ', 'r', 'a', 'w', ' ', '%', '}'] ++ body ++
          ['{', '%', ' ', 'e', 'n', 'd', 'r', 'a', 'w', ' ', '%', '}'])], 1⟩ := by
    have hdef : maskStep JPat.raw ⟨pre ++ ('{' :: '%' :: ' ' :: 'r' :: 'a' :: 'w' :: ' ' :: '%' :: '}' ::
        (body ++ ('{' :: '%' :: ' ' :: 'e' :: 'n' :: 'd' :: 'r' :: 'a' :: 'w' :: ' ' :: '%' :: '}' :: post))), [], 0⟩ =
        (jsearch JPat.raw (pre ++ ('{' :: '%' :: ' ' :: 'r' :: 'a' :: 'w' :: ' ' :: '%' :: '}' ::
          (body ++ ('{' :: '%' :: ' ' :: 'e' :: 'n' :: 'd' :: 'r' :: 'a' :: 'w' :: ' ' :: '%' :: '}' :: post))))).map
          fun q => ⟨q.1 ++ phOf (keyOf 0) ++ q.2.2, [(keyOf 0, q.2.1)], 1⟩ := rfl
    rw [hdef, hjs]
    rfl
  have hbf : ∀ c ∈ pre ++ phOf (keyOf 0) ++ post, c ≠ '{' := by
    intro c hc
    rcases List.mem_append.mp hc with h1 | h1
    · rcases List.mem_append.mp h1 with h2 | h2
      · exact hpre c h2
      · exact (brace_notin_phOf (keyOf_chars 0) c h2).1
    · exact hpost c h1
  have hstuck : ∀ p : JPat, maskStep p ⟨pre ++ phOf (keyOf 0) ++ post,
      [(keyOf 0, ['{', '%', ' ', 'r', 'a', 'w', ' ', '%', '}'] ++ body ++
        ['{', '%', ' ', 'e', 'n', 'd', 'r', 'a', 'w', ' ', '%', '}'])], 1⟩ = none := by
    intro p
    exact maskStep_none (jsearch_none_of_no_brace hbf)
  have hfold : foldMask maskPats ⟨pre ++ ('{' :: '%' :: ' ' :: 'r' :: 'a' :: 'w' :: ' ' :: '%' :: '}' ::
      (body ++ ('{' :: '%' :: ' ' :: 'e' :: 'n' :: 'd' :: 'r' :: 'a' :: 'w' :: ' ' :: '%' :: '}' :: post))), [], 0⟩ =
      ⟨pre ++ phOf (keyOf 0) ++ post,
        [(keyOf 0, ['{', '%', ' ', 'r', 'a', 'w', ' ', '%', '}'] ++ body ++
          ['{', '%', ' ', 'e', 'n', 'd', 'r', 'a', 'w', ' ', '%', '}'])], 1⟩ := by
    rw [show maskPats = [JPat.raw, JPat.cmt, JPat.stmt, JPat.expr] from rfl]
    rw [foldMask_cons]
    rw [show maskLoop JPat.raw
        (braceCount (⟨pre ++ ('{' :: '%' :: ' ' :: 'r' :: 'a' :: 'w' :: ' ' :: '%' :: '}' ::
          (body ++ ('{' :: '%' :: ' ' :: 'e' :: 'n' :: 'd' :: 'r' :: 'a' :: 'w' :: ' ' :: '%' :: '}' :: post))), [], 0⟩ : MState).masked + 1)
        (⟨pre ++ ('{' :: '%' :: ' ' :: 'r' :: 'a' :: 'w' :: ' ' :: '%' :: '}' ::
          (body ++ ('{' :: '%' :: ' ' :: 'e' :: 'n' :: 'd' :: 'r' :: 'a' :: 'w' :: ' ' :: '%' :: '}' :: post))), [], 0⟩ : MState) =
        ⟨pre ++ phOf (keyOf 0) ++ post,
          [(keyOf 0, ['{', '%', ' ', 'r', 'a', 'w', ' ', '%', '}'] ++ body ++
            ['{', '%', ' ', 'e', 'n', 'd', 'r', 'a', 'w', ' ', '%', '}'])], 1⟩ from by
      rw [maskLoop, hms]
      exact maskLoop_stuck _ (hstuck _)]
    rw [foldMask_cons, maskLoop_stuck _ (hstuck _)]
    rw [foldMask_cons, maskLoop_stuck _ (hstuck _)]
    rw [foldMask_cons, maskLoop_stuck _ (hstuck _)]
    rfl
  rw [maskJinja_eq, hfold]

/-- C2, witness: the raw block `{% raw %}{# c #}{% endraw %}` between `a`
and `b` is masked as one placeholder covering the whole block, and the
comment inside its body is not separately masked. -/
theorem claim_C2_witness :
    maskJinja (['a'] ++ ('{' :: '%' :: ' ' :: 'r' :: 'a' :: 'w' :: ' ' :: '%' :: '}' ::
        (['{', '#', ' ', 'c', ' ', '#', '}'] ++
          ('{' :: '%' :: ' ' :: 'e' :: 'n' :: 'd' :: 'r' :: 'a' :: 'w' :: ' ' :: '%' :: '}' :: ['b'])))) =
      (['a'] ++ phOf (keyOf 0) ++ ['b'],
       [(keyOf 0, ['{', '%', ' ', 'r', 'a', 'w', ' ', '%', '}'] ++ ['{', '#', ' ', 'c', ' ', '#', '}'] ++
          ['{', '%', ' ', 'e', 'n', 'd', 'r', 'a', 'w', ' ', '%', '}'])]) := by
  apply claim_C2_raw_priority ['a'] ['{', '#', ' ', 'c', ' ', '#', '}'] ['b']
  · decide
  · decide
  · intro x y hxy hy
    have hdec : ∀ i, i < 7 →
        matchWord ['e', 'n', 'd', 'r', 'a', 'w']
          ((['{', '#', ' ', 'c', ' ', '#', '}'] : Text).drop i ++
            ('{' :: '%' :: ' ' :: 'e' :: 'n' :: 'd' :: 'r' :: 'a' :: 'w' :: ' ' :: '%' :: '}' :: ['b'])) = none := by
      decide
    have hylen : y = (['{', '#', ' ', 'c', ' ', '#', '}'] : Text).drop x.length := by
      rw [hxy]
      exact (List.drop_left' rfl).symm
    have hxl : x.length < 7 := by
      have h0 := congrArg List.length hxy
      simp only [List.length_append] at h0
      have hyl : y.length ≠ 0 := fun hz => hy (List.length_eq_zero.mp hz)
      simp only [List.length_cons, List.length_nil] at h0
      omega
    rw [hylen]
    exact hdec x.length hxl
  · exact ⟨[], [' ', 'c', ' ', '#', '}'], rfl⟩

theorem wsSplit_ws : ∀ (s : Text), ∀ c ∈ (wsSplit s).1, isPySpace c = true := by
  intro s
  induction s with
  | nil => intro c hc; simp [wsSplit] at hc
  | cons d ds ih =>
    intro c hc
    by_cases hd : isPySpace d
    · simp only [wsSplit, if_pos hd] at hc
      rcases List.mem_cons.mp hc with h | h
      · rw [h]; exact hd
      · exact ih c h
    · simp only [wsSplit, if_neg hd] at hc
      exact absurd hc (List.not_mem_nil c)

theorem wsSplit_exact :
    ∀ {sp : Text}, isWs sp → ∀ {c : Char} {rest : Text}, isPySpace c = false →
      wsSplit (sp ++ (c :: rest)) = (sp, c :: rest) := by
  intro sp
  induction sp with
  | nil =>
    intro _ c rest hc
    rw [List.nil_append, wsSplit]
    simp [hc]
  | cons d ds ih =>
    intro hws c rest hc
    have hd : isPySpace d = true := hws d (by simp)
    rw [List.cons_append, wsSplit]
    simp only [hd, if_true]
    rw [ih (fun x hx => hws x (by simp [hx])) hc]

theorem matchWord_wordTok {w sp1 sp2 : Text} (h1 : isWs sp1) (h2 : isWs sp2)
    {c : Char} {w' : Text} (hwp : w = c :: w') (hcp : isPySpace c = false) (X : Text) :
    matchWord w (wordTok w sp1 sp2 ++ X) = some (wordTok w sp1 sp2, X) := by
  have hform : wordTok w sp1 sp2 ++ X =
      '{' :: '%' :: (sp1 ++ (c :: (w' ++ (sp2 ++ ('%' :: '}' :: X))))) := by
    rw [wordTok, hwp]
    simp [List.append_assoc]
  rw [hform, matchWord]
  have hd1 : dropPre ['{', '%']
      ('{' :: '%' :: (sp1 ++ (c :: (w' ++ (sp2 ++ ('%' :: '}' :: X)))))) =
      some (sp1 ++ (c :: (w' ++ (sp2 ++ ('%' :: '}' :: X))))) := rfl
  rw [hd1]
  simp only [Option.some_bind]
  rw [wsSplit_exact h1 hcp]
  have hd2 : dropPre w (c :: (w' ++ (sp2 ++ ('%' :: '}' :: X)))) =
      some (sp2 ++ ('%' :: '}' :: X)) := by
    rw [hwp, dropPre, if_pos rfl]
    exact dropPre_refl w' _
  rw [hd2]
  simp only [Option.some_bind]
  rw [wsSplit_exact h2 (by decide)]
  have hd3 : dropPre ['%', '}'] ('%' :: '}' :: X) = some X := rfl
  rw [hd3]
  rw [Option.map_some']
  rw [wordTok, hwp]
  simp [List.append_assoc]

theorem matchWord_shape_ws {w s m r : Text} (h : matchWord w s = some (m, r)) :
    ∃ w1 w2, isWs w1 ∧ isWs w2 ∧ m = wordTok w w1 w2 ∧ s = m ++ r := by
  obtain ⟨_, _, _, hssplit⟩ := matchWord_shape h
  simp only [matchWord, Option.bind_eq_some, Option.map_eq_some'] at h
  obtain ⟨s1, h1, s2, h2, s3, h3, h4⟩ := h
  have hm : m = '{' :: '%' :: (wsSplit s1).1 ++ w ++ (wsSplit s2).1 ++ ['%', '}'] :=
    (congrArg Prod.fst h4).symm
  refine ⟨(wsSplit s1).1, (wsSplit s2).1, wsSplit_ws s1, wsSplit_ws s2, ?_, hssplit⟩
  rw [hm, wordTok]
  simp [List.append_assoc]

theorem findPatP_not_none {α : Type} {f : Text → Option (α × Text)} :
    ∀ (u v : Text), f v ≠ none → findPatP f (u ++ v) ≠ none := by
  intro u
  induction u with
  | nil =>
    intro v hq
    rw [List.nil_append]
    cases v with
    | nil =>
      rw [findPatP]
      cases hf : f [] with
      | none => exact absurd hf hq
      | some q => simp
    | cons c cs =>
      cases hf : f (c :: cs) with
      | none => exact absurd hf hq
      | some q => rw [findPatP_cons_some hf]; simp
  | cons c u' ih =>
    intro v hq
    rw [List.cons_append]
    cases hf : f (c :: (u' ++ v)) with
    | some q2 => rw [findPatP_cons_some hf]; simp
    | none =>
      rw [findPatP_cons_none hf]
      intro hcontra
      rw [Option.map_eq_none'] at hcontra
      exact ih v hq hcontra

theorem hasDelim_of_search {opn cls s : Text} {t : Text × Text × Text}
    (h : findPatP (matchDelim opn cls) s = some t) : hasDelim opn cls s := by
  have hsplit := findPatP_split (γ := fun a => a)
    (fun s' q' hq => by
      obtain ⟨_, _, hx⟩ := matchDelim_shape (m := q'.1) (r := q'.2) hq
      exact hx) h
  obtain ⟨s', hs'⟩ := findPatP_matched h
  obtain ⟨mid, hm, _⟩ := matchDelim_shape hs'
  refine ⟨t.1.length, t.1.length + opn.length + mid.length, by omega, ?_, ?_⟩
  · refine ⟨t.1, mid ++ (cls ++ t.2.2), ?_, rfl⟩
    rw [hsplit, hm]
    simp [List.append_assoc]
  · refine ⟨t.1 ++ (opn ++ mid), t.2.2, ?_, ?_⟩
    · rw [hsplit, hm]
      simp [List.append_assoc]
    · simp only [List.length_append]
      omega

theorem hasRaw_of_search {s : Text} {t : Text × Text × Text}
    (h : findPatP matchRawAt s = some t) : hasRaw s := by
  have hsplit := findPatP_split (γ := fun a => a)
    (fun s' q' hq => matchRawAt_split (m := q'.1) (r := q'.2) hq) h
  obtain ⟨s', hs'⟩ := findPatP_matched h
  simp only [matchRawAt, Option.bind_eq_some, Option.map_eq_some'] at hs'
  obtain ⟨q, hq, t2, ht2, ht3⟩ := hs'
  obtain ⟨sp1, sp2, hw1, hw2, hqm, _⟩ := matchWord_shape_ws (m := q.1) (r := q.2)
    (by rw [hq])
  have hsplit2 := findPatP_split (γ := fun a => a)
    (fun s'' q'' hq'' => by
      obtain ⟨_, _, _, hx⟩ := matchWord_shape (m := q''.1) (r := q''.2) hq''
      exact hx) ht2
  obtain ⟨s'', hs''⟩ := findPatP_matched ht2
  obtain ⟨sp3, sp4, hw3, hw4, hem, _⟩ := matchWord_shape_ws hs''
  have hm1 : t.2.1 = q.1 ++ t2.1 ++ t2.2.1 := (congrArg Prod.fst ht3).symm
  have hm2 : t.2.2 = t2.2.2 := (congrArg Prod.snd ht3).symm
  refine ⟨t.1.length, t.1.length + q.1.length + t2.1.length, sp1, sp2, sp3, sp4,
    hw1, hw2, hw3, hw4, by rw [← hqm]; omega, ?_, ?_⟩
  · refine ⟨t.1, t2.1 ++ (t2.2.1 ++ t2.2.2), ?_, rfl⟩
    rw [hsplit, hm1, hm2, ← hqm]
    simp [List.append_assoc]
  · refine ⟨t.1 ++ (q.1 ++ t2.1), t2.2.2, ?_, ?_⟩
    · rw [hsplit, hm1, hm2, ← hem]
      simp [List.append_assoc]
    · simp only [List.length_append]
      omega

theorem jsearch_some_hasPat {p : JPat} {s : Text} {t : Text × Text × Text}
    (h : jsearch p s = some t) : hasPat p s := by
  cases p with
  | raw => exact hasRaw_of_search h
  | cmt => exact hasDelim_of_search h
  | stmt => exact hasDelim_of_search h
  | expr => exact hasDelim_of_search h

theorem search_of_hasDelim {opn cls s : Text} (hcls : cls ≠ [])
    (h : hasDelim opn cls s) : findPatP (matchDelim opn cls) s ≠ none := by
  obtain ⟨i, j, hij, ⟨u1, v1, he1, hl1⟩, ⟨u2, v2, he2, hl2⟩⟩ := h
  have hdrop1 : s.drop (i + opn.length) = v1 := by
    rw [he1, ← List.append_assoc]
    apply List.drop_left'
    rw [List.length_append, hl1]
  have hdrop2 : s.drop (i + opn.length) = u2.drop (i + opn.length) ++ (cls ++ v2) := by
    rw [he2]
    exact List.drop_append_of_le_length (by omega)
  have hocc : occursTok cls v1 := by
    refine ⟨u2.drop (i + opn.length), v2, ?_⟩
    rw [← hdrop1, hdrop2]
    rw [List.append_assoc]
  have hfind : findTok cls v1 ≠ none := by
    intro hc
    exact (findTok_none_iff hcls).mp hc hocc
  cases hft : findTok cls v1 with
  | none => exact absurd hft hfind
  | some q2 =>
    have hmd : matchDelim opn cls (opn ++ v1) = some (opn ++ q2.1 ++ cls, q2.2) := by
      rw [matchDelim, dropPre_refl]
      simp only [Option.some_bind]
      rw [hft]
      rfl
    rw [show s = u1 ++ (opn ++ v1) from he1]
    exact findPatP_not_none u1 (opn ++ v1) (by rw [hmd]; simp)

theorem search_of_hasRaw {s : Text} (h : hasRaw s) : findPatP matchRawAt s ≠ none := by
  obtain ⟨i, j, sp1, sp2, sp3, sp4, hw1, hw2, hw3, hw4, hij,
    ⟨u1, v1, he1, hl1⟩, ⟨u2, v2, he2, hl2⟩⟩ := h
  have hdrop1 : s.drop (i + (wordTok ['r', 'a', 'w'] sp1 sp2).length) = v1 := by
    rw [he1, ← List.append_assoc]
    apply List.drop_left'
    rw [List.length_append, hl1]
  have hdrop2 : s.drop (i + (wordTok ['r', 'a', 'w'] sp1 sp2).length) =
      u2.drop (i + (wordTok ['r', 'a', 'w'] sp1 sp2).length) ++
        (wordTok ['e', 'n', 'd', 'r', 'a', 'w'] sp3 sp4 ++ v2) := by
    rw [he2]
    exact List.drop_append_of_le_length (by omega)
  have hinner : findPatP (matchWord ['e', 'n', 'd', 'r', 'a', 'w']) v1 ≠ none := by
    rw [← hdrop1, hdrop2]
    exact findPatP_not_none _ _
      (by rw [matchWord_wordTok hw3 hw4 rfl (by decide) v2]; simp)
  have hra : matchRawAt (wordTok ['r', 'a', 'w'] sp1 sp2 ++ v1) ≠ none := by
    rw [matchRawAt, matchWord_wordTok hw1 hw2 rfl (by decide) v1]
    simp only [Option.some_bind]
    intro hcontra
    rw [Option.map_eq_none'] at hcontra
    exact hinner hcontra
  rw [show s = u1 ++ (wordTok ['r', 'a', 'w'] sp1 sp2 ++ v1) from he1]
  exact findPatP_not_none u1 _ hra

/-- A pattern-delimiter token occurring in a text with a placeholder spliced
in lies entirely before or entirely after the placeholder: it cannot overlap
it, because its first character is not a placeholder character and `<` does
not occur in any delimiter token. -/
theorem tokAt_replace {b a t k : Text} {i : Nat}
    (hne : t ≠ []) (hlt : '<' ∉ t)
    (hh : ∀ x, t.head? = some x → x ∉ phOf k)
    (h : tokAt (b ++ (phOf k ++ a)) t i) :
    (∃ u v, b = u ++ (t ++ v) ∧ u.length = i) ∨
    (∃ u v, a = u ++ (t ++ v) ∧ i = b.length + (phOf k).length + u.length) := by
  obtain ⟨u, v, heq, hl⟩ := h
  by_cases h1 : i + t.length ≤ b.length
  · left
    have htake1 : (b ++ (phOf k ++ a)).take (i + t.length) = b.take (i + t.length) :=
      List.take_append_of_le_length h1
    have htake2 : (b ++ (phOf k ++ a)).take (i + t.length) = u ++ t := by
      rw [heq, ← List.append_assoc]
      apply List.take_left'
      rw [List.length_append, hl]
    refine ⟨u, b.drop (i + t.length), ?_, hl⟩
    have hb : b = b.take (i + t.length) ++ b.drop (i + t.length) :=
      (List.take_append_drop _ _).symm
    rw [← htake1, htake2] at hb
    conv_lhs => rw [hb]
    rw [List.append_assoc]
  · by_cases h2 : b.length + (phOf k).length ≤ i
    · right
      have hdrop1 : (b ++ (phOf k ++ a)).drop (b.length + (phOf k).length) = a := by
        rw [← List.append_assoc]
        apply List.drop_left'
        rw [List.length_append]
      have hdrop2 : (b ++ (phOf k ++ a)).drop (b.length + (phOf k).length) =
          u.drop (b.length + (phOf k).length) ++ (t ++ v) := by
        rw [heq]
        exact List.drop_append_of_le_length (by omega)
      refine ⟨u.drop (b.length + (phOf k).length), v, by rw [← hdrop1, hdrop2], ?_⟩
      rw [List.length_drop]
      omega
    · exfalso
      push_neg at h1 h2
      by_cases h3 : i < b.length
      · have hB1 : (b ++ (phOf k ++ a))[b.length]? = some '<' := by
          rw [List.getElem?_append_right (Nat.le_refl _), Nat.sub_self, phOf_cons,
            List.cons_append]
          rfl
        have hB2 : (b ++ (phOf k ++ a))[b.length]? = t[b.length - i]? := by
          rw [heq, List.getElem?_append_right (by omega), hl]
          exact List.getElem?_append_left (by omega)
        rw [hB2] at hB1
        exact hlt (List.getElem?_mem hB1)
      · push_neg at h3
        have hI1 : (b ++ (phOf k ++ a))[i]? = t.head? := by
          rw [heq, List.getElem?_append_right (by omega), hl, Nat.sub_self,
            ← List.head?_eq_getElem?, List.head?_append_of_ne_nil t hne]
        have hI2 : (b ++ (phOf k ++ a))[i]? = (phOf k)[i - b.length]? := by
          rw [List.getElem?_append_right h3]
          exact List.getElem?_append_left (by omega)
        have hlt36 : i - b.length < (phOf k).length := by omega
        rw [hI2, (List.getElem?_eq_some_getElem_iff _ _ hlt36).mpr trivial] at hI1
        exact hh _ hI1.symm (List.getElem_mem hlt36)

theorem search_of_hasPat {p : JPat} {s : Text} (h : hasPat p s) : jsearch p s ≠ none := by
  cases p with
  | raw => exact search_of_hasRaw h
  | cmt => exact search_of_hasDelim (by simp) h
  | stmt => exact search_of_hasDelim (by simp) h
  | expr => exact search_of_hasDelim (by simp) h

theorem pat_char_notin_phOf {k : Text} (hkc : ∀ x ∈ k, x = 'J' ∨ x.isDigit = true)
    {x : Char} (hx : x = '{' ∨ x = '#' ∨ x = '%' ∨ x = '}') : x ∉ phOf k := by
  intro hmem
  rcases mem_phOf hkc hmem with h | h | h | h
  · rcases hx with rfl | rfl | rfl | rfl <;> revert h <;> decide
  · rcases hx with rfl | rfl | rfl | rfl <;> revert h <;> decide
  · rcases hx with rfl | rfl | rfl | rfl <;> exact absurd h (by decide)
  · rcases hx with rfl | rfl | rfl | rfl <;> exact absurd h (by decide)

theorem lt_notin_wordTok {w sp1 sp2 : Text} (h1 : isWs sp1) (h2 : isWs sp2)
    (hw : '<' ∉ w) : '<' ∉ wordTok w sp1 sp2 := by
  intro hmem
  rw [wordTok] at hmem
  rcases List.mem_cons.mp hmem with h | h
  · exact absurd h (by decide)
  · rcases List.mem_cons.mp h with h | h
    · exact absurd h (by decide)
    · rcases List.mem_append.mp h with h | h
      · exact absurd (h1 '<' h) (by decide)
      · rcases List.mem_append.mp h with h | h
        · exact hw h
        · rcases List.mem_append.mp h with h | h
          · exact absurd (h2 '<' h) (by decide)
          · rcases List.mem_cons.mp h with h | h
            · exact absurd h (by decide)
            · rcases List.mem_cons.mp h with h | h
              · exact absurd h (by decide)
              · exact absurd h (List.not_mem_nil '<')

theorem wordTok_ne_nil (w sp1 sp2 : Text) : wordTok w sp1 sp2 ≠ [] := by
  rw [wordTok]
  simp

theorem wordTok_head (w sp1 sp2 : Text) : (wordTok w sp1 sp2).head? = some '{' := by
  rw [wordTok]
  rfl

theorem phOf_len_pos (k : Text) : 1 ≤ (phOf k).length := by
  rw [phOf_cons]
  simp

theorem hasDelim_replace {opn cls b m a k : Text}
    (hkc : ∀ x ∈ k, x = 'J' ∨ x.isDigit = true)
    (hone : opn ≠ []) (hcne : cls ≠ [])
    (hol : '<' ∉ opn) (hcl : '<' ∉ cls)
    (hoh : ∀ x, opn.head? = some x → x ∉ phOf k)
    (hch : ∀ x, cls.head? = some x → x ∉ phOf k)
    (h : hasDelim opn cls (b ++ (phOf k ++ a))) :
    hasDelim opn cls (b ++ (m ++ a)) := by
  obtain ⟨i, j, hij, hto, htc⟩ := h
  have hL := phOf_len_pos k
  rcases tokAt_replace hone hol hoh hto with ⟨u1, v1, hb1, hbl1⟩ | ⟨u1, v1, ha1, hal1⟩
  · have hblen1 : b.length = i + opn.length + v1.length := by
      rw [hb1]
      simp only [List.length_append, hbl1]
      omega
    rcases tokAt_replace hcne hcl hch htc with ⟨u2, v2, hb2, hbl2⟩ | ⟨u2, v2, ha2, hal2⟩
    · refine ⟨i, j, hij, ?_, ?_⟩
      · exact ⟨u1, v1 ++ (m ++ a), by rw [hb1]; simp [List.append_assoc], hbl1⟩
      · exact ⟨u2, v2 ++ (m ++ a), by rw [hb2]; simp [List.append_assoc], hbl2⟩
    · refine ⟨i, b.length + m.length + u2.length, by omega, ?_, ?_⟩
      · exact ⟨u1, v1 ++ (m ++ a), by rw [hb1]; simp [List.append_assoc], hbl1⟩
      · refine ⟨b ++ (m ++ u2), v2, ?_, ?_⟩
        · rw [ha2]
          simp [List.append_assoc]
        · simp only [List.length_append]
          omega
  · rcases tokAt_replace hcne hcl hch htc with ⟨u2, v2, hb2, hbl2⟩ | ⟨u2, v2, ha2, hal2⟩
    · exfalso
      have hblen2 : b.length = j + cls.length + v2.length := by
        rw [hb2]
        simp only [List.length_append, hbl2]
        omega
      have hone' : 1 ≤ opn.length := by
        cases opn with
        | nil => exact absurd rfl hone
        | cons _ _ => simp
      omega
    · refine ⟨b.length + m.length + u1.length, b.length + m.length + u2.length,
        by omega, ?_, ?_⟩
      · refine ⟨b ++ (m ++ u1), v1, ?_, ?_⟩
        · rw [ha1]
          simp [List.append_assoc]
        · simp only [List.length_append]
          omega
      · refine ⟨b ++ (m ++ u2), v2, ?_, ?_⟩
        · rw [ha2]
          simp [List.append_assoc]
        · simp only [List.length_append]
          omega

theorem hasRaw_replace {b m a k : Text}
    (hkc : ∀ x ∈ k, x = 'J' ∨ x.isDigit = true)
    (h : hasRaw (b ++ (phOf k ++ a))) : hasRaw (b ++ (m ++ a)) := by
  obtain ⟨i, j, sp1, sp2, sp3, sp4, hw1, hw2, hw3, hw4, hij, hto, htc⟩ := h
  have hL := phOf_len_pos k
  have hhead1 : ∀ x, (wordTok ['r', 'a', 'w'] sp1 sp2).head? = some x → x ∉ phOf k := by
    intro x hx
    rw [wordTok_head, Option.some_inj] at hx
    subst hx
    exact pat_char_notin_phOf hkc (by decide)
  have hhead2 : ∀ x, (wordTok ['e', 'n', 'd', 'r', 'a', 'w'] sp3 sp4).head? = some x →
      x ∉ phOf k := by
    intro x hx
    rw [wordTok_head, Option.some_inj] at hx
    subst hx
    exact pat_char_notin_phOf hkc (by decide)
  rcases tokAt_replace (wordTok_ne_nil _ _ _) (lt_notin_wordTok hw1 hw2 (by decide)) hhead1 hto
    with ⟨u1, v1, hb1, hbl1⟩ | ⟨u1, v1, ha1, hal1⟩
  · have hblen1 : b.length = i + (wordTok ['r', 'a', 'w'] sp1 sp2).length + v1.length := by
      rw [hb1]
      simp only [List.length_append, hbl1]
      omega
    rcases tokAt_replace (wordTok_ne_nil _ _ _) (lt_notin_wordTok hw3 hw4 (by decide)) hhead2 htc
      with ⟨u2, v2, hb2, hbl2⟩ | ⟨u2, v2, ha2, hal2⟩
    · refine ⟨i, j, sp1, sp2, sp3, sp4, hw1, hw2, hw3, hw4, hij, ?_, ?_⟩
      · exact ⟨u1, v1 ++ (m ++ a), by rw [hb1]; simp [List.append_assoc], hbl1⟩
      · exact ⟨u2, v2 ++ (m ++ a), by rw [hb2]; simp [List.append_assoc], hbl2⟩
    · refine ⟨i, b.length + m.length + u2.length, sp1, sp2, sp3, sp4,
        hw1, hw2, hw3, hw4, by omega, ?_, ?_⟩
      · exact ⟨u1, v1 ++ (m ++ a), by rw [hb1]; simp [List.append_assoc], hbl1⟩
      · refine ⟨b ++ (m ++ u2), v2, ?_, ?_⟩
        · rw [ha2]
          simp [List.append_assoc]
        · simp only [List.length_append]
          omega
  · rcases tokAt_replace (wordTok_ne_nil _ _ _) (lt_notin_wordTok hw3 hw4 (by decide)) hhead2 htc
      with ⟨u2, v2, hb2, hbl2⟩ | ⟨u2, v2, ha2, hal2⟩
    · exfalso
      have hblen2 : b.length =
          j + (wordTok ['e', 'n', 'd', 'r', 'a', 'w'] sp3 sp4).length + v2.length := by
        rw [hb2]
        simp only [List.length_append, hbl2]
        omega
      have hone' : 1 ≤ (wordTok ['r', 'a', 'w'] sp1 sp2).length := by
        rw [wordTok]
        simp
      omega
    · refine ⟨b.length + m.length + u1.length, b.length + m.length + u2.length,
        sp1, sp2, sp3, sp4, hw1, hw2, hw3, hw4, by omega, ?_, ?_⟩
      · refine ⟨b ++ (m ++ u1), v1, ?_, ?_⟩
        · rw [ha1]
          simp [List.append_assoc]
        · simp only [List.length_append]
          omega
      · refine ⟨b ++ (m ++ u2), v2, ?_, ?_⟩
        · rw [ha2]
          simp [List.append_assoc]
        · simp only [List.length_append]
          omega

theorem hasPat_replace {p : JPat} {b m a k : Text}
    (hkc : ∀ x ∈ k, x = 'J' ∨ x.isDigit = true)
    (h : hasPat p (b ++ (phOf k ++ a))) : hasPat p (b ++ (m ++ a)) := by
  have hdel : ∀ {opn cls : Text}, opn ≠ [] → cls ≠ [] → '<' ∉ opn → '<' ∉ cls →
      (∀ x, opn.head? = some x → x = '{' ∨ x = '#' ∨ x = '%' ∨ x = '}') →
      (∀ x, cls.head? = some x → x = '{' ∨ x = '#' ∨ x = '%' ∨ x = '}') →
      hasDelim opn cls (b ++ (phOf k ++ a)) → hasDelim opn cls (b ++ (m ++ a)) := by
    intro opn cls h1 h2 h3 h4 h5 h6 hh
    exact hasDelim_replace hkc h1 h2 h3 h4
      (fun x hx => pat_char_notin_phOf hkc (h5 x hx))
      (fun x hx => pat_char_notin_phOf hkc (h6 x hx)) hh
  cases p with
  | raw => exact hasRaw_replace hkc h
  | cmt =>
    exact hdel (by simp) (by simp) (by decide) (by decide)
      (fun x hx => by rw [show (['{', '#'] : Text).head? = some '{' from rfl, Option.some_inj] at hx; subst hx; decide)
      (fun x hx => by rw [show (['#', '}'] : Text).head? = some '#' from rfl, Option.some_inj] at hx; subst hx; decide) h
  | stmt =>
    exact hdel (by simp) (by simp) (by decide) (by decide)
      (fun x hx => by rw [show (['{', '%'] : Text).head? = some '{' from rfl, Option.some_inj] at hx; subst hx; decide)
      (fun x hx => by rw [show (['%', '}'] : Text).head? = some '%' from rfl, Option.some_inj] at hx; subst hx; decide) h
  | expr =>
    exact hdel (by simp) (by simp) (by decide) (by decide)
      (fun x hx => by rw [show (['{', '{'] : Text).head? = some '{' from rfl, Option.some_inj] at hx; subst hx; decide)
      (fun x hx => by rw [show (['}', '}'] : Text).head? = some '}' from rfl, Option.some_inj] at hx; subst hx; decide) h

theorem jsearch_none_of_maskStep {p : JPat} {st : MState} (h : maskStep p st = none) :
    jsearch p st.masked = none := by
  rw [maskStep] at h
  exact Option.map_eq_none'.mp h

/-- Replacing a match with a placeholder never creates a new match of any
pattern class: a text with no match of class `p` still has none after a
replacement step of any class `p'`. -/
theorem maskStep_presNone {p p' : JPat} {st st' : MState}
    (hn : jsearch p st.masked = none) (hs : maskStep p' st = some st') :
    jsearch p st'.masked = none := by
  obtain ⟨b, m, a, _, hmask, hmask', _, _, _, _⟩ := maskStep_some hs
  cases hq : jsearch p st'.masked with
  | none => rfl
  | some t =>
    exfalso
    rw [hmask', List.append_assoc] at hq
    have hhas := jsearch_some_hasPat hq
    have hhas' := hasPat_replace (m := m) (keyOf_chars st.counter) hhas
    apply search_of_hasPat hhas'
    rw [hmask, List.append_assoc] at hn
    exact hn

theorem maskLoop_presNone {p p' : JPat} :
    ∀ (fuel : Nat) (st : MState), jsearch p st.masked = none →
      jsearch p (maskLoop p' fuel st).masked = none := by
  intro fuel
  induction fuel with
  | zero => intro st h; exact h
  | succ f ih =>
    intro st h
    cases hs : maskStep p' st with
    | none =>
      have hred : maskLoop p' (f + 1) st = st := by rw [maskLoop, hs]
      rw [hred]
      exact h
    | some st' =>
      have hred : maskLoop p' (f + 1) st = maskLoop p' f st' := by rw [maskLoop, hs]
      rw [hred]
      exact ih st' (maskStep_presNone h hs)

theorem foldMask_presNone {p : JPat} :
    ∀ (ps : List JPat) (st : MState), jsearch p st.masked = none →
      jsearch p (foldMask ps st).masked = none := by
  intro ps
  induction ps with
  | nil => intro st h; exact h
  | cons p' ps ih =>
    intro st h
    rw [foldMask_cons]
    exact ih _ (maskLoop_presNone _ st h)

/-- Each pattern class's own loop runs to exhaustion, and later classes'
replacements never reintroduce a match, so the final masked text has no
remaining match of any of the four patterns. -/
theorem maskJinja_nomatch (src : Text) : ∀ p, jsearch p (maskJinja src).1 = none := by
  have hm : ∀ (q : JPat) (st : MState),
      jsearch q (maskLoop q (braceCount st.masked + 1) st).masked = none := fun q st =>
    jsearch_none_of_maskStep (maskLoop_exhaust _ st (Nat.lt_succ_self _))
  intro p
  show jsearch p (foldMask maskPats ⟨src, [], 0⟩).masked = none
  rw [show maskPats = [JPat.raw, JPat.cmt, JPat.stmt, JPat.expr] from rfl]
  rw [foldMask_cons]
  cases p with
  | raw => exact foldMask_presNone _ _ (hm JPat.raw _)
  | cmt =>
    rw [foldMask_cons]
    exact foldMask_presNone _ _ (hm JPat.cmt _)
  | stmt =>
    rw [foldMask_cons, foldMask_cons]
    exact foldMask_presNone _ _ (hm JPat.stmt _)
  | expr =>
    rw [foldMask_cons, foldMask_cons, foldMask_cons, foldMask_nil]
    exact hm JPat.expr _

theorem shapeKeysScan_succ_some {fuel : Nat} {c : Char} {cs k r : Text}
    (h : matchShapeAt (c :: cs) = some (k, r)) :
    shapeKeysScan (fuel + 1) (c :: cs) = k :: shapeKeysScan fuel r := by
  rw [shapeKeysScan, h]

theorem shapeKeysScan_succ_none {fuel : Nat} {c : Char} {cs : Text}
    (h : matchShapeAt (c :: cs) = none) :
    shapeKeysScan (fuel + 1) (c :: cs) = shapeKeysScan fuel cs := by
  rw [shapeKeysScan, h]

/-- The placeholder occurrences of the flattening of a well-formed
decomposition are exactly its holes, in order. -/
theorem shapeKeys_flat :
    ∀ (n : Nat) (segs : List Seg) (fuel : Nat), goodSegs segs →
      (flatSegs segs).length + segs.length ≤ n →
      (flatSegs segs).length < fuel →
      shapeKeysScan fuel (flatSegs segs) = holeKeys segs := by
  intro n
  induction n with
  | zero =>
    intro segs fuel hg hn hf
    cases segs with
    | nil =>
      cases fuel with
      | zero => exact absurd hf (by simp [flatSegs])
      | succ g => simp [flatSegs, shapeKeysScan, holeKeys]
    | cons s rest => simp [List.length_cons] at hn
  | succ nn ih =>
    intro segs fuel hg hn hf
    cases segs with
    | nil =>
      cases fuel with
      | zero => exact absurd hf (by simp [flatSegs])
      | succ g => simp [flatSegs, shapeKeysScan, holeKeys]
    | cons s rest =>
      cases s with
      | lit t =>
        obtain ⟨hsf, hadj, hgr⟩ := hg
        cases t with
        | nil =>
          have h1 : flatSegs (Seg.lit [] :: rest) = flatSegs rest := by
            rw [flatSegs]; simp
          rw [h1] at hn hf ⊢
          rw [ih rest fuel hgr (by rw [List.length_cons] at hn; omega) hf]
          rw [holeKeys]
        | cons c t' =>
          have h1 : flatSegs (Seg.lit (c :: t') :: rest) = c :: (t' ++ flatSegs rest) := by
            rw [flatSegs]; simp
          cases fuel with
          | zero => exact absurd hf (by simp)
          | succ g =>
            rw [h1, shapeKeysScan_succ_none (by
              have h0 := no_shape_in_lit (t := c :: t') (by simp) hsf hadj hgr
              rw [show (c :: t') ++ flatSegs rest = c :: (t' ++ flatSegs rest) from rfl] at h0
              exact h0)]
            have h2 : t' ++ flatSegs rest = flatSegs (Seg.lit t' :: rest) := by rw [flatSegs]
            rw [h2, ih (Seg.lit t' :: rest) g ⟨shapeFree_tail hsf, hadj, hgr⟩
              (by
                rw [h1] at hn
                rw [flatSegs]
                simp only [List.length_cons, List.length_append] at hn ⊢
                omega)
              (by
                rw [h1] at hf
                rw [flatSegs]
                simp only [List.length_cons] at hf
                omega)]
            rw [holeKeys, holeKeys]
      | hole k =>
        obtain ⟨hk, hgr⟩ := hg
        have h1 : flatSegs (Seg.hole k :: rest) = phOf k ++ flatSegs rest := by rw [flatSegs]
        cases fuel with
        | zero =>
          exfalso
          rw [h1] at hf
          exact absurd hf (Nat.not_lt_zero _)
        | succ g =>
          have h36 := phOf_length hk
          have hcons : phOf k ++ flatSegs rest =
              '<' :: (('x' :: ['-', 'j', 'i', 'n', 'j', 'a', ' ', 'd', 'a', 't', 'a', '-', 'k', '=', '"'] ++ k ++ phSuf) ++ flatSegs rest) := by
            rw [phOf_cons]
            simp [List.append_assoc]
          rw [h1, hcons, shapeKeysScan_succ_some (by rw [← hcons]; exact matchShapeAt_phOf hk)]
          rw [ih rest g hgr
            (by
              rw [h1, List.length_append, h36, List.length_cons] at hn
              omega)
            (by
              rw [h1, List.length_append, h36] at hf
              omega)]
          rw [holeKeys]

/-- C10 (amended): masking scans each pattern class to exhaustion and no
later replacement reintroduces a match, so the masked text contains no
remaining match of any of the four patterns; the mapping's keys are exactly
the consecutive zero-padded six-digit keys `J000000, J000001, ...` in
allocation order; and — provided the input has no placeholder-shaped
substring, no mapping value has one (no nested masking), and at most 10^6
keys were allocated — the placeholder occurrences of the masked text are
exactly the mapping's (pairwise distinct) keys, each occurring exactly
once.  The unrestricted once-occurrence claim is refuted by
`claim_C10_counterexample`. -/
theorem claim_C10_invariants (src : Text) (h1 : shapeFree src)
    (h2 : ∀ v ∈ (maskJinja src).2.map Prod.snd, shapeFree v)
    (h3 : (maskJinja src).2.length ≤ 1000000) :
    (∀ p, jsearch p (maskJinja src).1 = none) ∧
    (maskJinja src).2.map Prod.fst = (List.range (maskJinja src).2.length).map keyOf ∧
    (shapeKeys (maskJinja src).1).Perm ((maskJinja src).2.map Prod.fst) := by
  have hinv := maskJinja_inv src h1 h2 h3
  obtain ⟨segs, hg, hflat, _, hperm, hkeys⟩ := hinv
  have hctr : (foldMask maskPats ⟨src, [], 0⟩).counter =
      (foldMask maskPats ⟨src, [], 0⟩).mapping.length :=
    foldMask_counterLen maskPats _ rfl
  refine ⟨maskJinja_nomatch src, ?_, ?_⟩
  · show (foldMask maskPats ⟨src, [], 0⟩).mapping.map Prod.fst =
      (List.range (foldMask maskPats ⟨src, [], 0⟩).mapping.length).map keyOf
    rw [hkeys, hctr]
  · show (shapeKeys (foldMask maskPats ⟨src, [], 0⟩).masked).Perm
      ((foldMask maskPats ⟨src, [], 0⟩).mapping.map Prod.fst)
    rw [← hflat, shapeKeys]
    rw [shapeKeys_flat ((flatSegs segs).length + segs.length) segs _ hg (Nat.le_refl _)
      (Nat.lt_succ_self _)]
    exact hperm

/-- C10, counterexample to the unrestricted claim: for the shape-free input
`{{ a {# c #} b }}`, key `J000000` is allocated (for the inner comment) but
occurs zero times in the masked text, because the expression pass swallowed
its placeholder into the value mapped by `J000001`. -/
theorem claim_C10_counterexample :
    (∀ i, i < (['{', '{', ' ', 'a', ' ', '{', '#', ' ', 'c', ' ', '#', '}', ' ', 'b', ' ', '}', '}'] : Text).length →
      matchShapeAt ((['{', '{', ' ', 'a', ' ', '{', '#', ' ', 'c', ' ', '#', '}', ' ', 'b', ' ', '}', '}'] : Text).drop i) = none) ∧
    ['J', '0', '0', '0', '0', '0', '0'] ∈
      (maskJinja ['{', '{', ' ', 'a', ' ', '{', '#', ' ', 'c', ' ', '#', '}', ' ', 'b', ' ', '}', '}']).2.map Prod.fst ∧
    ['J', '0', '0', '0', '0', '0', '0'] ∉
      shapeKeys (maskJinja ['{', '{', ' ', 'a', ' ', '{', '#', ' ', 'c', ' ', '#', '}', ' ', 'b', ' ', '}', '}']).1 := by
  refine ⟨by decide, by decide, by decide⟩

/-- C10, witness: the amended invariants at the concrete input `a {{ x }} b`. -/
theorem claim_C10_witness :
    (∀ p, jsearch p (maskJinja ['a', ' ', '{', '{', ' ', 'x', ' ', '}', '}', ' ', 'b']).1 = none) ∧
    (maskJinja ['a', ' ', '{', '{', ' ', 'x', ' ', '}', '}', ' ', 'b']).2.map Prod.fst =
      (List.range (maskJinja ['a', ' ', '{', '{', ' ', 'x', ' ', '}', '}', ' ', 'b']).2.length).map keyOf ∧
    (shapeKeys (maskJinja ['a', ' ', '{', '{', ' ', 'x', ' ', '}', '}', ' ', 'b']).1).Perm
      ((maskJinja ['a', ' ', '{', '{', ' ', 'x', ' ', '}', '}', ' ', 'b']).2.map Prod.fst) := by
  apply claim_C10_invariants
  · exact shapeFree_of_bounded (by decide)
  · intro v hv
    have hm : (maskJinja ['a', ' ', '{', '{', ' ', 'x', ' ', '}', '}', ' ', 'b']).2.map Prod.snd =
        [['{', '{', ' ', 'x', ' ', '}', '}']] := by decide
    rw [hm, List.mem_singleton] at hv
    subst hv
    exact shapeFree_of_bounded (by decide)
  · decide

/-- C8, witness: with the map `{}` the placeholder `J000000` makes the scan
fail; with the map `{J000000 ↦ "X"}` it is spliced byte-for-byte. -/
theorem claim_C8_witness :
    unmaskJinja (['a'] ++ (phOf ['J', '0', '0', '0', '0', '0', '0'] ++ ['b'])) [] = none ∧
    unmaskJinja (['a'] ++ (phOf ['J', '0', '0', '0', '0', '0', '0'] ++ ['b']))
        [(['J', '0', '0', '0', '0', '0', '0'], ['X'])] = some ['a', 'X', 'b'] := by
  constructor
  · exact (claim_C8_unmask [] ['a'] ['J', '0', '0', '0', '0', '0', '0'] ['b']
      (shapeFree_of_bounded (by decide))
      ⟨['0', '0', '0', '0', '0', '0'], rfl, rfl, by decide⟩).1 rfl
  · have h := (claim_C8_unmask [(['J', '0', '0', '0', '0', '0', '0'], ['X'])]
      ['a'] ['J', '0', '0', '0', '0', '0', '0'] ['b']
      (shapeFree_of_bounded (by decide))
      ⟨['0', '0', '0', '0', '0', '0'], rfl, rfl, by decide⟩).2 ['X'] rfl
    rw [h]
    rfl

end Epd
